import Mathlib

/-!
# Universal Content Downloader: convert and download handlers

A shallow embedding of `src/api/convert.js` and `src/api/download.js`.

* JavaScript strings are lists of characters (`Str`); `length` is the list length (one
  unit per character, as for text of the Basic Multilingual Plane).
* The regular expressions of the source are values of `Re`, run by a backtracking
  matcher with the priorities of the ECMAScript matcher (greedy and lazy
  repetition, ordered alternation, capture groups, `^` and `$` without the `m` flag).
  Every repetition in the source ranges over a character class, so `Re` has
  repetition of character classes only and the matcher needs no fuel.
* `String.prototype.replace` with a global regular expression is `replaceAll`.
* `parseInt`, `JSON.stringify`, `trim`, `startsWith` and `includes` follow ECMAScript.  The
  result of `parseInt` is a `JNum`: `NaN`, an infinity, or the integer a double holds (the
  digits read are rounded to the nearest double, ties to even).
* Library calls (`new URL`, `axios`, `cheerio`, `mime`, `Date`) and the floating-point part of
  `formatFileSize` are parameters of the handlers (`ConvertEnv`, `DownloadEnv`); the url of a
  request body is a string or absent.
* A handler returns its response together with the upstream requests it made (`Outcome`).
-/

namespace Downloader

/-- A JavaScript string. -/
abbrev Str := List Char

/-! ## Regular expressions -/

/-- The state of the matcher: index of the next character, the characters from that
index on, and the capture groups closed so far (most recent first). -/
structure MState where
  pos : Nat
  rest : Str
  caps : List (Nat × Str)

/-- The class `\s`: white space and line terminators. -/
def isSpace (c : Char) : Bool :=
  c == '\t' || c == '\n' || c.toNat == 11 || c.toNat == 12 || c == '\r' || c == ' ' ||
  c.toNat == 0xA0 || c.toNat == 0x1680 || (0x2000 ≤ c.toNat && c.toNat ≤ 0x200A) ||
  c.toNat == 0x2028 || c.toNat == 0x2029 || c.toNat == 0x202F || c.toNat == 0x205F ||
  c.toNat == 0x3000 || c.toNat == 0xFEFF

/-- The line terminators, which `.` does not match without the `s` flag. -/
def isLineTerminator (c : Char) : Bool :=
  c == '\n' || c == '\r' || c.toNat == 0x2028 || c.toNat == 0x2029

/-- The character classes of the source: a pattern character without and with the `i` flag,
`[^x]`, `\s`, `.` without and with the `s` flag, and a range `[lo-hi]`. -/
inductive Cls where
  | one (x : Char) : Cls
  | ci (x : Char) : Cls
  | non (x : Char) : Cls
  | space : Cls
  | dot : Cls
  | any : Cls
  | range (lo hi : Char) : Cls

/-- Does the character `c` belong to the class.  Under the `i` flag an ASCII letter matches in
both cases. -/
def Cls.test : Cls → Char → Bool
  | .one x, c => c == x
  | .ci x, c => c == x.toLower || c == x.toUpper
  | .non x, c => !(c == x)
  | .space, c => isSpace c
  | .dot, c => !(isLineTerminator c)
  | .any, _ => true
  | .range lo hi, c => lo ≤ c && c ≤ hi

/-- The fragment of ECMAScript regular expressions used by the source. -/
inductive Re where
  | eps : Re
  | chr (p : Cls) : Re
  | star (p : Cls) : Re
  | lazyStar (p : Cls) : Re
  | seq (a b : Re) : Re
  | alt (a b : Re) : Re
  | group (n : Nat) (a : Re) : Re
  | bol : Re
  | eol : Re

/-- Greedy repetition `[p]*` followed by the continuation `k`: the longest run first. -/
def starGreedy (p : Char → Bool) (k : MState → Option MState) (caps : List (Nat × Str)) :
    Nat → Str → Option MState
  | pos, [] => k ⟨pos, [], caps⟩
  | pos, c :: t =>
    if p c then
      match starGreedy p k caps (pos + 1) t with
      | some m => some m
      | none => k ⟨pos, c :: t, caps⟩
    else k ⟨pos, c :: t, caps⟩

/-- Lazy repetition `[p]*?` followed by the continuation `k`: the shortest run first. -/
def starLazy (p : Char → Bool) (k : MState → Option MState) (caps : List (Nat × Str)) :
    Nat → Str → Option MState
  | pos, [] => k ⟨pos, [], caps⟩
  | pos, c :: t =>
    match k ⟨pos, c :: t, caps⟩ with
    | some m => some m
    | none => if p c then starLazy p k caps (pos + 1) t else none

/-- The backtracking matcher in continuation-passing style. -/
def Re.matchK : Re → MState → (MState → Option MState) → Option MState
  | .eps, st, k => k st
  | .chr p, st, k =>
    match st.rest with
    | [] => none
    | c :: t => if p.test c then k ⟨st.pos + 1, t, st.caps⟩ else none
  | .star p, st, k => starGreedy p.test k st.caps st.pos st.rest
  | .lazyStar p, st, k => starLazy p.test k st.caps st.pos st.rest
  | .seq a b, st, k => a.matchK st (fun st1 => b.matchK st1 k)
  | .alt a b, st, k =>
    match a.matchK st k with
    | some m => some m
    | none => b.matchK st k
  | .group n a, st, k =>
    a.matchK st (fun st1 => k ⟨st1.pos, st1.rest, (n, st.rest.take (st1.pos - st.pos)) :: st1.caps⟩)
  | .bol, st, k => if st.pos = 0 then k st else none
  | .eol, st, k =>
    match st.rest with
    | [] => k st
    | _ :: _ => none

/-- One match attempt at index `pos`, where `s` is the input from `pos` on. -/
def execAt (r : Re) (pos : Nat) (s : Str) : Option MState :=
  r.matchK ⟨pos, s, []⟩ some

/-- The text of capture group `n` (the empty string when the group did not take part). -/
def cap (n : Nat) (m : MState) : Str :=
  match m.caps.lookup n with
  | some s => s
  | none => []

/-- The loop of `String.prototype.replace` with a global regular expression.  `skip` counts
the characters of the current match that are still to be dropped. -/
def replaceLoop (r : Re) (f : MState → Str) : Nat → Nat → Str → Str
  | _, pos, [] =>
    match execAt r pos [] with
    | some m => f m
    | none => []
  | skip + 1, pos, _ :: t => replaceLoop r f skip (pos + 1) t
  | 0, pos, c :: t =>
    match execAt r pos (c :: t) with
    | none => c :: replaceLoop r f 0 (pos + 1) t
    | some m =>
      if m.pos - pos = 0 then f m ++ c :: replaceLoop r f 0 (pos + 1) t
      else f m ++ replaceLoop r f (m.pos - pos - 1) (pos + 1) t

/-- The call `s.replace(/r/g, f)`. -/
def replaceAll (r : Re) (f : MState → Str) (s : Str) : Str :=
  replaceLoop r f 0 0 s

/-- The scan of `RegExp.prototype.test`: is there an index with a match. -/
def testFrom (r : Re) : Nat → Str → Bool
  | pos, [] => (execAt r pos []).isSome
  | pos, c :: t => (execAt r pos (c :: t)).isSome || testFrom r (pos + 1) t

/-- The call `/r/.test(s)`. -/
def test (r : Re) (s : Str) : Bool :=
  testFrom r 0 s

/-! ## Building expressions -/

/-- Concatenation of a list of expressions. -/
def seqs : List Re → Re
  | [] => .eps
  | [r] => r
  | r :: rs => .seq r (seqs rs)

/-- Ordered alternation of a list of expressions. -/
def alts : List Re → Re
  | [] => .eps
  | [r] => r
  | r :: rs => .alt r (alts rs)

/-- A literal under the `i` flag. -/
def litCI (s : Str) : Re := seqs (s.map (fun c => Re.chr (.ci c)))

/-- The optional character `x?` (greedy). -/
def optChar (x : Char) : Re := .alt (.chr (.one x)) .eps

/-! ## parseInt -/

/-- The value of a digit in radix 10. -/
def digitVal (c : Char) : Option Nat :=
  if '0' ≤ c && c ≤ '9' then some (c.toNat - 48) else none

/-- The value of a digit in radix 16. -/
def hexVal (c : Char) : Option Nat :=
  if '0' ≤ c && c ≤ '9' then some (c.toNat - 48)
  else if 'a' ≤ c && c ≤ 'f' then some (c.toNat - 87)
  else if 'A' ≤ c && c ≤ 'F' then some (c.toNat - 55)
  else none

/-- The longest run of digits at the head of `s`, read in the given radix; `none` when
there is no digit. -/
def readDigits (radix : Nat) (val : Char → Option Nat) : Option Nat → Str → Option Nat
  | acc, [] => acc
  | acc, c :: t =>
    match val c with
    | some d => readDigits radix val (some (acc.getD 0 * radix + d)) t
    | none => acc

/-- The digits of `parseInt`, after white space and sign are removed. -/
def parseMagnitude : Str → Option Nat
  | '0' :: 'x' :: t => readDigits 16 hexVal none t
  | '0' :: 'X' :: t => readDigits 16 hexVal none t
  | s => readDigits 10 digitVal none s

/-- A number that `parseInt` returns: `NaN`, an infinity, or an integer. -/
inductive JNum where
  | nan
  | infinity (negative : Bool)
  | int (n : Int)
  deriving DecidableEq

/-- The number of binary digits of `n` beyond the first 53; `fuel` bounds the count. -/
def excessBits : Nat → Nat → Nat
  | 0, _ => 0
  | fuel + 1, n => if n < 2 ^ 53 then 0 else excessBits fuel (n / 2) + 1

/-- The Number value for the integer `n`: the nearest integer with 53 significant binary
digits, ties to the even one.  The rounded value `q * 2 ^ s` has `s + 53` binary digits, or
`s + 54` when the rounding carries; `none` is `Infinity`, for a rounded value with more than
1024 binary digits. -/
def roundToDouble (n : Nat) : Option Nat :=
  let s := excessBits n n
  let q := n / 2 ^ s
  let r := n % 2 ^ s
  let q := if 2 ^ s < 2 * r ∨ (2 * r = 2 ^ s ∧ q % 2 = 1) then q + 1 else q
  if s + (if q < 2 ^ 53 then 53 else 54) ≤ 1024 then some (q * 2 ^ s) else none

/-- The number with the given sign and magnitude. -/
def signedNumber (negative : Bool) : Option Nat → JNum
  | none => .nan
  | some n =>
    match roundToDouble n with
    | none => .infinity negative
    | some m => .int (if negative then - (m : Int) else (m : Int))

/-- The call `parseInt(s)`. -/
def jsParseInt (s : Str) : JNum :=
  match s.dropWhile isSpace with
  | '-' :: t => signedNumber true (parseMagnitude t)
  | '+' :: t => signedNumber false (parseMagnitude t)
  | t => signedNumber false (parseMagnitude t)

/-! ## convert.js: convertHtmlToMarkdown -/

/-- The expression `/<[^>]*>/g`. -/
def reTag : Re := seqs [.chr (.one '<'), .star (.non '>'), .chr (.one '>')]

/-- The expression `/<h([1-6])[^>]*>(.*?)<\/h[1-6]>/gi`. -/
def reHeading : Re :=
  seqs [litCI "<h".toList, .group 1 (.chr (.range '1' '6')), .star (.non '>'), .chr (.one '>'),
    .group 2 (.lazyStar .dot), litCI "</h".toList, .chr (.range '1' '6'), .chr (.one '>')]

/-- The expression `/<pre[^>]*><code[^>]*>(.*?)<\/code><\/pre>/gis`. -/
def rePreCode : Re :=
  seqs [litCI "<pre".toList, .star (.non '>'), litCI "><code".toList, .star (.non '>'),
    .chr (.one '>'), .group 1 (.lazyStar .any), litCI "</code></pre>".toList]

/-- The expression `/<code[^>]*>(.*?)<\/code>/gi`. -/
def reCode : Re :=
  seqs [litCI "<code".toList, .star (.non '>'), .chr (.one '>'), .group 1 (.lazyStar .dot),
    litCI "</code>".toList]

/-- The expression `/<blockquote[^>]*>(.*?)<\/blockquote>/gis`. -/
def reBlockquote : Re :=
  seqs [litCI "<blockquote".toList, .star (.non '>'), .chr (.one '>'),
    .group 1 (.lazyStar .any), litCI "</blockquote>".toList]

/-- The expression `/<p[^>]*>(.*?)<\/p>/gi`. -/
def reParagraph : Re :=
  seqs [litCI "<p".toList, .star (.non '>'), .chr (.one '>'), .group 1 (.lazyStar .dot),
    litCI "</p>".toList]

/-- The expression `/<(strong|b)[^>]*>(.*?)<\/(strong|b)>/gi`. -/
def reBold : Re :=
  seqs [.chr (.one '<'), .group 1 (.alt (litCI "strong".toList) (litCI "b".toList)),
    .star (.non '>'), .chr (.one '>'), .group 2 (.lazyStar .dot), litCI "</".toList,
    .group 3 (.alt (litCI "strong".toList) (litCI "b".toList)), .chr (.one '>')]

/-- The expression `/<(em|i)[^>]*>(.*?)<\/(em|i)>/gi`. -/
def reItalic : Re :=
  seqs [.chr (.one '<'), .group 1 (.alt (litCI "em".toList) (litCI "i".toList)),
    .star (.non '>'), .chr (.one '>'), .group 2 (.lazyStar .dot), litCI "</".toList,
    .group 3 (.alt (litCI "em".toList) (litCI "i".toList)), .chr (.one '>')]

/-- The expression `/<a[^>]*href="([^"]*)"[^>]*>(.*?)<\/a>/gi`. -/
def reLink : Re :=
  seqs [litCI "<a".toList, .star (.non '>'), litCI "href=\"".toList,
    .group 1 (.star (.non '"')), .chr (.one '"'), .star (.non '>'), .chr (.one '>'),
    .group 2 (.lazyStar .dot), litCI "</a>".toList]

/-- The expression `/<img[^>]*src="([^"]*)"[^>]*alt="([^"]*)"[^>]*>/gi`. -/
def reImgAlt : Re :=
  seqs [litCI "<img".toList, .star (.non '>'), litCI "src=\"".toList,
    .group 1 (.star (.non '"')), .chr (.one '"'), .star (.non '>'),
    litCI "alt=\"".toList, .group 2 (.star (.non '"')), .chr (.one '"'),
    .star (.non '>'), .chr (.one '>')]

/-- The expression `/<img[^>]*src="([^"]*)"[^>]*>/gi`. -/
def reImg : Re :=
  seqs [litCI "<img".toList, .star (.non '>'), litCI "src=\"".toList,
    .group 1 (.star (.non '"')), .chr (.one '"'), .star (.non '>'), .chr (.one '>')]

/-- The expression `/<li[^>]*>(.*?)<\/li>/gi`. -/
def reListItem : Re :=
  seqs [litCI "<li".toList, .star (.non '>'), .chr (.one '>'), .group 1 (.lazyStar .dot),
    litCI "</li>".toList]

/-- The expression `/<\/?[uo]l[^>]*>/gi`. -/
def reList : Re :=
  seqs [.chr (.one '<'), optChar '/', .alt (.chr (.ci 'u')) (.chr (.ci 'o')),
    .chr (.ci 'l'), .star (.non '>'), .chr (.one '>')]

/-- The expression `/<table[^>]*>(.*?)<\/table>/gis`. -/
def reTable : Re :=
  seqs [litCI "<table".toList, .star (.non '>'), .chr (.one '>'),
    .group 1 (.lazyStar .any), litCI "</table>".toList]

/-- The expression `/<tr[^>]*>(.*?)<\/tr>/gi`. -/
def reRow : Re :=
  seqs [litCI "<tr".toList, .star (.non '>'), .chr (.one '>'), .group 1 (.lazyStar .dot),
    litCI "</tr>".toList]

/-- The expression `/<t[hd][^>]*>(.*?)<\/t[hd]>/gi`. -/
def reCell : Re :=
  seqs [litCI "<t".toList, .alt (.chr (.ci 'h')) (.chr (.ci 'd')), .star (.non '>'),
    .chr (.one '>'), .group 1 (.lazyStar .dot), litCI "</t".toList,
    .alt (.chr (.ci 'h')) (.chr (.ci 'd')), .chr (.one '>')]

/-- The expression `/<br[^>]*\/?>/gi`. -/
def reBreak : Re :=
  seqs [litCI "<br".toList, .star (.non '>'), optChar '/', .chr (.one '>')]

/-- The expression `/\n\s*\n\s*\n/g`. -/
def reBlankLines : Re :=
  seqs [.chr (.one '\n'), .star .space, .chr (.one '\n'), .star .space, .chr (.one '\n')]

/-- The expression `/^\s+|\s+$/g`. -/
def reTrim : Re :=
  .alt (seqs [.bol, .chr .space, .star .space]) (seqs [.chr .space, .star .space, .eol])

/-- The call `'#'.repeat(n)` for the number `n` (`NaN` counts as zero; the level of a
heading is never negative or infinite). -/
def hashes : JNum → Str
  | .int n => List.replicate n.toNat '#'
  | _ => []

/-- The replacer of the heading rule. -/
def headingReplacer (m : MState) : Str :=
  '\n' :: hashes (jsParseInt (cap 1 m)) ++ ' ' ::
    replaceAll reTag (fun _ => []) (cap 2 m) ++ ['\n']

/-- The replacer of the table rule. -/
def tableReplacer (m : MState) : Str :=
  '\n' :: replaceAll reRow
      (fun row => replaceAll reCell (fun cell => "| ".toList ++ cap 1 cell ++ " ".toList)
        (cap 1 row) ++ "|\n".toList)
      (cap 1 m) ++ ['\n']

/-- The function `convertHtmlToMarkdown` of `convert.js`. -/
def convertHtmlToMarkdown (html : Str) : Str :=
  let markdown := html
  let markdown := replaceAll reHeading headingReplacer markdown
  let markdown := replaceAll rePreCode (fun m => "\n```\n".toList ++ cap 1 m ++ "\n```\n".toList)
    markdown
  let markdown := replaceAll reCode (fun m => '`' :: cap 1 m ++ ['`']) markdown
  let markdown := replaceAll reBlockquote (fun m => "\n> ".toList ++ cap 1 m ++ ['\n']) markdown
  let markdown := replaceAll reParagraph (fun m => '\n' :: cap 1 m ++ ['\n']) markdown
  let markdown := replaceAll reBold (fun m => "**".toList ++ cap 2 m ++ "**".toList) markdown
  let markdown := replaceAll reItalic (fun m => '*' :: cap 2 m ++ ['*']) markdown
  let markdown := replaceAll reLink
    (fun m => '[' :: cap 2 m ++ "](".toList ++ cap 1 m ++ [')']) markdown
  let markdown := replaceAll reImgAlt
    (fun m => "![".toList ++ cap 2 m ++ "](".toList ++ cap 1 m ++ [')']) markdown
  let markdown := replaceAll reImg (fun m => "![](".toList ++ cap 1 m ++ [')']) markdown
  let markdown := replaceAll reListItem (fun m => "- ".toList ++ cap 1 m ++ ['\n']) markdown
  let markdown := replaceAll reList (fun _ => ['\n']) markdown
  let markdown := replaceAll reTable tableReplacer markdown
  let markdown := replaceAll reBreak (fun _ => ['\n']) markdown
  let markdown := replaceAll reTag (fun _ => []) markdown
  let markdown := replaceAll reBlankLines (fun _ => ['\n', '\n']) markdown
  let markdown := replaceAll reTrim (fun _ => []) markdown
  markdown

/-! ## JavaScript values and library functions -/

/-- A JSON value: the upstream body after `axios` has parsed it, a field of a request body,
or a response body as `JSON.stringify` serialises it (a property whose value is `undefined`
is absent, and `NaN` is `null`).  Numbers are integers; the members of an object are in
enumeration order. -/
inductive JVal where
  | null : JVal
  | bool (b : Bool) : JVal
  | num (n : Int) : JVal
  | str (s : Str) : JVal
  | arr (xs : List JVal) : JVal
  | obj (kvs : List (Str × JVal)) : JVal

/-- The conversion `ToBoolean`. -/
def truthy : JVal → Bool
  | .null => false
  | .bool b => b
  | .num n => n != 0
  | .str s => !s.isEmpty
  | .arr _ => true
  | .obj _ => true

/-- The expression `a || b` for an optional string `a`. -/
def orElseStr (a : Option Str) (b : Str) : Str :=
  match a with
  | some (c :: t) => c :: t
  | _ => b

/-- The text of a number in a template literal or in JSON. -/
def numText (n : Int) : Str := (toString n).toList

/-- The elements of `xs` joined by `s`. -/
def joinWith (s : Str) : List Str → Str
  | [] => []
  | [x] => x
  | x :: xs => x ++ s ++ joinWith s xs

/-- A hexadecimal digit in lower case. -/
def hexDigit (n : Nat) : Char :=
  if n < 10 then Char.ofNat (48 + n) else Char.ofNat (87 + n)

/-- One character inside a JSON string literal. -/
def quoteChar (c : Char) : Str :=
  if c == '\"' then "\\\"".toList
  else if c == '\\' then "\\\\".toList
  else if c.toNat == 8 then "\\b".toList
  else if c.toNat == 12 then "\\f".toList
  else if c == '\n' then "\\n".toList
  else if c == '\r' then "\\r".toList
  else if c == '\t' then "\\t".toList
  else if c.toNat < 32 then "\\u00".toList ++ [hexDigit (c.toNat / 16), hexDigit (c.toNat % 16)]
  else [c]

/-- A JSON string literal. -/
def quote (s : Str) : Str := '\"' :: s.flatMap quoteChar ++ ['\"']

mutual
/-- The call `JSON.stringify(v)`. -/
def stringify : JVal → Str
  | .null => "null".toList
  | .bool b => if b then "true".toList else "false".toList
  | .num n => numText n
  | .str s => quote s
  | .arr xs => '[' :: joinWith [','] (stringifyElems xs) ++ [']']
  | .obj kvs => '\x7b' :: joinWith [','] (stringifyMembers kvs) ++ ['\x7d']
/-- The elements of an array, serialised. -/
def stringifyElems : List JVal → List Str
  | [] => []
  | x :: xs => stringify x :: stringifyElems xs
/-- The members of an object, serialised. -/
def stringifyMembers : List (Str × JVal) → List Str
  | [] => []
  | (k, v) :: kvs => (quote k ++ ':' :: stringify v) :: stringifyMembers kvs
end

mutual
/-- The call `JSON.stringify(v, null, 2)` at the indentation `ind`. -/
def stringifyIndent (ind : Str) : JVal → Str
  | .null => "null".toList
  | .bool b => if b then "true".toList else "false".toList
  | .num n => numText n
  | .str s => quote s
  | .arr xs =>
    if xs.isEmpty then "[]".toList
    else "[\n".toList ++ ' ' :: ' ' :: ind ++
      joinWith (",\n".toList ++ ' ' :: ' ' :: ind) (indentElems (' ' :: ' ' :: ind) xs) ++
      '\n' :: ind ++ [']']
  | .obj kvs =>
    if kvs.isEmpty then "\x7b\x7d".toList
    else "\x7b\n".toList ++ ' ' :: ' ' :: ind ++
      joinWith (",\n".toList ++ ' ' :: ' ' :: ind) (indentMembers (' ' :: ' ' :: ind) kvs) ++
      '\n' :: ind ++ ['\x7d']
/-- The elements of an array, serialised with indentation. -/
def indentElems (ind : Str) : List JVal → List Str
  | [] => []
  | x :: xs => stringifyIndent ind x :: indentElems ind xs
/-- The members of an object, serialised with indentation. -/
def indentMembers (ind : Str) : List (Str × JVal) → List Str
  | [] => []
  | (k, v) :: kvs => (quote k ++ ':' :: ' ' :: stringifyIndent ind v) :: indentMembers ind kvs
end

/-- The property `v.length`: `none` when reading it throws (`null`), `some none` when it is
`undefined`. -/
def jsLength : JVal → Option (Option JVal)
  | .null => none
  | .bool _ => some none
  | .num _ => some none
  | .str s => some (some (.num s.length))
  | .arr xs => some (some (.num xs.length))
  | .obj kvs => some (kvs.lookup "length".toList)

/-- The member `k` of an object. -/
def field (k : String) : JVal → Option JVal
  | .obj kvs => kvs.lookup k.toList
  | _ => none

/-- An object literal: members whose value is `undefined` are left out. -/
def mkObj (members : List (String × Option JVal)) : JVal :=
  .obj (members.filterMap (fun kv => kv.2.map (fun v => (kv.1.toList, v))))

/-- The call `s.startsWith(p)`, with the arguments in the order (`p`, `s`). -/
def startsWith : Str → Str → Bool
  | [], _ => true
  | _ :: _, [] => false
  | a :: p, b :: s => a == b && startsWith p s

/-- The call `s.includes(p)`, with the arguments in the order (`p`, `s`). -/
def includes (p : Str) : Str → Bool
  | [] => startsWith p []
  | c :: s => startsWith p (c :: s) || includes p s

/-- A number in a response body: `NaN` and the infinities are serialised as `null`. -/
def numOrNaN : JNum → JVal
  | .int n => .num n
  | _ => .null

/-- The call `s.trim()`. -/
def jsTrim (s : Str) : Str :=
  ((s.dropWhile isSpace).reverse.dropWhile isSpace).reverse

/-- The expression `/\s+/g`. -/
def reSpaces : Re := seqs [.chr .space, .star .space]

/-! ## The handlers -/

/-- A response of the upstream server, as `axios` presents it. -/
structure Upstream where
  headers : List (Str × Str)
  data : JVal

/-- An exception: the `code` and the `response` (status, status text) of the error object. -/
structure Thrown where
  code : Option Str
  response : Option (Nat × Str)

/-- A request to the upstream server. -/
inductive Call where
  | head (url : Str) (headers : List (Str × Str)) : Call
  | get (url : Str) (headers : List (Str × Str)) : Call

/-- The body of a response of a handler. -/
inductive Body where
  | empty : Body
  | json (v : JVal) : Body
  | stream (upstream : Upstream) : Body

/-- A response of a handler. -/
structure Response where
  status : Nat
  headers : List (Str × Str)
  body : Body

/-- A response together with the upstream requests made while computing it. -/
structure Outcome where
  response : Response
  calls : List Call

/-- What the `cheerio` queries of the convert handler return for a loaded document; `bodyHtml`
and `bodyText` are read after the unwanted elements are removed. -/
structure Document where
  titleText : Str
  firstH1Text : Str
  metaDescription : Option Str
  ogDescription : Option Str
  metaAuthor : Option Str
  articleAuthor : Option Str
  publishedTime : Option Str
  timeDatetime : Option Str
  metaKeywords : Option Str
  ogImage : Option Str
  canonicalHref : Option Str
  htmlLang : Option Str
  bodyHtml : Option Str
  bodyText : Str

/-- The body of a convert request after destructuring. -/
structure ConvertBody where
  url : Option Str
  format : Option JVal
  includeMetadata : Option JVal

/-- A request to the convert handler; `body = none` when `request.json()` or the
destructuring throws. -/
structure ConvertRequest where
  method : Str
  body : Option ConvertBody

/-- The library calls of the convert handler. -/
structure ConvertEnv where
  validURL : Str → Bool
  get : Str → List (Str × Str) → Except Thrown Upstream
  load : JVal → Document
  now : Str
  formatLarge : JNum → Str

/-- The function `formatFileSize`; the floating-point part is a parameter. -/
def formatFileSize (formatLarge : JNum → Str) (bytes : JNum) : Str :=
  if bytes = .int 0 then "0 Bytes".toList else formatLarge bytes

/-- The constant `corsHeaders` of `convert.js`. -/
def convertCors : List (Str × Str) :=
  [("Access-Control-Allow-Origin".toList, "*".toList),
   ("Access-Control-Allow-Methods".toList, "GET, POST, OPTIONS".toList),
   ("Access-Control-Allow-Headers".toList, "Content-Type".toList)]

/-- A JSON response with the headers `cors` and `Content-Type: application/json`. -/
def jsonResponse (cors : List (Str × Str)) (status : Nat) (v : JVal) : Response :=
  ⟨status, cors ++ [("Content-Type".toList, "application/json".toList)], .json v⟩

/-- The error response `{ error: message }`. -/
def errorResponse (cors : List (Str × Str)) (status : Nat) (message : Str) : Response :=
  jsonResponse cors status (mkObj [("error", some (.str message))])

/-- The `catch` block of a handler: the message for status 400 and the generic message are
the two string constants of the handler. -/
def catchError (cors : List (Str × Str)) (unreachable generic : Str) (e : Thrown) : Response :=
  if e.code = some "ENOTFOUND".toList ∨ e.code = some "ECONNREFUSED".toList then
    errorResponse cors 400 unreachable
  else
    match e.response with
    | some (status, statusText) =>
      if status ≠ 0 then
        errorResponse cors status
          ("HTTP ".toList ++ numText status ++ ": ".toList ++ statusText)
      else errorResponse cors 500 generic
    | none => errorResponse cors 500 generic

/-- The exception of `new URL(url)`, and of any `TypeError`: no `response`, and a `code` that
is none of the two the `catch` block looks for. -/
def typeError : Thrown := ⟨none, none⟩

/-- The headers of the upstream GET of the convert handler. -/
def convertRequestHeaders : List (Str × Str) :=
  [("User-Agent".toList, "Mozilla/5.0 (Windows NT 10.0; Win64; x64) AppleWebKit/537.36 (KHTML, like Gecko) Chrome/91.0.4472.124 Safari/537.36".toList)]

/-- The object `metadata` of the HTML branch. -/
def extractMetadata (doc : Document) (url : Str) : JVal :=
  mkObj [
    ("title", some (.str (orElseStr (some (jsTrim doc.titleText)) (jsTrim doc.firstH1Text)))),
    ("description", some (.str (orElseStr doc.metaDescription (orElseStr doc.ogDescription [])))),
    ("author", some (.str (orElseStr doc.metaAuthor (orElseStr doc.articleAuthor [])))),
    ("publishedDate", some (.str (orElseStr doc.publishedTime (orElseStr doc.timeDatetime [])))),
    ("keywords", some (.str (orElseStr doc.metaKeywords []))),
    ("ogImage", some (.str (orElseStr doc.ogImage []))),
    ("canonicalUrl", some (.str (orElseStr doc.canonicalHref url))),
    ("lang", some (.str (orElseStr doc.htmlLang "en".toList)))]

/-- The expression `$('body').html() || response.data`. -/
def bodyHtmlOrData (doc : Document) (data : JVal) : JVal :=
  match doc.bodyHtml with
  | some (c :: t) => .str (c :: t)
  | _ => data

/-- The value of `content` in the HTML branch; an exception when `convertHtmlToMarkdown`
receives a value that is not a string. -/
def htmlContent (doc : Document) (data : JVal) (format : JVal) : Except Thrown JVal :=
  match format with
  | .str f =>
    if f = "markdown".toList then
      match bodyHtmlOrData doc data with
      | .str html => .ok (.str (convertHtmlToMarkdown html))
      | _ => .error typeError
    else if f = "html".toList then .ok (bodyHtmlOrData doc data)
    else .ok (.str (jsTrim (replaceAll reSpaces (fun _ => [' ']) doc.bodyText)))
  | _ => .ok (.str (jsTrim (replaceAll reSpaces (fun _ => [' ']) doc.bodyText)))

/-- The successful response `{ success: true, data }`. -/
def successResponse (cors : List (Str × Str)) (data : JVal) : Response :=
  jsonResponse cors 200 (mkObj [("success", some (.bool true)), ("data", some data)])

/-- The part of the convert handler after the upstream response has arrived. -/
def convertUpstream (env : ConvertEnv) (url : Str) (format includeMetadata : JVal)
    (resp : Upstream) : Except Thrown Response :=
  let contentType := orElseStr (resp.headers.lookup "content-type".toList) []
  let contentLength := orElseStr (resp.headers.lookup "content-length".toList) "0".toList
  if includes "application/json".toList contentType then
    .ok (successResponse convertCors (mkObj [
      ("url", some (.str url)),
      ("content", some (.str (match resp.data with
        | .str s => s
        | v => stringifyIndent [] v))),
      ("contentType", some (.str "application/json".toList)),
      ("format", some (.str "json".toList)),
      ("size", some (.num (stringify resp.data).length)),
      ("timestamp", some (.str env.now))]))
  else if includes "text/html".toList contentType then
    let doc := env.load resp.data
    let metadata := if truthy includeMetadata then extractMetadata doc url else mkObj []
    match htmlContent doc resp.data format with
    | .error e => .error e
    | .ok content =>
      match jsLength content with
      | none => .error typeError
      | some size =>
        .ok (successResponse convertCors (mkObj [
          ("url", some (.str url)),
          ("content", some content),
          ("metadata", some metadata),
          ("contentType", some (.str "text/html".toList)),
          ("format", some format),
          ("size", size),
          ("timestamp", some (.str env.now))]))
  else if includes "text/".toList contentType then
    match jsLength resp.data with
    | none => .error typeError
    | some size =>
      .ok (successResponse convertCors (mkObj [
        ("url", some (.str url)),
        ("content", some resp.data),
        ("contentType", some (.str contentType)),
        ("format", some (.str "text".toList)),
        ("size", size),
        ("timestamp", some (.str env.now))]))
  else
    let fileSize := jsParseInt contentLength
    .ok (successResponse convertCors (mkObj [
      ("url", some (.str url)),
      ("contentType", some (.str contentType)),
      ("fileSize", some (numOrNaN fileSize)),
      ("fileSizeFormatted", some (.str (formatFileSize env.formatLarge fileSize))),
      ("isBinary", some (.bool true)),
      ("downloadEndpoint", some (.str "/api/download".toList)),
      ("format", some (.str "binary".toList)),
      ("timestamp", some (.str env.now))]))

/-- The function `fetch` of `convert.js`. -/
def convertFetch (env : ConvertEnv) (req : ConvertRequest) : Outcome :=
  if req.method = "OPTIONS".toList then ⟨⟨200, convertCors, .empty⟩, []⟩
  else if req.method ≠ "POST".toList then
    ⟨errorResponse convertCors 405 "Method not allowed".toList, []⟩
  else
    let generic := "Failed to fetch content from URL".toList
    let unreachable := "Invalid URL or website not accessible".toList
    match req.body with
    | none => ⟨catchError convertCors unreachable generic typeError, []⟩
    | some body =>
      match body.url with
      | none => ⟨errorResponse convertCors 400 "URL is required".toList, []⟩
      | some [] => ⟨errorResponse convertCors 400 "URL is required".toList, []⟩
      | some (c :: t) =>
        let url := c :: t
        let format := body.format.getD (.str "text".toList)
        let includeMetadata := body.includeMetadata.getD (.bool true)
        if env.validURL url then
          match env.get url convertRequestHeaders with
          | .error e => ⟨catchError convertCors unreachable generic e, [.get url convertRequestHeaders]⟩
          | .ok resp =>
            match convertUpstream env url format includeMetadata resp with
            | .error e =>
              ⟨catchError convertCors unreachable generic e, [.get url convertRequestHeaders]⟩
            | .ok r => ⟨r, [.get url convertRequestHeaders]⟩
        else ⟨catchError convertCors unreachable generic typeError, []⟩

/-- The extensions of the expression in `isMediaFile`, in the order of the source. -/
def mediaExtensions : List Str :=
  ["mp3".toList, "mp4".toList, "avi".toList, "mov".toList, "wav".toList, "flac".toList,
   "aac".toList, "webm".toList, "mkv".toList, "m4a".toList, "ogg".toList, "pdf".toList,
   "doc".toList, "docx".toList, "zip".toList, "rar".toList]

/-- The expression `/\.(mp3|mp4|avi|mov|wav|flac|aac|webm|mkv|m4a|ogg|pdf|doc|docx|zip|rar)$/i`. -/
def reMediaExt : Re :=
  seqs [.chr (.one '.'), .group 1 (alts (mediaExtensions.map litCI)), .eol]

/-- The value of `isMediaFile` in `download.js`. -/
def isMediaFile (contentType url : Str) : Bool :=
  startsWith "audio/".toList contentType || startsWith "video/".toList contentType ||
  startsWith "image/".toList contentType || test reMediaExt url

/-- The body of a download request after destructuring. -/
structure DownloadBody where
  url : Option Str
  download : Option JVal
  filename : Option Str

/-- A request to the download handler: the `Range` header is `request.headers.get('range')`. -/
structure DownloadRequest where
  method : Str
  range : Option Str
  body : Option DownloadBody

/-- The library calls of the download handler: `head` is `none` when the probe fails. -/
structure DownloadEnv where
  validURL : Str → Bool
  head : Str → List (Str × Str) → Option (List (Str × Str))
  get : Str → List (Str × Str) → Except Thrown Upstream
  mimeExtension : Str → Option Str
  now : Str
  formatLarge : JNum → Str

/-- The constant `corsHeaders` of `download.js`. -/
def downloadCors : List (Str × Str) :=
  [("Access-Control-Allow-Origin".toList, "*".toList),
   ("Access-Control-Allow-Methods".toList, "GET, POST, OPTIONS".toList),
   ("Access-Control-Allow-Headers".toList, "Content-Type, Range".toList),
   ("Access-Control-Expose-Headers".toList,
     "Content-Range, Accept-Ranges, Content-Length, Content-Type".toList)]

/-- The user agent of the download handler. -/
def downloadAgent : Str := "Mozilla/5.0 (Windows NT 10.0; Win64; x64) AppleWebKit/537.36".toList

/-- The headers of the upstream GET of the streaming branch. -/
def streamRequestHeaders (range : Option Str) : List (Str × Str) :=
  ("User-Agent".toList, downloadAgent) ::
    (match range with
     | some (c :: t) => [("Range".toList, c :: t)]
     | _ => [])

/-- The expression `url.split('.').pop()`: the text after the last dot. -/
def lastSegment (url : Str) : Str :=
  (url.reverse.takeWhile (fun c => !(c == '.'))).reverse

/-- A header of the upstream response when it is present and not empty. -/
def presentHeader (name : String) (headers : List (Str × Str)) : Option Str :=
  match headers.lookup name.toList with
  | some (c :: t) => some (c :: t)
  | _ => none

/-- The HTTP white space: tab, line feed, carriage return and space. -/
def isHttpWhitespace (c : Char) : Bool :=
  c == '\t' || c == '\n' || c == '\r' || c == ' '

/-- A header value without its leading and trailing HTTP white space. -/
def normalizeValue (v : Str) : Str :=
  ((v.dropWhile isHttpWhitespace).reverse.dropWhile isHttpWhitespace).reverse

/-- A header value that `new Response` accepts: a ByteString (no character above 255) that
holds no NUL, line feed or carriage return once it is normalised. -/
def validHeaderValue (v : Str) : Bool :=
  v.all (fun c => decide (c.toNat ≤ 255)) &&
    (normalizeValue v).all (fun c => !(c.toNat == 0 || c == '\n' || c == '\r'))

/-- The call `new Response(body, { status, headers })`: a `TypeError` when a header value is
not valid, and the normalised values otherwise.  (The other responses of the handlers go
through `jsonResponse`, whose header values are constants and valid.) -/
def newResponse (status : Nat) (headers : List (Str × Str)) (body : Body) :
    Except Thrown Response :=
  if headers.all (fun h => validHeaderValue h.2) then
    .ok ⟨status, headers.map (fun h => (h.1, normalizeValue h.2)), body⟩
  else .error typeError

/-- The object `responseHeaders` of the streaming branch. -/
def streamHeaders (env : DownloadEnv) (url contentType : Str) (filename : Option Str)
    (resp : Upstream) : List (Str × Str) :=
  let extension := orElseStr (env.mimeExtension contentType) (orElseStr (some (lastSegment url))
    "bin".toList)
  let downloadFilename := orElseStr filename ("download.".toList ++ extension)
  let responseHeaders := downloadCors ++ [
    ("Content-Type".toList, orElseStr (some contentType) "application/octet-stream".toList),
    ("Content-Disposition".toList,
      "attachment; filename=\"".toList ++ downloadFilename ++ "\"".toList),
    ("Accept-Ranges".toList, "bytes".toList)]
  let responseHeaders := match presentHeader "content-range" resp.headers with
    | some v => responseHeaders ++ [("Content-Range".toList, v)]
    | none => responseHeaders
  let responseHeaders := match presentHeader "content-length" resp.headers with
    | some v => responseHeaders ++ [("Content-Length".toList, v)]
    | none => responseHeaders
  responseHeaders

/-- The streaming branch after the upstream response has arrived. -/
def streamResponse (env : DownloadEnv) (url contentType : Str) (filename : Option Str)
    (resp : Upstream) : Except Thrown Response :=
  let responseHeaders := streamHeaders env url contentType filename resp
  let status := if (presentHeader "content-range" resp.headers).isSome then 206 else 200
  newResponse status responseHeaders (.stream resp)

/-- The function `fetch` of `download.js`. -/
def downloadFetch (env : DownloadEnv) (req : DownloadRequest) : Outcome :=
  if req.method = "OPTIONS".toList then ⟨⟨200, downloadCors, .empty⟩, []⟩
  else if req.method ≠ "POST".toList then
    ⟨errorResponse downloadCors 405 "Method not allowed".toList, []⟩
  else
    let generic := "Failed to process download request".toList
    let unreachable := "Invalid URL or resource not accessible".toList
    match req.body with
    | none => ⟨catchError downloadCors unreachable generic typeError, []⟩
    | some body =>
      match body.url with
      | none => ⟨errorResponse downloadCors 400 "URL is required".toList, []⟩
      | some [] => ⟨errorResponse downloadCors 400 "URL is required".toList, []⟩
      | some (c :: t) =>
        let url := c :: t
        let download := body.download.getD (.bool false)
        if env.validURL url then
          let probe := Call.head url [("User-Agent".toList, downloadAgent)]
          let headHeaders := env.head url [("User-Agent".toList, downloadAgent)]
          let contentType := orElseStr
            (headHeaders.bind (fun h => h.lookup "content-type".toList)) []
          let contentLength := orElseStr
            (headHeaders.bind (fun h => h.lookup "content-length".toList)) "0".toList
          let fileSize := jsParseInt contentLength
          let media := isMediaFile contentType url
          if truthy download && media then
            let sent := streamRequestHeaders req.range
            match env.get url sent with
            | .error e =>
              ⟨catchError downloadCors unreachable generic e, [probe, .get url sent]⟩
            | .ok resp =>
              match streamResponse env url contentType body.filename resp with
              | .error e =>
                ⟨catchError downloadCors unreachable generic e, [probe, .get url sent]⟩
              | .ok r => ⟨r, [probe, .get url sent]⟩
          else
            ⟨successResponse downloadCors (mkObj [
              ("url", some (.str url)),
              ("contentType", some (.str contentType)),
              ("fileSize", some (numOrNaN fileSize)),
              ("fileSizeFormatted", some (.str (formatFileSize env.formatLarge fileSize))),
              ("isMediaFile", some (.bool media)),
              ("downloadSupported", some (.bool media)),
              ("headers", some (.obj ((headHeaders.getD []).map (fun h => (h.1, JVal.str h.2))))),
              ("timestamp", some (.str env.now))]), [probe]⟩
        else ⟨catchError downloadCors unreachable generic typeError, []⟩

/-! ## Definitions used in the statements and proofs -/

/-- Every character the expression can consume satisfies `q`. -/
def Re.Only (q : Char → Prop) : Re → Prop
  | .eps => True
  | .chr p => ∀ c, p.test c = true → q c
  | .star p => ∀ c, p.test c = true → q c
  | .lazyStar p => ∀ c, p.test c = true → q c
  | .seq a b => a.Only q ∧ b.Only q
  | .alt a b => a.Only q ∧ b.Only q
  | .group _ a => a.Only q
  | .bol => True
  | .eol => True

/-- No `<` is followed later by a `>`. -/
def tagFree : Str → Bool
  | [] => true
  | c :: t => if c == '<' then !(t.any (fun x => x == '>')) else tagFree t

/-- The characters `<` and `>`. -/
def isAngle (c : Char) : Bool := c == '<' || c == '>'

/-- The character class an expression must start with, when it starts with one. -/
def Re.first : Re → Option Cls
  | .chr p => some p
  | .seq a _ => a.first
  | .group _ a => a.first
  | _ => none

/-- The character class at the head of every tag rule accepts `<` only. -/
def opensTag (r : Re) : Prop :=
  ∃ p, r.first = some p ∧ ∀ c, p.test c = true → c = '<'

/-- The text without its trailing white space. -/
def trimEnd : Str → Str
  | [] => []
  | c :: t => if (c :: t).all isSpace then [] else c :: trimEnd t

/-- The number of newlines in the run of white space at the head of a text. -/
def nlRun : Str → Nat
  | [] => 0
  | c :: t => if isSpace c then (if c == '\n' then 1 else 0) + nlRun t else 0

/-- The continuation of `reBlankLines` after the second `\s*`. -/
def blankTail : MState → Option MState :=
  fun st => (Re.chr (.one '\n')).matchK st some

/-- The continuation of `reBlankLines` after the first `\s*`. -/
def blankMid : MState → Option MState :=
  fun st => (seqs [.chr (.one '\n'), .star .space, .chr (.one '\n')]).matchK st some

/-- No run of white space has three newlines. -/
def Calm (s : Str) : Prop := ∀ a u, s = a ++ u → nlRun u ≤ 2

/-- The text `w` is the text `e` up to the case of ASCII letters. -/
def caseVariant : Str → Str → Bool
  | [], [] => true
  | x :: e, c :: w => (Cls.ci x).test c && caseVariant e w
  | _, _ => false

/-- The class accepts the character `d` only. -/
def Cls.forces (d : Char) : Cls → Bool
  | .one x => x == d
  | .ci x => x.toLower == d && x.toUpper == d
  | _ => false

/-- A lower bound on the number of characters `d` in every text the expression matches. -/
def Re.minCount (d : Char) : Re → Nat
  | .chr c => if c.forces d then 1 else 0
  | .seq a b => a.minCount d + b.minCount d
  | .alt a b => min (a.minCount d) (b.minCount d)
  | .group _ a => a.minCount d
  | _ => 0

/-- The text of an attribute value: no double quote, angle bracket or newline. -/
def plainAttr (s : Str) : Prop :=
  '"' ∉ s ∧ '<' ∉ s ∧ '>' ∉ s ∧ '\n' ∉ s

/-- The tail of `reImgAlt` after `<img[^>]*`. -/
def imgAltSrc : Re :=
  seqs [litCI "src=\"".toList, .group 1 (.star (.non '"')), .chr (.one '"'), .star (.non '>'),
    litCI "alt=\"".toList, .group 2 (.star (.non '"')), .chr (.one '"'),
    .star (.non '>'), .chr (.one '>')]

/-- The tail of `reImgAlt` after the `src` attribute and `[^>]*`. -/
def imgAltAlt : Re :=
  seqs [litCI "alt=\"".toList, .group 2 (.star (.non '"')), .chr (.one '"'),
    .star (.non '>'), .chr (.one '>')]

/-- The tail of `reItalic` after `<(em|i)[^>]*`. -/
def italicTail : Re :=
  seqs [.chr (.one '>'), .group 2 (.lazyStar .dot), litCI "</".toList,
    .group 3 (.alt (litCI "em".toList) (litCI "i".toList)), .chr (.one '>')]

/-- The tail of `reImg` after `<img[^>]*`. -/
def imgSrcTail : Re :=
  seqs [litCI "src=\"".toList, .group 1 (.star (.non '"')), .chr (.one '"'), .star (.non '>'),
    .chr (.one '>')]

/-- An element `<h2 a>t</h2>`, given as the pair of its attribute text and its content. -/
def h2Element (e : Str × Str) : Str :=
  "<h2".toList ++ e.1 ++ ['>'] ++ e.2 ++ "</h2>".toList

/-- The concatenation of the elements. -/
def h2Fragment : List (Str × Str) → Str
  | [] => []
  | e :: es => h2Element e ++ h2Fragment es

/-- The attribute text has no angle bracket; the content is on one line, has no `<` and has a
character that is not white space. -/
def plainHeading (e : Str × Str) : Prop :=
  '<' ∉ e.1 ∧ '>' ∉ e.1 ∧ '<' ∉ e.2 ∧ (∀ c ∈ e.2, isLineTerminator c = false) ∧
    ∃ c ∈ e.2, isSpace c = false

/-- The lines of a text. -/
def lines : Str → List Str
  | [] => [[]]
  | c :: t =>
    if c == '\n' then [] :: lines t
    else
      match lines t with
      | l :: ls => (c :: l) :: ls
      | [] => [[c]]

/-- The number of lines that begin with `## `. -/
def headingLines (s : Str) : Nat :=
  (lines s).countP (startsWith "## ".toList)

/-- The tail of `reHeading` after `<h([1-6])[^>]*`. -/
def headOpenEnd : Re :=
  seqs [.chr (.one '>'), .group 2 (.lazyStar .dot), litCI "</h".toList, .chr (.range '1' '6'),
    .chr (.one '>')]

/-- The closing tag of `reHeading`. -/
def headClose : Re :=
  seqs [litCI "</h".toList, .chr (.range '1' '6'), .chr (.one '>')]

/-- What the heading rule leaves for one element. -/
def h2Line (e : Str × Str) : Str :=
  "\n## ".toList ++ e.2 ++ ['\n']

/-- What the heading rule leaves for the fragment. -/
def h2Lines : List (Str × Str) → Str
  | [] => []
  | e :: es => h2Line e ++ h2Lines es

/-- The member `data` of a successful JSON response `{ success: true, data }`. -/
def payload (o : Outcome) : Option JVal :=
  match o.response.body with
  | .json v =>
    match field "success" v with
    | some (.bool true) => field "data" v
    | _ => none
  | _ => none

/-- The headers of the upstream GET of the streaming branch, when it was made. -/
def sentHeaders (o : Outcome) : Option (List (Str × Str)) :=
  match o.calls with
  | [_, .get _ hs] => some hs
  | _ => none

/-- The five format tags. -/
def formatTags : List Str :=
  ["json".toList, "text".toList, "markdown".toList, "html".toList, "binary".toList]

/-- The value of a string of decimal digits. -/
def decimalValue (ds : Str) : Nat := ds.foldl (fun n c => n * 10 + (c.toNat - 48)) 0

/-- A decimal digit. -/
def isDecimal (c : Char) : Bool := '0' ≤ c && c ≤ '9'

/-- A content-length header as the HTTP transport delivers it: absent, empty, or a string of
decimal digits with a value below 2^64.  (The parser of the transport rejects a response with
another value: the request then fails, and the handler sees no header at all.) -/
def wireLength (h : Option Str) : Prop :=
  ∀ v, h = some v → v ≠ [] → (∀ c ∈ v, isDecimal c = true) ∧ decimalValue v < 2 ^ 64

/-- The value `v` of `fileSize` for the content-length header `h`: a non-negative integer `n`,
the result of `parseInt(h || '0')`; it is 0 when the header is absent or its value does not
parse (`parseInt` gives `NaN`), and it is the number written when that is below 2^53. -/
def sizeOfHeader (h : Option Str) (v : JVal) : Prop :=
  ∃ n : Nat, v = .num n ∧
    jsParseInt (orElseStr h "0".toList) = .int n ∧
    ((h = none ∨ ∃ s, h = some s ∧ jsParseInt s = .nan) → n = 0) ∧
    (∀ ds, h = some ds → ds ≠ [] → decimalValue ds < 2 ^ 53 → n = decimalValue ds)

/-- A parser for the examples: an absolute URL starts with `http://` or `https://`. -/
def exampleValidURL (u : Str) : Bool :=
  startsWith "http://".toList u || startsWith "https://".toList u

/-- An empty document. -/
def emptyDocument : Document :=
  ⟨[], [], none, none, none, none, none, none, none, none, none, none, none, []⟩

/-- An upstream that answers with the JSON object `{"a": 1}`. -/
def jsonEnv : ConvertEnv where
  validURL := exampleValidURL
  get := fun _ _ => .ok ⟨[("content-type".toList, "application/json".toList)],
    .obj [("a".toList, .num 1)]⟩
  load := fun _ => emptyDocument
  now := "2024-01-01T00:00:00.000Z".toList
  formatLarge := fun _ => []

/-- An upstream that answers with the plain text `hello`. -/
def textEnv : ConvertEnv where
  validURL := exampleValidURL
  get := fun _ _ => .ok ⟨[("content-type".toList, "text/plain".toList)], .str "hello".toList⟩
  load := fun _ => emptyDocument
  now := "2024-01-01T00:00:00.000Z".toList
  formatLarge := fun _ => []

/-- An upstream that answers with an HTML page whose body text is `Hi`. -/
def htmlEnv : ConvertEnv where
  validURL := exampleValidURL
  get := fun _ _ => .ok ⟨[("content-type".toList, "text/html".toList)],
    .str "<html><body>Hi</body></html>".toList⟩
  load := fun _ => { emptyDocument with bodyHtml := some "Hi".toList, bodyText := "Hi".toList }
  now := "2024-01-01T00:00:00.000Z".toList
  formatLarge := fun _ => []

/-- An upstream that answers with a binary body of 1536 bytes. -/
def binaryEnv : ConvertEnv where
  validURL := exampleValidURL
  get := fun _ _ => .ok ⟨[("content-type".toList, "application/octet-stream".toList),
    ("content-length".toList, "1536".toList)], .str []⟩
  load := fun _ => emptyDocument
  now := "2024-01-01T00:00:00.000Z".toList
  formatLarge := fun _ => "1.5 KB".toList

/-- A convert request for `http://a.b/c` with the given format. -/
def convertReq (format : Option JVal) : ConvertRequest :=
  ⟨"POST".toList, some ⟨some "http://a.b/c".toList, format, none⟩⟩

/-- A convert request whose url does not parse. -/
def badUrlReq : ConvertRequest :=
  ⟨"POST".toList, some ⟨some "not a url".toList, none, none⟩⟩

/-- The payload of `textEnv`. -/
def textPayload : JVal :=
  mkObj [("url", some (.str "http://a.b/c".toList)), ("content", some (.str "hello".toList)),
    ("contentType", some (.str "text/plain".toList)), ("format", some (.str "text".toList)),
    ("size", some (.num 5)), ("timestamp", some (.str "2024-01-01T00:00:00.000Z".toList))]

/-- The payload of `htmlEnv` for the format `markdown`. -/
def markdownPayload : JVal :=
  mkObj [("url", some (.str "http://a.b/c".toList)), ("content", some (.str "Hi".toList)),
    ("metadata", some (extractMetadata
      { emptyDocument with bodyHtml := some "Hi".toList, bodyText := "Hi".toList }
      "http://a.b/c".toList)),
    ("contentType", some (.str "text/html".toList)), ("format", some (.str "markdown".toList)),
    ("size", some (.num 2)), ("timestamp", some (.str "2024-01-01T00:00:00.000Z".toList))]

/-- The payload of `binaryEnv`. -/
def binaryPayload : JVal :=
  mkObj [("url", some (.str "http://a.b/c".toList)),
    ("contentType", some (.str "application/octet-stream".toList)),
    ("fileSize", some (.num 1536)), ("fileSizeFormatted", some (.str "1.5 KB".toList)),
    ("isBinary", some (.bool true)), ("downloadEndpoint", some (.str "/api/download".toList)),
    ("format", some (.str "binary".toList)),
    ("timestamp", some (.str "2024-01-01T00:00:00.000Z".toList))]

/-- An upstream for the download handler: the probe reports `audio/mpeg` and 1536 bytes, the
GET answers with the given headers. -/
def mediaEnv (getHeaders : List (Str × Str)) : DownloadEnv where
  validURL := exampleValidURL
  head := fun _ _ => some [("content-type".toList, "audio/mpeg".toList),
    ("content-length".toList, "1536".toList)]
  get := fun _ _ => .ok ⟨getHeaders, .null⟩
  mimeExtension := fun _ => some "mp3".toList
  now := "2024-01-01T00:00:00.000Z".toList
  formatLarge := fun _ => "1.5 KB".toList

/-- An upstream for the download handler whose probe fails. -/
def silentEnv : DownloadEnv where
  validURL := exampleValidURL
  head := fun _ _ => none
  get := fun _ _ => .error ⟨none, none⟩
  mimeExtension := fun _ => none
  now := "2024-01-01T00:00:00.000Z".toList
  formatLarge := fun _ => []

/-- A download request for `http://a.b/file.Mp3`. -/
def downloadReq (range : Option Str) (download : Bool) : DownloadRequest :=
  ⟨"POST".toList, range, some ⟨some "http://a.b/file.Mp3".toList, some (.bool download), none⟩⟩

/-- A download request for `http://a.b/file.Mp3` that asks for the given filename. -/
def namedDownloadReq (filename : Str) : DownloadRequest :=
  ⟨"POST".toList, none, some ⟨some "http://a.b/file.Mp3".toList, some (.bool true), some filename⟩⟩

/-- The metadata payload of `mediaEnv` for `downloadReq`. -/
def probePayload : JVal :=
  mkObj [("url", some (.str "http://a.b/file.Mp3".toList)),
    ("contentType", some (.str "audio/mpeg".toList)),
    ("fileSize", some (.num 1536)), ("fileSizeFormatted", some (.str "1.5 KB".toList)),
    ("isMediaFile", some (.bool true)), ("downloadSupported", some (.bool true)),
    ("headers", some (.obj [("content-type".toList, .str "audio/mpeg".toList),
      ("content-length".toList, .str "1536".toList)])),
    ("timestamp", some (.str "2024-01-01T00:00:00.000Z".toList))]

/-- Two `h2` elements, the first with an attribute. -/
def exampleHeadings : List (Str × Str) :=
  [(" class=\"t\"".toList, "First  title".toList), ([], "Second".toList)]

/-! ## Lemmas and theorems -/

theorem test_space : Cls.space.test = isSpace := funext fun _ => rfl

theorem starGreedy_sound (p : Char → Bool) (k : MState → Option MState) (caps : List (Nat × Str))
    (q : Char → Prop) (hp : ∀ c, p c = true → q c) (s : Str) :
    ∀ (pos : Nat) (m : MState), starGreedy p k caps pos s = some m →
      ∃ w rest, s = w ++ rest ∧ (∀ c ∈ w, q c) ∧ k ⟨pos + w.length, rest, caps⟩ = some m := by
  induction s with
  | nil =>
    intro pos m h
    exact ⟨[], [], rfl, by simp, by simpa [starGreedy] using h⟩
  | cons c t ih =>
    intro pos m h
    unfold starGreedy at h
    by_cases hc : p c = true
    · rw [if_pos hc] at h
      cases hrec : starGreedy p k caps (pos + 1) t with
      | some m1 =>
        rw [hrec] at h
        injection h with h
        subst h
        obtain ⟨w, rest, hs, hw, hk⟩ := ih (pos + 1) m1 hrec
        refine ⟨c :: w, rest, by rw [hs]; rfl, ?_, ?_⟩
        · intro x hx
          rcases List.mem_cons.1 hx with rfl | hx
          · exact hp _ hc
          · exact hw x hx
        · rw [← hk]
          simp [Nat.add_assoc, Nat.add_comm 1]
      | none =>
        rw [hrec] at h
        exact ⟨[], c :: t, rfl, by simp, by simpa using h⟩
    · rw [if_neg hc] at h
      exact ⟨[], c :: t, rfl, by simp, by simpa using h⟩

theorem starLazy_sound (p : Char → Bool) (k : MState → Option MState) (caps : List (Nat × Str))
    (q : Char → Prop) (hp : ∀ c, p c = true → q c) (s : Str) :
    ∀ (pos : Nat) (m : MState), starLazy p k caps pos s = some m →
      ∃ w rest, s = w ++ rest ∧ (∀ c ∈ w, q c) ∧ k ⟨pos + w.length, rest, caps⟩ = some m := by
  induction s with
  | nil =>
    intro pos m h
    exact ⟨[], [], rfl, by simp, by simpa [starLazy] using h⟩
  | cons c t ih =>
    intro pos m h
    unfold starLazy at h
    cases hk : k ⟨pos, c :: t, caps⟩ with
    | some m1 =>
      rw [hk] at h
      injection h with h
      subst h
      exact ⟨[], c :: t, rfl, by simp, by simpa using hk⟩
    | none =>
      rw [hk] at h
      by_cases hc : p c = true
      · simp only [hc, if_true] at h
        obtain ⟨w, rest, hs, hw, hk2⟩ := ih (pos + 1) m h
        refine ⟨c :: w, rest, by rw [hs]; rfl, ?_, ?_⟩
        · intro x hx
          rcases List.mem_cons.1 hx with rfl | hx
          · exact hp _ hc
          · exact hw x hx
        · rw [← hk2]
          simp [Nat.add_assoc, Nat.add_comm 1]
      · simp [hc] at h

theorem matchK_sound (q : Char → Prop) (r : Re) (hr : r.Only q) :
    ∀ (st : MState) (k : MState → Option MState) (m : MState), r.matchK st k = some m →
      ∃ w st1, st.rest = w ++ st1.rest ∧ st1.pos = st.pos + w.length ∧ (∀ c ∈ w, q c) ∧
        k st1 = some m := by
  induction r with
  | eps =>
    intro st k m h
    exact ⟨[], st, rfl, rfl, by simp, h⟩
  | chr p =>
    intro st k m h
    simp only [Re.matchK] at h
    split at h
    · cases h
    · rename_i c t hrest
      by_cases hc : p.test c = true
      · rw [if_pos hc] at h
        exact ⟨[c], ⟨st.pos + 1, t, st.caps⟩, by simpa using hrest, rfl,
          by simpa using hr c hc, h⟩
      · rw [if_neg hc] at h
        cases h
  | star p =>
    intro st k m h
    obtain ⟨w, rest, hs, hw, hk⟩ := starGreedy_sound p.test k st.caps q hr st.rest st.pos m h
    exact ⟨w, ⟨st.pos + w.length, rest, st.caps⟩, hs, rfl, hw, hk⟩
  | lazyStar p =>
    intro st k m h
    obtain ⟨w, rest, hs, hw, hk⟩ := starLazy_sound p.test k st.caps q hr st.rest st.pos m h
    exact ⟨w, ⟨st.pos + w.length, rest, st.caps⟩, hs, rfl, hw, hk⟩
  | seq a b iha ihb =>
    intro st k m h
    obtain ⟨w1, st1, hs1, hp1, hw1, hk1⟩ := iha hr.1 st _ m h
    obtain ⟨w2, st2, hs2, hp2, hw2, hk2⟩ := ihb hr.2 st1 k m hk1
    refine ⟨w1 ++ w2, st2, by rw [hs1, hs2, List.append_assoc], ?_, ?_, hk2⟩
    · rw [hp2, hp1, List.length_append, Nat.add_assoc]
    · intro c hc
      rcases List.mem_append.1 hc with hc | hc
      · exact hw1 c hc
      · exact hw2 c hc
  | alt a b iha ihb =>
    intro st k m h
    simp only [Re.matchK] at h
    cases ha : a.matchK st k with
    | some m1 =>
      rw [ha] at h
      injection h with h
      subst h
      exact iha hr.1 st k m1 ha
    | none =>
      rw [ha] at h
      exact ihb hr.2 st k m h
  | group n a iha =>
    intro st k m h
    obtain ⟨w, st1, hs, hp, hw, hk⟩ := iha hr st _ m h
    exact ⟨w, ⟨st1.pos, st1.rest, (n, st.rest.take (st1.pos - st.pos)) :: st1.caps⟩,
      hs, hp, hw, hk⟩
  | bol =>
    intro st k m h
    simp only [Re.matchK] at h
    split at h
    · exact ⟨[], st, rfl, rfl, by simp, h⟩
    · cases h
  | eol =>
    intro st k m h
    simp only [Re.matchK] at h
    split at h
    · exact ⟨[], st, rfl, rfl, by simp, h⟩
    · cases h

theorem execAt_sound (q : Char → Prop) (r : Re) (hr : r.Only q) (pos : Nat) (s : Str)
    (m : MState) (h : execAt r pos s = some m) :
    ∃ w, s = w ++ m.rest ∧ m.pos = pos + w.length ∧ ∀ c ∈ w, q c := by
  obtain ⟨w, st1, hs, hp, hw, hk⟩ := matchK_sound q r hr _ _ m h
  injection hk with hk
  subst hk
  exact ⟨w, hs, hp, hw⟩

theorem replaceLoop_skip (r : Re) (f : MState → Str) (k : Nat) :
    ∀ (pos : Nat) (s : Str), k ≤ s.length →
      replaceLoop r f k pos s = replaceLoop r f 0 (pos + k) (s.drop k) := by
  induction k with
  | zero => intro pos s _; rfl
  | succ k ih =>
    intro pos s hk
    cases s with
    | nil => simp at hk
    | cons c t =>
      have := ih (pos + 1) t (by simpa using hk)
      simp only [replaceLoop, List.drop_succ_cons]
      rw [this]
      simp [Nat.add_assoc, Nat.add_comm 1]

theorem replaceLoop_none (r : Re) (f : MState → Str) (pos : Nat) (c : Char) (t : Str)
    (h : execAt r pos (c :: t) = none) :
    replaceLoop r f 0 pos (c :: t) = c :: replaceLoop r f 0 (pos + 1) t := by
  simp [replaceLoop, h]

theorem replaceLoop_cons_some (r : Re) (f : MState → Str) (pos : Nat) (c : Char) (t : Str)
    (m : MState) (h : execAt r pos (c :: t) = some m) :
    replaceLoop r f 0 pos (c :: t) =
      if m.pos - pos = 0 then f m ++ c :: replaceLoop r f 0 (pos + 1) t
      else f m ++ replaceLoop r f (m.pos - pos - 1) (pos + 1) t := by
  simp [replaceLoop, h]

theorem replaceLoop_some (r : Re) (f : MState → Str) (pos : Nat) (s : Str) (m : MState)
    (w : Str) (h : execAt r pos s = some m) (hs : s = w ++ m.rest)
    (hp : m.pos = pos + w.length) (hne : w ≠ []) :
    replaceLoop r f 0 pos s = f m ++ replaceLoop r f 0 m.pos m.rest := by
  cases w with
  | nil => exact absurd rfl hne
  | cons c w =>
    subst hs
    have hlen : m.pos - pos = w.length + 1 := by rw [hp]; simp
    have h1 : execAt r pos (c :: (w ++ m.rest)) = some m := h
    show replaceLoop r f 0 pos (c :: (w ++ m.rest)) = _
    rw [replaceLoop_cons_some r f pos c _ m h1, hlen, if_neg (by simp), Nat.add_sub_cancel,
      replaceLoop_skip r f w.length (pos + 1) (w ++ m.rest) (by simp)]
    simp [hp, Nat.add_assoc, Nat.add_comm 1]

theorem replaceLoop_nil_none (r : Re) (f : MState → Str) (k pos : Nat)
    (h : execAt r pos [] = none) : replaceLoop r f k pos [] = [] := by
  cases k <;> simp [replaceLoop, h]

theorem tagFree_ne (s : Str) (h : tagFree s = true) (pre mid post : Str) :
    s ≠ pre ++ '<' :: (mid ++ '>' :: post) := by
  intro hs
  subst hs
  induction pre with
  | nil => simp [tagFree] at h
  | cons a pre ih =>
    simp only [List.cons_append, tagFree] at h
    split at h
    · simp at h
    · exact ih h

theorem any_gt_filter (s : Str) :
    (s.filter isAngle).any (fun x => x == '>') = s.any (fun x => x == '>') := by
  induction s with
  | nil => rfl
  | cons c t ih =>
    by_cases hc : isAngle c = true
    · simp [List.filter, hc, ih]
    · have : (c == '>') = false := by
        simp only [isAngle, Bool.or_eq_true, not_or, Bool.not_eq_true] at hc
        exact hc.2
      simp [List.filter, hc, ih, this]

theorem tagFree_filter (s : Str) : tagFree (s.filter isAngle) = tagFree s := by
  induction s with
  | nil => rfl
  | cons c t ih =>
    by_cases h1 : (c == '<') = true
    · have hc : isAngle c = true := by simp [isAngle, h1]
      simp only [List.filter, hc, tagFree, h1, if_true, any_gt_filter]
    · by_cases h2 : (c == '>') = true
      · have hc : isAngle c = true := by simp [isAngle, h2]
        simp only [List.filter, hc, tagFree, h1, if_false]
        exact ih
      · have hc : isAngle c = false := by simp [isAngle, h1, h2]
        simp only [List.filter, hc, tagFree, h1, if_false]
        exact ih

theorem mem_replaceLoop (r : Re) (f : MState → Str) (x : Char) (s : Str) :
    ∀ (k pos : Nat), x ∈ replaceLoop r f k pos s → x ∈ s ∨ ∃ m, x ∈ f m := by
  induction s with
  | nil =>
    intro k pos h
    have : replaceLoop r f k pos [] = match execAt r pos [] with
        | some m => f m
        | none => [] := by cases k <;> rfl
    rw [this] at h
    split at h
    · exact Or.inr ⟨_, h⟩
    · cases h
  | cons c t ih =>
    intro k pos h
    cases k with
    | succ k =>
      rcases ih k (pos + 1) h with h | h
      · exact Or.inl (List.mem_cons_of_mem _ h)
      · exact Or.inr h
    | zero =>
      cases he : execAt r pos (c :: t) with
      | none =>
        rw [replaceLoop_none r f pos c t he] at h
        rcases List.mem_cons.1 h with rfl | h
        · exact Or.inl (List.mem_cons_self _ _)
        · rcases ih 0 (pos + 1) h with h | h
          · exact Or.inl (List.mem_cons_of_mem _ h)
          · exact Or.inr h
      | some m =>
        rw [replaceLoop_cons_some r f pos c t m he] at h
        split at h
        · rcases List.mem_append.1 h with h | h
          · exact Or.inr ⟨m, h⟩
          · rcases List.mem_cons.1 h with rfl | h
            · exact Or.inl (List.mem_cons_self _ _)
            · rcases ih 0 (pos + 1) h with h | h
              · exact Or.inl (List.mem_cons_of_mem _ h)
              · exact Or.inr h
        · rcases List.mem_append.1 h with h | h
          · exact Or.inr ⟨m, h⟩
          · rcases ih _ (pos + 1) h with h | h
            · exact Or.inl (List.mem_cons_of_mem _ h)
            · exact Or.inr h

/-- After `<`, the expression `/<[^>]*>/` fails only when no `>` follows. -/
theorem starGreedy_gt_none (caps : List (Nat × Str)) (t : Str) :
    ∀ pos, starGreedy ((Cls.non '>').test) (fun st => (Re.chr (.one '>')).matchK st some) caps pos t
      = none → t.any (fun x => x == '>') = false := by
  induction t with
  | nil => intro _ _; rfl
  | cons c t ih =>
    intro pos h
    unfold starGreedy at h
    by_cases hc : (c == '>') = true
    · simp [Cls.test, hc, Re.matchK] at h
    · simp only [Bool.not_eq_true] at hc
      simp only [Cls.test, hc, Bool.not_false, if_true] at h
      cases hrec : starGreedy ((Cls.non '>').test) (fun st => (Re.chr (.one '>')).matchK st some)
          caps (pos + 1) t with
      | some m => rw [hrec] at h; cases h
      | none => simp [List.any, hc, ih (pos + 1) hrec]

theorem reTag_exec (pos : Nat) (c : Char) (t : Str) :
    execAt reTag pos (c :: t) = if c == '<' then
      starGreedy ((Cls.non '>').test) (fun st => (Re.chr (.one '>')).matchK st some) [] (pos + 1) t
      else none := rfl

theorem reTag_only : reTag.Only (fun _ => True) := by
  simp [reTag, seqs, Re.Only]

theorem strip_tagFree (n : Nat) : ∀ (s : Str) (pos : Nat), s.length ≤ n →
    tagFree (replaceLoop reTag (fun _ => []) 0 pos s) = true := by
  induction n with
  | zero =>
    intro s pos hs
    cases s with
    | nil => rfl
    | cons c t => simp at hs
  | succ n ih =>
    intro s pos hs
    cases s with
    | nil => rfl
    | cons c t =>
      have ht : t.length ≤ n := by simpa using hs
      cases he : execAt reTag pos (c :: t) with
      | some m =>
        obtain ⟨w, hw, hp, _⟩ := execAt_sound _ reTag reTag_only pos (c :: t) m he
        have hne : w ≠ [] := by
          intro h0
          subst h0
          have hm : m.pos = pos := by simpa using hp
          obtain ⟨w2, st1, _, hp2, _, hk⟩ := matchK_sound (fun _ => True)
            (seqs [.star (.non '>'), .chr (.one '>')])
            (by simp [seqs, Re.Only]) ⟨pos + 1, t, []⟩ some m (by
              rw [reTag_exec] at he
              split at he
              · exact he
              · cases he)
          injection hk with hk
          subst hk
          simp at hp2
          omega
        rw [replaceLoop_some reTag _ pos (c :: t) m w he hw hp hne]
        apply ih
        have hl := congrArg List.length hw
        simp only [List.length_cons, List.length_append] at hl
        have : 0 < w.length := List.length_pos.2 hne
        omega
      | none =>
        rw [replaceLoop_none reTag _ pos c t he]
        by_cases hc : (c == '<') = true
        · rw [reTag_exec, if_pos hc] at he
          have hgt := starGreedy_gt_none [] t (pos + 1) he
          simp only [tagFree, hc, if_true, Bool.not_eq_true']
          rw [Bool.eq_false_iff]
          intro hany
          rw [List.any_eq_true] at hany
          obtain ⟨x, hx, hxe⟩ := hany
          rcases mem_replaceLoop reTag _ x t 0 (pos + 1) hx with h | ⟨_, h⟩
          · have : t.any (fun x => x == '>') = true := List.any_eq_true.2 ⟨x, h, hxe⟩
            rw [hgt] at this
            cases this
          · cases h
        · simp only [tagFree, hc]
          exact ih t (pos + 1) ht

theorem replaceLoop_filter (r : Re) (f : MState → Str) (g : Char → Bool)
    (hr : r.Only (fun c => g c = false)) (hf : ∀ m, (f m).filter g = []) (n : Nat) :
    ∀ (s : Str) (pos : Nat), s.length ≤ n →
      (replaceLoop r f 0 pos s).filter g = s.filter g := by
  induction n with
  | zero =>
    intro s pos hs
    cases s with
    | nil =>
      simp only [replaceLoop]
      split
      · exact hf _
      · rfl
    | cons c t => simp at hs
  | succ n ih =>
    intro s pos hs
    cases s with
    | nil =>
      simp only [replaceLoop]
      split
      · exact hf _
      · rfl
    | cons c t =>
      have ht : t.length ≤ n := by simpa using hs
      cases he : execAt r pos (c :: t) with
      | none =>
        rw [replaceLoop_none r f pos c t he, List.filter_cons, List.filter_cons, ih t _ ht]
      | some m =>
        obtain ⟨w, hw, hp, hq⟩ := execAt_sound _ r hr pos (c :: t) m he
        by_cases hne : w = []
        · subst hne
          have hm : m.pos - pos = 0 := by rw [hp]; simp
          rw [replaceLoop_cons_some r f pos c t m he, if_pos hm, List.filter_append, hf,
            List.nil_append, List.filter_cons, List.filter_cons, ih t _ ht]
        · rw [replaceLoop_some r f pos (c :: t) m w he hw hp hne, List.filter_append, hf,
            List.nil_append]
          have hl := congrArg List.length hw
          simp only [List.length_cons, List.length_append] at hl
          have : 0 < w.length := List.length_pos.2 hne
          rw [ih m.rest m.pos (by omega)]
          conv_rhs => rw [hw, List.filter_append]
          have : w.filter g = [] := by
            rw [List.filter_eq_nil_iff]
            intro a ha
            simp [hq a ha]
          rw [this, List.nil_append]

theorem isSpace_not_angle (c : Char) (h : isSpace c = true) : isAngle c = false := by
  by_cases h1 : c = '<'
  · subst h1; revert h; decide
  · by_cases h2 : c = '>'
    · subst h2; revert h; decide
    · simp [isAngle, h1, h2]

theorem reBlankLines_only : reBlankLines.Only (fun c => isSpace c = true) := by
  have h : ∀ c, (Cls.one '\n').test c = true → isSpace c = true := by
    intro c hc
    have : c = '\n' := by simpa [Cls.test] using hc
    subst this
    decide
  simp only [reBlankLines, seqs, Re.Only]
  exact ⟨h, fun _ hc => hc, h, fun _ hc => hc, h⟩

theorem reTrim_only : reTrim.Only (fun c => isSpace c = true) := by
  simp only [reTrim, seqs, Re.Only]
  exact ⟨⟨trivial, fun _ hc => hc, fun _ hc => hc⟩, fun _ hc => hc, fun _ hc => hc, trivial⟩

theorem only_mono (q1 q2 : Char → Prop) (h : ∀ c, q1 c → q2 c) (r : Re) (hr : r.Only q1) :
    r.Only q2 := by
  induction r with
  | eps => trivial
  | chr p => exact fun c hc => h c (hr c hc)
  | star p => exact fun c hc => h c (hr c hc)
  | lazyStar p => exact fun c hc => h c (hr c hc)
  | seq a b iha ihb => exact ⟨iha hr.1, ihb hr.2⟩
  | alt a b iha ihb => exact ⟨iha hr.1, ihb hr.2⟩
  | group n a iha => exact iha hr
  | bol => trivial
  | eol => trivial

theorem convert_tagFree (html : Str) : tagFree (convertHtmlToMarkdown html) = true := by
  unfold convertHtmlToMarkdown
  simp only
  unfold replaceAll
  rw [← tagFree_filter,
    replaceLoop_filter reTrim (fun _ => []) isAngle
      (only_mono _ _ isSpace_not_angle _ reTrim_only) (fun _ => rfl) _ _ 0 (le_refl _),
    replaceLoop_filter reBlankLines (fun _ => ['\n', '\n']) isAngle
      (only_mono _ _ isSpace_not_angle _ reBlankLines_only) (fun _ => rfl) _ _ 0 (le_refl _),
    tagFree_filter]
  exact strip_tagFree _ _ 0 (le_refl _)

/-- C1: for every input, no `<` in the output of `convertHtmlToMarkdown` is followed later by a
`>`; in particular the output has no substring `<`, characters other than `>`, `>`. -/
theorem convertHtmlToMarkdown_no_tag (html pre mid post : Str) :
    convertHtmlToMarkdown html ≠ pre ++ '<' :: (mid ++ '>' :: post) :=
  tagFree_ne _ (convert_tagFree html) pre mid post

theorem matchK_first_nil (r : Re) (p : Cls) (hr : r.first = some p) :
    ∀ (st : MState) (k : MState → Option MState), st.rest = [] → r.matchK st k = none := by
  induction r with
  | chr p1 =>
    intro st k hs
    simp [Re.matchK, hs]
  | seq a b iha _ =>
    intro st k hs
    exact iha hr st _ hs
  | group n a iha =>
    intro st k hs
    exact iha hr st _ hs
  | eps => cases hr
  | star _ => cases hr
  | lazyStar _ => cases hr
  | alt _ _ _ _ => cases hr
  | bol => cases hr
  | eol => cases hr

theorem matchK_first_cons (r : Re) (p : Cls) (hr : r.first = some p) :
    ∀ (st : MState) (k : MState → Option MState) (c : Char) (t : Str), st.rest = c :: t →
      p.test c = false → r.matchK st k = none := by
  induction r with
  | chr p1 =>
    intro st k c t hs hc
    injection hr with hr
    subst hr
    simp [Re.matchK, hs, hc]
  | seq a b iha _ =>
    intro st k c t hs hc
    exact iha hr st _ c t hs hc
  | group n a iha =>
    intro st k c t hs hc
    exact iha hr st _ c t hs hc
  | eps => cases hr
  | star _ => cases hr
  | lazyStar _ => cases hr
  | alt _ _ _ _ => cases hr
  | bol => cases hr
  | eol => cases hr

theorem replaceLoop_first (r : Re) (f : MState → Str) (p : Cls)
    (hr : r.first = some p) (s : Str) :
    ∀ pos, (∀ c ∈ s, p.test c = false) → replaceLoop r f 0 pos s = s := by
  induction s with
  | nil =>
    intro pos _
    exact replaceLoop_nil_none r f 0 pos (matchK_first_nil r p hr _ _ rfl)
  | cons c t ih =>
    intro pos h
    rw [replaceLoop_none r f pos c t
      (matchK_first_cons r p hr _ _ c t rfl (h c (List.mem_cons_self _ _))),
      ih (pos + 1) (fun x hx => h x (List.mem_cons_of_mem _ hx))]

theorem isChar_lt (c : Char) (h : (Cls.one '<').test c = true) : c = '<' := by
  simpa [Cls.test] using h

theorem ciChar_lt (c : Char) (h : (Cls.ci '<').test c = true) : c = '<' := by
  have h1 : '<'.toLower = '<' := by decide
  have h2 : '<'.toUpper = '<' := by decide
  simpa [Cls.test, h1, h2] using h

theorem replaceAll_opensTag (r : Re) (f : MState → Str) (hr : opensTag r) (s : Str)
    (hs : '<' ∉ s) : replaceAll r f s = s := by
  obtain ⟨p, hp, hlt⟩ := hr
  apply replaceLoop_first r f p hp
  intro c hc
  cases h : p.test c with
  | false => rfl
  | true =>
    have := hlt c h
    subst this
    exact absurd hc hs

theorem opensTag_rules :
    opensTag reHeading ∧ opensTag rePreCode ∧ opensTag reCode ∧ opensTag reBlockquote ∧
    opensTag reParagraph ∧ opensTag reBold ∧ opensTag reItalic ∧ opensTag reLink ∧
    opensTag reImgAlt ∧ opensTag reImg ∧ opensTag reListItem ∧ opensTag reList ∧
    opensTag reTable ∧ opensTag reBreak ∧ opensTag reTag := by
  refine ⟨⟨_, rfl, ciChar_lt⟩, ⟨_, rfl, ciChar_lt⟩, ⟨_, rfl, ciChar_lt⟩, ⟨_, rfl, ciChar_lt⟩,
    ⟨_, rfl, ciChar_lt⟩, ⟨_, rfl, isChar_lt⟩, ⟨_, rfl, isChar_lt⟩, ⟨_, rfl, ciChar_lt⟩,
    ⟨_, rfl, ciChar_lt⟩, ⟨_, rfl, ciChar_lt⟩, ⟨_, rfl, ciChar_lt⟩, ⟨_, rfl, isChar_lt⟩,
    ⟨_, rfl, ciChar_lt⟩, ⟨_, rfl, ciChar_lt⟩, ⟨_, rfl, isChar_lt⟩⟩

theorem convert_steps (x : Str) :
    convertHtmlToMarkdown x =
      replaceAll reTrim (fun _ => []) (replaceAll reBlankLines (fun _ => ['\n', '\n'])
        (replaceAll reTag (fun _ => []) (replaceAll reBreak (fun _ => ['\n'])
          (replaceAll reTable tableReplacer
            (replaceAll reList (fun _ => ['\n'])
              (replaceAll reListItem (fun m => "- ".toList ++ cap 1 m ++ ['\n'])
                (replaceAll reImg (fun m => "![](".toList ++ cap 1 m ++ [')'])
                  (replaceAll reImgAlt
                    (fun m => "![".toList ++ cap 2 m ++ "](".toList ++ cap 1 m ++ [')'])
                    (replaceAll reLink
                      (fun m => '[' :: cap 2 m ++ "](".toList ++ cap 1 m ++ [')'])
                      (replaceAll reItalic (fun m => '*' :: cap 2 m ++ ['*'])
                        (replaceAll reBold (fun m => "**".toList ++ cap 2 m ++ "**".toList)
                          (replaceAll reParagraph (fun m => '\n' :: cap 1 m ++ ['\n'])
                            (replaceAll reBlockquote
                              (fun m => "\n> ".toList ++ cap 1 m ++ ['\n'])
                              (replaceAll reCode (fun m => '`' :: cap 1 m ++ ['`'])
                                (replaceAll rePreCode
                                  (fun m => "\n```\n".toList ++ cap 1 m ++ "\n```\n".toList)
                                  (replaceAll reHeading headingReplacer x)))))))))))))))) :=
  rfl

theorem convert_plain (s : Str) (hs : '<' ∉ s) :
    convertHtmlToMarkdown s =
      replaceAll reTrim (fun _ => []) (replaceAll reBlankLines (fun _ => ['\n', '\n']) s) := by
  obtain ⟨h1, h2, h3, h4, h5, h6, h7, h8, h9, h10, h11, h12, h13, h14, h15⟩ := opensTag_rules
  rw [convert_steps, replaceAll_opensTag _ _ h1 s hs, replaceAll_opensTag _ _ h2 s hs,
    replaceAll_opensTag _ _ h3 s hs, replaceAll_opensTag _ _ h4 s hs,
    replaceAll_opensTag _ _ h5 s hs, replaceAll_opensTag _ _ h6 s hs,
    replaceAll_opensTag _ _ h7 s hs, replaceAll_opensTag _ _ h8 s hs,
    replaceAll_opensTag _ _ h9 s hs, replaceAll_opensTag _ _ h10 s hs,
    replaceAll_opensTag _ _ h11 s hs, replaceAll_opensTag _ _ h12 s hs,
    replaceAll_opensTag _ _ h13 s hs, replaceAll_opensTag _ _ h14 s hs,
    replaceAll_opensTag _ _ h15 s hs]

theorem starGreedy_some (p : Char → Bool) (caps : List (Nat × Str)) (t : Str) :
    ∀ pos, starGreedy p some caps pos t
      = some ⟨pos + (t.takeWhile p).length, t.dropWhile p, caps⟩ := by
  induction t with
  | nil => intro pos; rfl
  | cons c t ih =>
    intro pos
    unfold starGreedy
    by_cases hc : p c = true
    · simp [hc, ih (pos + 1), List.takeWhile, List.dropWhile, Nat.add_assoc, Nat.add_comm 1]
    · simp [hc, List.takeWhile, List.dropWhile]

theorem starGreedy_eol (p : Char → Bool) (k : MState → Option MState)
    (hk : ∀ st, k st = Re.eol.matchK st some) (caps : List (Nat × Str)) (t : Str) :
    ∀ pos, starGreedy p k caps pos t
      = if t.all p then some ⟨pos + t.length, [], caps⟩ else none := by
  induction t with
  | nil => intro pos; simp [starGreedy, hk, Re.matchK]
  | cons c t ih =>
    intro pos
    unfold starGreedy
    by_cases hc : p c = true
    · rw [if_pos hc, ih (pos + 1)]
      by_cases ht : t.all p = true
      · simp [hc, ht, Nat.add_assoc, Nat.add_comm 1]
      · simp only [Bool.not_eq_true] at ht
        simp [hc, ht, hk, Re.matchK]
    · simp [hc, hk, Re.matchK]

theorem reTrim_exec_zero (c : Char) (t : Str) :
    execAt reTrim 0 (c :: t) = if isSpace c then
      some ⟨1 + (t.takeWhile isSpace).length, t.dropWhile isSpace, []⟩ else none := by
  by_cases hc : isSpace c = true
  · simp [execAt, reTrim, seqs, Re.matchK, test_space, hc, starGreedy_some]
  · simp [execAt, reTrim, seqs, Re.matchK, test_space, hc]

theorem reTrim_exec_succ (pos : Nat) (c : Char) (t : Str) :
    execAt reTrim (pos + 1) (c :: t) = if (c :: t).all isSpace then
      some ⟨pos + 1 + 1 + t.length, [], []⟩ else none := by
  by_cases hc : isSpace c = true
  · simp only [execAt, reTrim, seqs, Re.matchK, test_space, hc, if_true, Nat.add_one_ne_zero, if_false]
    exact (starGreedy_eol isSpace _ (fun _ => rfl) [] t (pos + 1 + 1)).trans (by simp [hc])
  · simp [execAt, reTrim, seqs, Re.matchK, test_space, hc]

theorem reTrim_exec_nil (pos : Nat) : execAt reTrim pos [] = none := by
  simp [execAt, reTrim, seqs, Re.matchK]

theorem trimLoop_succ (s : Str) :
    ∀ pos, replaceLoop reTrim (fun _ => []) 0 (pos + 1) s = trimEnd s := by
  induction s with
  | nil =>
    intro pos
    exact replaceLoop_nil_none _ _ 0 _ (reTrim_exec_nil _)
  | cons c t ih =>
    intro pos
    have he := reTrim_exec_succ pos c t
    by_cases hall : (c :: t).all isSpace = true
    · rw [if_pos hall] at he
      rw [replaceLoop_some reTrim _ (pos + 1) (c :: t) _ (c :: t) he (by simp)
        (by simp only [List.length_cons]; omega) (by simp)]
      simp only [List.nil_append]
      rw [replaceLoop_nil_none _ _ 0 _ (reTrim_exec_nil _)]
      simp [trimEnd, hall]
    · rw [if_neg hall] at he
      rw [replaceLoop_none _ _ _ c t he, ih (pos + 1)]
      simp [trimEnd, hall]

theorem trim_eq (s : Str) :
    replaceAll reTrim (fun _ => []) s = trimEnd (s.dropWhile isSpace) := by
  unfold replaceAll
  cases s with
  | nil => exact replaceLoop_nil_none _ _ 0 _ (reTrim_exec_nil _)
  | cons c t =>
    have he := reTrim_exec_zero c t
    by_cases hc : isSpace c = true
    · rw [if_pos hc] at he
      rw [replaceLoop_some reTrim _ 0 (c :: t) _ (c :: t.takeWhile isSpace) he
        (by simp [List.takeWhile_append_dropWhile]) (by simp [Nat.add_comm]) (by simp)]
      simp only [List.nil_append]
      rw [Nat.add_comm, trimLoop_succ]
      simp [List.dropWhile, hc]
    · rw [if_neg hc] at he
      rw [replaceLoop_none _ _ _ c t he, trimLoop_succ]
      simp only [Bool.not_eq_true] at hc
      simp [List.dropWhile, hc, trimEnd]

theorem trimEnd_all (t : Str) (h : (trimEnd t).all isSpace = true) : t.all isSpace = true := by
  induction t with
  | nil => rfl
  | cons a t ih =>
    by_cases hall : (a :: t).all isSpace = true
    · exact hall
    · simp only [trimEnd, hall] at h
      simp only [Bool.false_eq_true, if_false, List.all_cons, Bool.and_eq_true] at h
      simp only [List.all_cons, Bool.and_eq_true]
      exact ⟨h.1, ih h.2⟩

theorem trimEnd_idem (u : Str) : trimEnd (trimEnd u) = trimEnd u := by
  induction u with
  | nil => rfl
  | cons c t ih =>
    by_cases hall : (c :: t).all isSpace = true
    · simp [trimEnd, hall]
    · have h1 : trimEnd (c :: t) = c :: trimEnd t := by simp [trimEnd, hall]
      rw [h1]
      have h2 : ¬ ((c :: trimEnd t).all isSpace = true) := by
        intro h
        apply hall
        simp only [List.all_cons, Bool.and_eq_true] at h ⊢
        exact ⟨h.1, trimEnd_all t h.2⟩
      simp only [trimEnd, h2, if_false, ih]
      simp

theorem trimEnd_append (u : Str) : ∃ w, u = trimEnd u ++ w := by
  induction u with
  | nil => exact ⟨[], rfl⟩
  | cons c t ih =>
    by_cases hall : (c :: t).all isSpace = true
    · exact ⟨c :: t, by simp [trimEnd, hall]⟩
    · obtain ⟨w, hw⟩ := ih
      refine ⟨w, ?_⟩
      have h1 : trimEnd (c :: t) = c :: trimEnd t := by simp [trimEnd, hall]
      rw [h1, List.cons_append, ← hw]

theorem dropWhile_trimEnd (u : Str) (h : u.dropWhile isSpace = u) :
    (trimEnd u).dropWhile isSpace = trimEnd u := by
  cases u with
  | nil => rfl
  | cons c t =>
    have hc : isSpace c = false := by
      cases hh : isSpace c with
      | false => rfl
      | true =>
        simp only [List.dropWhile, hh] at h
        have := congrArg List.length h
        have h2 := (List.dropWhile_sublist isSpace (l := t)).length_le
        simp at this
        omega
    have hall : ¬ ((c :: t).all isSpace = true) := by simp [hc]
    simp [trimEnd, hall, List.dropWhile, hc]

theorem dropWhile_dropWhile (p : Char → Bool) (s : Str) :
    (s.dropWhile p).dropWhile p = s.dropWhile p := by
  induction s with
  | nil => rfl
  | cons c t ih =>
    by_cases hc : p c = true
    · simp [List.dropWhile, hc, ih]
    · simp only [Bool.not_eq_true] at hc
      simp [List.dropWhile, hc]

theorem trim_idem (s : Str) :
    replaceAll reTrim (fun _ => []) (replaceAll reTrim (fun _ => []) s)
      = replaceAll reTrim (fun _ => []) s := by
  rw [trim_eq, trim_eq, dropWhile_trimEnd _ (dropWhile_dropWhile _ _), trimEnd_idem]

theorem reBlankLines_exec (pos : Nat) (c : Char) (t : Str) :
    execAt reBlankLines pos (c :: t) =
      if c == '\n' then starGreedy isSpace blankMid [] (pos + 1) t else none := rfl

theorem blankMid_cons (pos : Nat) (c : Char) (v : Str) (caps : List (Nat × Str)) :
    blankMid ⟨pos, c :: v, caps⟩ =
      if c == '\n' then starGreedy isSpace blankTail caps (pos + 1) v else none := rfl

theorem blankMid_nil (pos : Nat) (caps : List (Nat × Str)) : blankMid ⟨pos, [], caps⟩ = none := rfl

theorem blankTail_cons (pos : Nat) (c : Char) (v : Str) (caps : List (Nat × Str)) :
    blankTail ⟨pos, c :: v, caps⟩ = if c == '\n' then some ⟨pos + 1, v, caps⟩ else none := rfl

theorem blankTail_nil (pos : Nat) (caps : List (Nat × Str)) :
    blankTail ⟨pos, [], caps⟩ = none := rfl

theorem isSpace_nl : isSpace '\n' = true := by decide

theorem nlRun_cons_nl (t : Str) : nlRun ('\n' :: t) = 1 + nlRun t := by
  simp [nlRun, isSpace_nl]

theorem nlRun_cons_le (c : Char) (t : Str) (hc : isSpace c = true) :
    nlRun t ≤ nlRun (c :: t) := by
  simp only [nlRun, hc, if_true]
  omega

theorem tail_none (caps : List (Nat × Str)) (v : Str) :
    ∀ pos, starGreedy isSpace blankTail caps pos v = none → nlRun v = 0 := by
  induction v with
  | nil => intro _ _; rfl
  | cons a t iht =>
    intro p hrec
    unfold starGreedy at hrec
    by_cases ha : isSpace a = true
    · rw [if_pos ha] at hrec
      cases hr2 : starGreedy isSpace blankTail caps (p + 1) t with
      | some m2 => rw [hr2] at hrec; cases hrec
      | none =>
        rw [hr2, blankTail_cons] at hrec
        have hne : (a == '\n') = false := by
          cases hh : (a == '\n') with
          | false => rfl
          | true => rw [hh] at hrec; simp at hrec
        simp [nlRun, ha, hne, iht (p + 1) hr2]
    · simp [nlRun, ha]

theorem tail_some (caps : List (Nat × Str)) (v : Str) :
    ∀ pos m, starGreedy isSpace blankTail caps pos v = some m →
      1 ≤ nlRun v ∧ nlRun m.rest = 0 := by
  induction v with
  | nil =>
    intro pos m h
    simp [starGreedy, blankTail_nil] at h
  | cons c t ih =>
    intro pos m h
    unfold starGreedy at h
    by_cases hc : isSpace c = true
    · rw [if_pos hc] at h
      cases hrec : starGreedy isSpace blankTail caps (pos + 1) t with
      | some m1 =>
        rw [hrec] at h
        injection h with h
        subst h
        obtain ⟨h1, h2⟩ := ih (pos + 1) m1 hrec
        exact ⟨le_trans h1 (nlRun_cons_le c t hc), h2⟩
      | none =>
        rw [hrec] at h
        simp only [blankTail_cons] at h
        by_cases hn : (c == '\n') = true
        · rw [if_pos hn] at h
          injection h with h
          subst h
          have hcn : c = '\n' := by simpa using hn
          subst hcn
          exact ⟨by rw [nlRun_cons_nl]; omega, tail_none caps t (pos + 1) hrec⟩
        · rw [if_neg hn] at h
          cases h
    · rw [if_neg hc, blankTail_cons] at h
      by_cases hn : (c == '\n') = true
      · have hcn : c = '\n' := by simpa using hn
        subst hcn
        exact absurd isSpace_nl hc
      · rw [if_neg hn] at h
        cases h

theorem mid_some (caps : List (Nat × Str)) (t : Str) :
    ∀ pos m, starGreedy isSpace blankMid caps pos t = some m →
      2 ≤ nlRun t ∧ nlRun m.rest = 0 := by
  induction t with
  | nil =>
    intro pos m h
    simp [starGreedy, blankMid_nil] at h
  | cons c t ih =>
    intro pos m h
    unfold starGreedy at h
    by_cases hc : isSpace c = true
    · rw [if_pos hc] at h
      cases hrec : starGreedy isSpace blankMid caps (pos + 1) t with
      | some m1 =>
        rw [hrec] at h
        injection h with h
        subst h
        obtain ⟨h1, h2⟩ := ih (pos + 1) m1 hrec
        exact ⟨le_trans h1 (nlRun_cons_le c t hc), h2⟩
      | none =>
        rw [hrec, blankMid_cons] at h
        by_cases hn : (c == '\n') = true
        · rw [if_pos hn] at h
          have hcn : c = '\n' := by simpa using hn
          subst hcn
          obtain ⟨h1, h2⟩ := tail_some caps t (pos + 1) m h
          exact ⟨by rw [nlRun_cons_nl]; omega, h2⟩
        · rw [if_neg hn] at h
          cases h
    · rw [if_neg hc, blankMid_cons] at h
      by_cases hn : (c == '\n') = true
      · have hcn : c = '\n' := by simpa using hn
        subst hcn
        exact absurd isSpace_nl hc
      · rw [if_neg hn] at h
        cases h

theorem mid_none (caps : List (Nat × Str)) (t : Str) :
    ∀ pos, starGreedy isSpace blankMid caps pos t = none → nlRun t < 2 := by
  induction t with
  | nil => intro _ _; simp [nlRun]
  | cons a t iht =>
    intro p hrec
    unfold starGreedy at hrec
    by_cases ha : isSpace a = true
    · rw [if_pos ha] at hrec
      cases hr2 : starGreedy isSpace blankMid caps (p + 1) t with
      | some m2 => rw [hr2] at hrec; cases hrec
      | none =>
        rw [hr2, blankMid_cons] at hrec
        have := iht (p + 1) hr2
        by_cases hn : (a == '\n') = true
        · rw [if_pos hn] at hrec
          have := tail_none caps t (p + 1) hrec
          simp only [nlRun, ha, hn, if_true]
          omega
        · simp only [nlRun, ha, hn, if_true]
          simp only [Bool.false_eq_true, if_false]
          omega
    · simp [nlRun, ha]

theorem blank_some (pos : Nat) (s : Str) (m : MState) (h : execAt reBlankLines pos s = some m) :
    3 ≤ nlRun s ∧ nlRun m.rest = 0 := by
  cases s with
  | nil => simp [execAt, reBlankLines, seqs, Re.matchK] at h
  | cons c t =>
    rw [reBlankLines_exec] at h
    by_cases hn : (c == '\n') = true
    · rw [if_pos hn] at h
      have hcn : c = '\n' := by simpa using hn
      subst hcn
      obtain ⟨h1, h2⟩ := mid_some [] t (pos + 1) m h
      exact ⟨by rw [nlRun_cons_nl]; omega, h2⟩
    · rw [if_neg hn] at h
      cases h

theorem blank_none (pos : Nat) (t : Str) (h : execAt reBlankLines pos ('\n' :: t) = none) :
    nlRun t < 2 := by
  rw [reBlankLines_exec] at h
  exact mid_none [] t (pos + 1) h

theorem calm_cons (c : Char) (o : Str) (h : Calm o) (hc : nlRun (c :: o) ≤ 2) : Calm (c :: o) := by
  intro a u hs
  cases a with
  | nil =>
    have : u = c :: o := by simpa using hs.symm
    rw [this]
    exact hc
  | cons a1 a =>
    simp only [List.cons_append, List.cons.injEq] at hs
    exact h a u hs.2

theorem calm_self (s : Str) (h : Calm s) : nlRun s ≤ 2 := h [] s rfl

theorem collapse_calm (n : Nat) : ∀ (s : Str) (pos : Nat), s.length ≤ n →
    Calm (replaceLoop reBlankLines (fun _ => ['\n', '\n']) 0 pos s) ∧
    nlRun (replaceLoop reBlankLines (fun _ => ['\n', '\n']) 0 pos s) ≤ nlRun s := by
  have hnil : ∀ pos, replaceLoop reBlankLines (fun _ => ['\n', '\n']) 0 pos [] = [] :=
    fun pos => replaceLoop_nil_none _ _ 0 pos rfl
  have hcalm0 : Calm [] := by
    intro a u hs
    have : u = [] := by
      have := congrArg List.length hs
      simp at this
      exact List.eq_nil_of_length_eq_zero (by omega)
    rw [this]
    simp [nlRun]
  induction n with
  | zero =>
    intro s pos hs
    cases s with
    | nil => rw [hnil]; exact ⟨hcalm0, le_refl _⟩
    | cons c t => simp at hs
  | succ n ih =>
    intro s pos hs
    cases s with
    | nil => rw [hnil]; exact ⟨hcalm0, le_refl _⟩
    | cons c t =>
      have ht : t.length ≤ n := by simpa using hs
      cases he : execAt reBlankLines pos (c :: t) with
      | some m =>
        obtain ⟨h3, h0⟩ := blank_some pos (c :: t) m he
        obtain ⟨w, hw, hp, _⟩ := execAt_sound _ reBlankLines reBlankLines_only pos (c :: t) m he
        have hne : w ≠ [] := by
          intro hw0
          subst hw0
          simp only [List.nil_append] at hw
          rw [hw] at h3
          omega
        rw [replaceLoop_some _ _ pos (c :: t) m w he hw hp hne]
        show Calm ('\n' :: '\n' ::
            replaceLoop reBlankLines (fun _ => ['\n', '\n']) 0 m.pos m.rest) ∧
          nlRun ('\n' :: '\n' ::
            replaceLoop reBlankLines (fun _ => ['\n', '\n']) 0 m.pos m.rest) ≤ nlRun (c :: t)
        have hl := congrArg List.length hw
        simp only [List.length_cons, List.length_append] at hl
        have hwl : 0 < w.length := List.length_pos.2 hne
        obtain ⟨ihc, ihn⟩ := ih m.rest m.pos (by omega)
        rw [h0] at ihn
        have hz : nlRun (replaceLoop reBlankLines (fun _ => ['\n', '\n']) 0 m.pos m.rest) = 0 := by
          omega
        have h1 : nlRun ('\n' :: replaceLoop reBlankLines (fun _ => ['\n', '\n']) 0 m.pos m.rest)
            = 1 := by rw [nlRun_cons_nl, hz]
        have h2 : nlRun ('\n' :: '\n' ::
            replaceLoop reBlankLines (fun _ => ['\n', '\n']) 0 m.pos m.rest) = 2 := by
          rw [nlRun_cons_nl, h1]
        refine ⟨?_, ?_⟩
        · exact calm_cons _ _ (calm_cons _ _ ihc (by omega)) (by omega)
        · omega
      | none =>
        rw [replaceLoop_none _ _ pos c t he]
        obtain ⟨ihc, ihn⟩ := ih t (pos + 1) ht
        have hle : nlRun (c :: replaceLoop reBlankLines (fun _ => ['\n', '\n']) 0 (pos + 1) t)
            ≤ nlRun (c :: t) := by
          simp only [nlRun]
          split
          · omega
          · exact le_refl _
        refine ⟨calm_cons _ _ ihc ?_, hle⟩
        by_cases hn : (c == '\n') = true
        · have hcn : c = '\n' := by simpa using hn
          subst hcn
          have := blank_none pos t he
          rw [nlRun_cons_nl] at hle ⊢
          have := calm_self _ ihc
          omega
        · have := calm_self _ ihc
          simp only [nlRun, hn]
          split
          · simp only [Bool.false_eq_true, if_false]
            omega
          · omega

theorem replaceLoop_noMatch (r : Re) (f : MState → Str) (s : Str) :
    ∀ pos, (∀ p a u, s = a ++ u → execAt r p u = none) → replaceLoop r f 0 pos s = s := by
  induction s with
  | nil =>
    intro pos h
    exact replaceLoop_nil_none r f 0 pos (h pos [] [] rfl)
  | cons c t ih =>
    intro pos h
    rw [replaceLoop_none r f pos c t (h pos [] (c :: t) rfl),
      ih (pos + 1) (fun p a u hs => h p (c :: a) u (by rw [hs]; rfl))]

theorem collapse_id (s : Str) (h : Calm s) :
    replaceAll reBlankLines (fun _ => ['\n', '\n']) s = s := by
  apply replaceLoop_noMatch
  intro p a u hs
  cases he : execAt reBlankLines p u with
  | none => rfl
  | some m =>
    have := (blank_some p u m he).1
    have := h a u hs
    omega

theorem nlRun_append_le (v w : Str) : nlRun v ≤ nlRun (v ++ w) := by
  induction v with
  | nil => simp [nlRun]
  | cons c t ih =>
    show nlRun (c :: t) ≤ nlRun (c :: (t ++ w))
    by_cases hc : isSpace c = true
    · simp only [nlRun, hc, if_true]
      omega
    · simp [nlRun, hc]

theorem calm_suffix (a s : Str) (h : Calm (a ++ s)) : Calm s := by
  intro b u hs
  exact h (a ++ b) u (by rw [hs, List.append_assoc])

theorem calm_trimEnd (s : Str) (h : Calm s) : Calm (trimEnd s) := by
  obtain ⟨w, hw⟩ := trimEnd_append s
  intro a u hs
  have := h a (u ++ w) (by rw [hw, hs, List.append_assoc])
  exact le_trans (nlRun_append_le u w) this

theorem calm_trim (s : Str) (h : Calm s) : Calm (replaceAll reTrim (fun _ => []) s) := by
  rw [trim_eq]
  apply calm_trimEnd
  apply calm_suffix (s.takeWhile isSpace)
  rw [List.takeWhile_append_dropWhile]
  exact h

theorem not_mem_replaceAll (r : Re) (f : MState → Str) (x : Char) (s : Str) (hs : x ∉ s)
    (hf : ∀ m, x ∉ f m) : x ∉ replaceAll r f s := by
  intro h
  rcases mem_replaceLoop r f x s 0 0 h with h | ⟨m, h⟩
  · exact hs h
  · exact hf m h

/-- C5: on a text without `<`, `convertHtmlToMarkdown` is idempotent: the collapsing of blank
lines followed by trimming reaches a fixed point after one application. -/
theorem convert_idempotent (x : Str) (hx : '<' ∉ x) :
    convertHtmlToMarkdown (convertHtmlToMarkdown x) = convertHtmlToMarkdown x := by
  have h1 := convert_plain x hx
  have hz : '<' ∉ replaceAll reBlankLines (fun _ => ['\n', '\n']) x :=
    not_mem_replaceAll _ _ _ _ hx (fun _ => by decide)
  have hy : '<' ∉ convertHtmlToMarkdown x := by
    rw [h1]
    exact not_mem_replaceAll _ _ _ _ hz (fun _ => by simp)
  rw [convert_plain _ hy, h1]
  have hcalm : Calm (replaceAll reBlankLines (fun _ => ['\n', '\n']) x) :=
    (collapse_calm _ x 0 (le_refl _)).1
  rw [collapse_id _ (calm_trim _ hcalm), trim_idem]

theorem seqs_cons_matchK (r : Re) (rs : List Re) (st : MState) (k : MState → Option MState) :
    (seqs (r :: rs)).matchK st k = r.matchK st (fun st1 => (seqs rs).matchK st1 k) := by
  cases rs with
  | nil => rfl
  | cons r2 rs => rfl

theorem litCI_matchK (e w : Str) (h : caseVariant e w = true) (pos : Nat) (rest : Str)
    (caps : List (Nat × Str)) (k : MState → Option MState) :
    (litCI e).matchK ⟨pos, w ++ rest, caps⟩ k = k ⟨pos + e.length, rest, caps⟩ := by
  induction e generalizing w pos with
  | nil =>
    cases w with
    | nil => rfl
    | cons c w => simp [caseVariant] at h
  | cons x e ih =>
    cases w with
    | nil => simp [caseVariant] at h
    | cons c w =>
      simp only [caseVariant, Bool.and_eq_true] at h
      have h1 := ih w h.2 (pos + 1)
      unfold litCI at h1 ⊢
      rw [List.map_cons, seqs_cons_matchK]
      simp only [Re.matchK, List.cons_append, h.1, if_true]
      rw [h1]
      simp [Nat.add_assoc, Nat.add_comm 1]

theorem alts_isSome (rs : List Re) (r : Re) (hr : r ∈ rs) (st : MState)
    (k : MState → Option MState) (h : (r.matchK st k).isSome = true) :
    ((alts rs).matchK st k).isSome = true := by
  induction rs with
  | nil => cases hr
  | cons a rs ih =>
    cases rs with
    | nil =>
      rcases List.mem_singleton.1 hr with rfl
      exact h
    | cons b rs =>
      show (match a.matchK st k with
        | some m => some m
        | none => (alts (b :: rs)).matchK st k).isSome = true
      rcases List.mem_cons.1 hr with rfl | hr
      · cases hh : r.matchK st k with
        | none => rw [hh] at h; cases h
        | some m => rfl
      · cases a.matchK st k with
        | none => exact ih hr
        | some m => rfl

theorem testFrom_append (r : Re) (pre s : Str) (pos : Nat)
    (h : (execAt r (pos + pre.length) s).isSome = true) : testFrom r pos (pre ++ s) = true := by
  induction pre generalizing pos with
  | nil =>
    cases s with
    | nil => simpa [testFrom] using h
    | cons c t =>
      have : (execAt r pos (c :: t)).isSome = true := by simpa using h
      simp [testFrom, this]
  | cons a pre ih =>
    have := ih (pos + 1) (by simpa [Nat.add_assoc, Nat.add_comm 1] using h)
    simp [testFrom, this]

theorem reMediaExt_test (pre e ext : Str) (he : e ∈ mediaExtensions)
    (hv : caseVariant e ext = true) : test reMediaExt (pre ++ '.' :: ext) = true := by
  apply testFrom_append
  have h0 : ∀ p, execAt reMediaExt p ('.' :: ext) =
      (alts (mediaExtensions.map litCI)).matchK ⟨p + 1, ext, []⟩
        (fun st1 => Re.eol.matchK
          ⟨st1.pos, st1.rest, (1, ext.take (st1.pos - (p + 1))) :: st1.caps⟩ some) :=
    fun _ => rfl
  rw [h0]
  apply alts_isSome _ (litCI e) (List.mem_map_of_mem _ he)
  have := litCI_matchK e ext hv (0 + pre.length + 1) [] []
  rw [List.append_nil] at this
  rw [this]
  rfl

theorem forces_test (d : Char) (p : Cls) (x : Char) (hf : p.forces d = true)
    (ht : p.test x = true) : x = d := by
  cases p with
  | one y =>
    simp only [Cls.forces, beq_iff_eq] at hf
    simp only [Cls.test, beq_iff_eq] at ht
    rw [ht, hf]
  | ci y =>
    simp only [Cls.forces, Bool.and_eq_true, beq_iff_eq] at hf
    simp only [Cls.test, Bool.or_eq_true, beq_iff_eq] at ht
    rcases ht with h | h
    · rw [h, hf.1]
    · rw [h, hf.2]
  | non y => cases hf
  | space => cases hf
  | dot => cases hf
  | any => cases hf
  | range lo hi => cases hf

theorem only_true (r : Re) : r.Only (fun _ => True) := by
  induction r with
  | eps => trivial
  | chr p => exact fun _ _ => trivial
  | star p => exact fun _ _ => trivial
  | lazyStar p => exact fun _ _ => trivial
  | seq a b iha ihb => exact ⟨iha, ihb⟩
  | alt a b iha ihb => exact ⟨iha, ihb⟩
  | group n a iha => exact iha
  | bol => trivial
  | eol => trivial

theorem matchK_count_le (d : Char) (r : Re) (st : MState) (k : MState → Option MState)
    (m : MState) (h : r.matchK st k = some m) :
    ∃ st1, k st1 = some m ∧ st1.rest.count d ≤ st.rest.count d := by
  obtain ⟨w, st1, hs, _, _, hk⟩ := matchK_sound _ r (only_true r) st k m h
  exact ⟨st1, hk, by rw [hs, List.count_append]; omega⟩

theorem minCount_sound (d : Char) (r : Re) :
    ∀ (st : MState) (k : MState → Option MState) (m : MState), r.matchK st k = some m →
      ∃ st1, k st1 = some m ∧ r.minCount d + st1.rest.count d ≤ st.rest.count d := by
  induction r with
  | chr p =>
    intro st k m h
    simp only [Re.matchK] at h
    split at h
    · cases h
    · rename_i c t hrest
      by_cases hc : p.test c = true
      · rw [if_pos hc] at h
        refine ⟨_, h, ?_⟩
        rw [hrest]
        simp only [Re.minCount]
        split
        · rename_i hf
          have := forces_test d p c hf hc
          subst this
          simp
          omega
        · simp only [Nat.zero_add, List.count_cons]
          omega
      · rw [if_neg hc] at h
        cases h
  | seq a b iha ihb =>
    intro st k m h
    obtain ⟨st1, hk1, h1⟩ := iha st _ m h
    obtain ⟨st2, hk2, h2⟩ := ihb st1 k m hk1
    exact ⟨st2, hk2, by simp only [Re.minCount]; omega⟩
  | alt a b iha ihb =>
    intro st k m h
    simp only [Re.matchK] at h
    cases ha : a.matchK st k with
    | some m1 =>
      rw [ha] at h
      injection h with h
      subst h
      obtain ⟨st1, hk1, h1⟩ := iha st k m1 ha
      exact ⟨st1, hk1, by simp only [Re.minCount]; omega⟩
    | none =>
      rw [ha] at h
      obtain ⟨st1, hk1, h1⟩ := ihb st k m h
      exact ⟨st1, hk1, by simp only [Re.minCount]; omega⟩
  | group n a iha =>
    intro st k m h
    obtain ⟨st1, hk1, h1⟩ := iha st _ m h
    exact ⟨_, hk1, h1⟩
  | eps =>
    intro st k m h
    simpa [Re.minCount] using matchK_count_le d _ st k m h
  | star p =>
    intro st k m h
    simpa [Re.minCount] using matchK_count_le d _ st k m h
  | lazyStar p =>
    intro st k m h
    simpa [Re.minCount] using matchK_count_le d _ st k m h
  | bol =>
    intro st k m h
    simpa [Re.minCount] using matchK_count_le d _ st k m h
  | eol =>
    intro st k m h
    simpa [Re.minCount] using matchK_count_le d _ st k m h

theorem matchK_none_of_count (d : Char) (r : Re) (st : MState) (k : MState → Option MState)
    (h : st.rest.count d < r.minCount d) : r.matchK st k = none := by
  cases hm : r.matchK st k with
  | none => rfl
  | some m =>
    obtain ⟨st1, _, h1⟩ := minCount_sound d r st k m hm
    omega

theorem starGreedy_none_of_suffix (p : Char → Bool) (k : MState → Option MState)
    (caps : List (Nat × Str)) (s : Str) :
    ∀ pos, (∀ pos1 a u, s = a ++ u → k ⟨pos1, u, caps⟩ = none) →
      starGreedy p k caps pos s = none := by
  induction s with
  | nil =>
    intro pos h
    exact h pos [] [] rfl
  | cons c t ih =>
    intro pos h
    have h1 := ih (pos + 1) (fun pos1 a u hs => h pos1 (c :: a) u (by rw [hs]; rfl))
    have h2 := h pos [] (c :: t) rfl
    unfold starGreedy
    split
    · rw [h1]
      exact h2
    · exact h2

theorem starGreedy_none_mix (p : Char → Bool) (r : Re) (k : MState → Option MState)
    (caps : List (Nat × Str)) (cls : Cls) (d : Char) (hfirst : r.first = some cls)
    (a u : Str) (ha : ∀ c ∈ a, cls.test c = false) (hu : u.count d < r.minCount d) (pos : Nat) :
    starGreedy p (fun st => r.matchK st k) caps pos (a ++ u) = none := by
  apply starGreedy_none_of_suffix
  intro pos1 b v hs
  cases v with
  | nil => exact matchK_first_nil r cls hfirst _ _ rfl
  | cons c v =>
    by_cases hc : cls.test c = true
    · apply matchK_none_of_count d
      show (c :: v).count d < _
      -- `c :: v` starts inside `u`, since no character of `a` passes the first class
      rcases List.append_eq_append_iff.1 hs with ⟨a', h1, h2⟩ | ⟨c', h1, h2⟩
      · rw [h2] at hu
        rw [List.count_append] at hu
        omega
      · cases c' with
        | nil =>
          simp only [List.nil_append] at h2
          rw [h2]
          exact hu
        | cons x c' =>
          have hx : x = c := by
            simp only [List.cons_append, List.cons.injEq] at h2
            exact h2.1.symm
          have hmem : c ∈ a := by
            rw [h1, ← hx]
            simp
          rw [ha c hmem] at hc
          cases hc
    · simp only [Bool.not_eq_true] at hc
      exact matchK_first_cons r cls hfirst _ _ c v rfl hc

theorem starGreedy_append_some (p : Char → Bool) (k : MState → Option MState)
    (caps : List (Nat × Str)) (w t : Str) (m : MState) (hw : ∀ c ∈ w, p c = true) :
    ∀ pos, starGreedy p k caps (pos + w.length) t = some m →
      starGreedy p k caps pos (w ++ t) = some m := by
  induction w with
  | nil => intro pos h; simpa using h
  | cons c w ih =>
    intro pos h
    have h1 := ih (fun x hx => hw x (List.mem_cons_of_mem _ hx)) (pos + 1)
      (by simpa [Nat.add_assoc, Nat.add_comm 1] using h)
    show starGreedy p k caps pos (c :: (w ++ t)) = some m
    unfold starGreedy
    rw [if_pos (hw c (List.mem_cons_self _ _)), h1]

theorem starGreedy_pick (p : Char → Bool) (k : MState → Option MState)
    (caps : List (Nat × Str)) (w : Str) (c : Char) (t : Str) (m : MState) (pos : Nat)
    (hw : ∀ x ∈ w, p x = true) (hc : p c = true)
    (hnone : starGreedy p k caps (pos + w.length + 1) t = none)
    (hk : k ⟨pos + w.length, c :: t, caps⟩ = some m) :
    starGreedy p k caps pos (w ++ c :: t) = some m := by
  apply starGreedy_append_some p k caps w (c :: t) m hw
  unfold starGreedy
  rw [if_pos hc, hnone]
  exact hk

theorem starGreedy_delim (p : Char → Bool) (k : MState → Option MState)
    (caps : List (Nat × Str)) (w rest : Str) (hw : ∀ c ∈ w, p c = true)
    (hk : ∀ pos1 c t, p c = true → k ⟨pos1, c :: t, caps⟩ = none)
    (hrest : ∀ c t, rest = c :: t → p c = false) :
    ∀ pos, starGreedy p k caps pos (w ++ rest) = k ⟨pos + w.length, rest, caps⟩ := by
  induction w with
  | nil =>
    intro pos
    cases rest with
    | nil => rfl
    | cons c t =>
      simp only [List.nil_append, List.length_nil, Nat.add_zero]
      unfold starGreedy
      rw [if_neg (by rw [hrest c t rfl]; simp)]
  | cons c w ih =>
    intro pos
    have h1 := ih (fun x hx => hw x (List.mem_cons_of_mem _ hx)) (pos + 1)
    show starGreedy p k caps pos (c :: (w ++ rest)) = _
    unfold starGreedy
    rw [if_pos (hw c (List.mem_cons_self _ _)), h1]
    have hpos : pos + 1 + w.length = pos + (c :: w).length := by
      simp only [List.length_cons]; omega
    rw [hpos]
    cases hh : k ⟨pos + (c :: w).length, rest, caps⟩ with
    | some m => rfl
    | none => exact hk pos c _ (hw c (List.mem_cons_self _ _))

theorem starLazy_until (p : Char → Bool) (k : MState → Option MState)
    (caps : List (Nat × Str)) (w rest : Str) (m : MState) (hw : ∀ c ∈ w, p c = true)
    (hk : ∀ pos1 c t, c ∈ w → k ⟨pos1, c :: t, caps⟩ = none) :
    ∀ pos, k ⟨pos + w.length, rest, caps⟩ = some m →
      starLazy p k caps pos (w ++ rest) = some m := by
  induction w with
  | nil =>
    intro pos h
    simp only [List.length_nil, Nat.add_zero] at h
    cases rest with
    | nil => simpa [starLazy] using h
    | cons c t => simp [starLazy, h]
  | cons c w ih =>
    intro pos h
    have h1 := ih (fun x hx => hw x (List.mem_cons_of_mem _ hx))
      (fun pos1 x t hx => hk pos1 x t (List.mem_cons_of_mem _ hx)) (pos + 1)
      (by simpa [Nat.add_assoc, Nat.add_comm 1] using h)
    show starLazy p k caps pos (c :: (w ++ rest)) = some m
    unfold starLazy
    rw [hk pos c _ (List.mem_cons_self _ _)]
    simp only [hw c (List.mem_cons_self _ _), if_true]
    exact h1

theorem group_matchK (n : Nat) (a : Re) (st : MState) (k : MState → Option MState) :
    (Re.group n a).matchK st k = a.matchK st (fun st1 =>
      k ⟨st1.pos, st1.rest, (n, st.rest.take (st1.pos - st.pos)) :: st1.caps⟩) := rfl

theorem star_matchK (p : Cls) (st : MState) (k : MState → Option MState) :
    (Re.star p).matchK st k = starGreedy p.test k st.caps st.pos st.rest := rfl

theorem chr_matchK_cons (p : Cls) (pos : Nat) (c : Char) (t : Str) (caps : List (Nat × Str))
    (k : MState → Option MState) (h : p.test c = true) :
    (Re.chr p).matchK ⟨pos, c :: t, caps⟩ k = k ⟨pos + 1, t, caps⟩ := by
  simp [Re.matchK, h]

theorem chr_fails (p : Cls) (r : Re) (k : MState → Option MState) (pos : Nat) (c : Char)
    (t : Str) (caps : List (Nat × Str)) (h : p.test c = false) :
    (Re.seq (.chr p) r).matchK ⟨pos, c :: t, caps⟩ k = none := by
  simp [Re.matchK, h]

theorem non_test (x c : Char) : (Cls.non x).test c = true ↔ c ≠ x := by
  simp [Cls.test]

theorem all_non (x : Char) (s : Str) (h : x ∉ s) : ∀ c ∈ s, (Cls.non x).test c = true := by
  intro c hc
  rw [non_test]
  rintro rfl
  exact h hc

theorem count_zero (x : Char) (s : Str) (h : x ∉ s) : s.count x = 0 :=
  List.count_eq_zero.2 h

theorem reImgAlt_unfold (st : MState) (k : MState → Option MState) :
    reImgAlt.matchK st k = (litCI "<img".toList).matchK st (fun st1 =>
      starGreedy (Cls.non '>').test (fun st2 => imgAltSrc.matchK st2 k) st1.caps st1.pos
        st1.rest) := rfl

theorem imgAltSrc_unfold (st : MState) (k : MState → Option MState) :
    imgAltSrc.matchK st k = (litCI "src=\"".toList).matchK st (fun st1 =>
      starGreedy (Cls.non '"').test (fun st2 =>
        (Re.chr (.one '"')).matchK
          ⟨st2.pos, st2.rest, (1, st1.rest.take (st2.pos - st1.pos)) :: st2.caps⟩ (fun st3 =>
            starGreedy (Cls.non '>').test (fun st4 => imgAltAlt.matchK st4 k) st3.caps st3.pos
              st3.rest)) st1.caps st1.pos st1.rest) := rfl

theorem imgAltAlt_unfold (st : MState) (k : MState → Option MState) :
    imgAltAlt.matchK st k = (litCI "alt=\"".toList).matchK st (fun st1 =>
      starGreedy (Cls.non '"').test (fun st2 =>
        (Re.chr (.one '"')).matchK
          ⟨st2.pos, st2.rest, (2, st1.rest.take (st2.pos - st1.pos)) :: st2.caps⟩ (fun st3 =>
            starGreedy (Cls.non '>').test (fun st4 => (Re.chr (.one '>')).matchK st4 k)
              st3.caps st3.pos st3.rest)) st1.caps st1.pos st1.rest) := rfl

/-- The alt part on `alt="A">`. -/
theorem imgAltAlt_exec (A : Str) (hA : '"' ∉ A) (pos : Nat) (caps : List (Nat × Str)) :
    imgAltAlt.matchK ⟨pos, "alt=\"".toList ++ (A ++ ['"', '>']), caps⟩ some
      = some ⟨pos + 5 + A.length + 1 + 1, [], (2, A) :: caps⟩ := by
  rw [imgAltAlt_unfold, litCI_matchK _ _ (by decide)]
  simp only
  rw [starGreedy_delim _ _ _ A ['"', '>'] (all_non _ _ hA)
    (fun pos1 c t hc => by
      have : (Cls.one '"').test c = false := by
        rw [non_test] at hc
        simp [Cls.test, hc]
      simp [Re.matchK, this])
    (fun c t h => by
      injection h with h1 _
      subst h1
      decide)]
  simp only
  rw [chr_matchK_cons _ _ _ _ _ _ (by decide)]
  simp only
  unfold starGreedy
  rw [if_neg (by decide), chr_matchK_cons _ _ _ _ _ _ (by decide)]
  simp

theorem one_fails_non (x : Char) (k : MState → Option MState) (caps : List (Nat × Str)) :
    ∀ (pos1 : Nat) (c : Char) (t : Str), (Cls.non x).test c = true →
      (Re.chr (.one x)).matchK ⟨pos1, c :: t, caps⟩ k = none := by
  intro pos1 c t hc
  have : (Cls.one x).test c = false := by
    rw [non_test] at hc
    simp [Cls.test, hc]
  simp [Re.matchK, this]

/-- The src part on `src="S" alt="A">`. -/
theorem imgAltSrc_exec (S A : Str) (hS : '"' ∉ S) (hA : '"' ∉ A) (pos : Nat)
    (caps : List (Nat × Str)) :
    imgAltSrc.matchK
      ⟨pos, "src=\"".toList ++ (S ++ '"' :: ' ' :: ("alt=\"".toList ++ (A ++ ['"', '>']))), caps⟩
      some
      = some ⟨pos + 5 + S.length + 1 + 1 + 5 + A.length + 1 + 1, [], (2, A) :: (1, S) :: caps⟩ := by
  rw [imgAltSrc_unfold, litCI_matchK _ _ (by decide)]
  simp only
  rw [starGreedy_delim _ _ _ S _ (all_non _ _ hS)
    (fun pos1 c t hc => one_fails_non _ _ _ pos1 c t hc)
    (fun c t h => by
      injection h with h1 _
      subst h1
      decide)]
  simp only
  rw [chr_matchK_cons _ _ _ _ _ _ (by decide)]
  simp only
  have hpick := starGreedy_pick (Cls.non '>').test (fun st4 => imgAltAlt.matchK st4 some)
    ((1, List.take ("src=\"".toList.length + S.length - "src=\"".toList.length)
      (S ++ '"' :: ' ' :: ("alt=\"".toList ++ (A ++ ['"', '>'])))) :: caps)
    [' '] 'a' ("lt=\"".toList ++ (A ++ ['"', '>']))
    ⟨pos + 5 + S.length + 1 + 1 + 5 + A.length + 1 + 1, [],
      (2, A) :: (1, S) :: caps⟩ (pos + 5 + S.length + 1)
    (by decide) (by decide)
    (starGreedy_none_mix _ imgAltAlt some _ (.ci 'a') '"' rfl ['l', 't', '=', '"']
      (A ++ ['"', '>']) (by decide)
      (by
        have : List.count '"' (A ++ ['"', '>']) = 1 := by
          rw [List.count_append, count_zero _ _ hA]
          decide
        rw [this]
        decide) _)
    (by
      have := imgAltAlt_exec A hA (pos + 5 + S.length + 1 + 1)
        ((1, List.take ("src=\"".toList.length + S.length - "src=\"".toList.length)
          (S ++ '"' :: ' ' :: ("alt=\"".toList ++ (A ++ ['"', '>'])))) :: caps)
      simpa using this)
  simpa using hpick

theorem reImgAlt_exec (P S A : Str) (hP : '>' ∉ P) (hS : '"' ∉ S) (hA : '"' ∉ A) (pos : Nat) :
    execAt reImgAlt pos ("<img".toList ++ (P ++ 's' :: ("rc=\"".toList ++
        (S ++ '"' :: ' ' :: ("alt=\"".toList ++ (A ++ ['"', '>']))))))
      = some ⟨pos + 4 + P.length + 5 + S.length + 1 + 1 + 5 + A.length + 1 + 1, [],
          [(2, A), (1, S)]⟩ := by
  unfold execAt
  rw [reImgAlt_unfold, litCI_matchK _ _ (by decide)]
  simp only
  exact starGreedy_pick (Cls.non '>').test (fun st2 => imgAltSrc.matchK st2 some) []
    P 's' ("rc=\"".toList ++ (S ++ '"' :: ' ' :: ("alt=\"".toList ++ (A ++ ['"', '>'])))) _
    (pos + 4) (all_non _ _ hP) (by decide)
    (starGreedy_none_mix _ imgAltSrc some _ (.ci 's') '"' rfl ['r', 'c', '=', '"']
      (S ++ '"' :: ' ' :: ("alt=\"".toList ++ (A ++ ['"', '>']))) (by decide)
      (by
        have : List.count '"' (S ++ '"' :: ' ' :: ("alt=\"".toList ++ (A ++ ['"', '>']))) = 3 := by
          simp [List.count_append, List.count_cons, count_zero _ _ hS, count_zero _ _ hA]
        rw [this]
        decide) _)
    (imgAltSrc_exec S A hS hA (pos + 4 + P.length) [])

theorem replaceAll_head (r : Re) (f : MState → Str) (hr : opensTag r) (c : Char) (t : Str)
    (hhead : ∀ pos, execAt r pos (c :: t) = none) (ht : '<' ∉ t) :
    replaceAll r f (c :: t) = c :: t := by
  unfold replaceAll
  rw [replaceLoop_none r f 0 c t (hhead 0)]
  obtain ⟨p, hp, hlt⟩ := hr
  rw [replaceLoop_first r f p hp t 1]
  intro x hx
  cases h : p.test x with
  | false => rfl
  | true =>
    have := hlt x h
    subst this
    exact absurd hx ht

theorem reItalic_img (pos : Nat) (rest : Str) :
    execAt reItalic pos ('<' :: 'i' :: rest) =
      starGreedy (Cls.non '>').test (fun st => italicTail.matchK st some)
        [(1, List.take (pos + 1 + 1 - (pos + 1)) ('i' :: rest))] (pos + 1 + 1) rest := rfl

theorem italicTail_end (pos : Nat) (caps : List (Nat × Str)) :
    italicTail.matchK ⟨pos, ['>'], caps⟩ some = none := rfl

theorem italicTail_first : italicTail.first = some (.one '>') := rfl

/-- The rules before the image rules leave a lone `<img ...>` tag unchanged. -/
theorem rules_before_img (w : Str) (h1 : '<' ∉ w) (h2 : '>' ∉ w) (f1 f2 f3 f4 f5 f6 f7 f8 : MState → Str) :
    replaceAll reLink f8 (replaceAll reItalic f7 (replaceAll reBold f6 (replaceAll reParagraph f5
      (replaceAll reBlockquote f4 (replaceAll reCode f3 (replaceAll rePreCode f2
        (replaceAll reHeading f1 ('<' :: 'i' :: (w ++ ['>'])))))))))
      = '<' :: 'i' :: (w ++ ['>']) := by
  obtain ⟨o1, o2, o3, o4, o5, o6, o7, o8, _⟩ := opensTag_rules
  have ht : '<' ∉ 'i' :: (w ++ ['>']) := by
    simp only [List.mem_cons, List.mem_append, List.mem_singleton, List.not_mem_nil, or_false,
      not_or]
    exact ⟨by decide, h1, by decide⟩
  rw [replaceAll_head _ f1 o1 '<' ('i' :: (w ++ ['>'])) (fun _ => rfl) ht,
    replaceAll_head _ f2 o2 '<' ('i' :: (w ++ ['>'])) (fun _ => rfl) ht,
    replaceAll_head _ f3 o3 '<' ('i' :: (w ++ ['>'])) (fun _ => rfl) ht,
    replaceAll_head _ f4 o4 '<' ('i' :: (w ++ ['>'])) (fun _ => rfl) ht,
    replaceAll_head _ f5 o5 '<' ('i' :: (w ++ ['>'])) (fun _ => rfl) ht,
    replaceAll_head _ f6 o6 '<' ('i' :: (w ++ ['>'])) (fun _ => rfl) ht,
    replaceAll_head _ f7 o7 '<' ('i' :: (w ++ ['>'])) ?_ ht,
    replaceAll_head _ f8 o8 '<' ('i' :: (w ++ ['>'])) (fun _ => rfl) ht]
  intro pos
  rw [reItalic_img, starGreedy_delim _ _ _ w ['>'] (all_non _ _ h2)
    (fun pos1 c t hc => matchK_first_cons _ _ italicTail_first _ _ c t rfl (by
      rw [non_test] at hc
      simp [Cls.test, hc]))
    (fun c t h => by
      injection h with h1 _
      subst h1
      decide)]
  rfl

theorem trimEnd_snoc (u : Str) (e : Char) (he : isSpace e = false) :
    trimEnd (u ++ [e]) = u ++ [e] := by
  induction u with
  | nil => simp [trimEnd, he]
  | cons c u ih =>
    have : ¬ ((c :: (u ++ [e])).all isSpace = true) := by
      simp [he]
    show trimEnd (c :: (u ++ [e])) = c :: (u ++ [e])
    simp only [trimEnd, this, if_false, ih]
    simp

/-- The rules after the image rules leave text without `<` and newline unchanged, when it
neither starts nor ends with white space. -/
theorem rules_after_img (c e : Char) (u : Str) (hc : isSpace c = false) (he : isSpace e = false)
    (h1 : '<' ∉ c :: (u ++ [e])) (h2 : '\n' ∉ c :: (u ++ [e]))
    (f1 f2 f3 f4 f5 : MState → Str) :
    replaceAll reTrim (fun _ => []) (replaceAll reBlankLines (fun _ => ['\n', '\n'])
      (replaceAll reTag f5 (replaceAll reBreak f4 (replaceAll reTable f3
        (replaceAll reList f2 (replaceAll reListItem f1 (c :: (u ++ [e]))))))))
      = c :: (u ++ [e]) := by
  obtain ⟨_, _, _, _, _, _, _, _, _, _, o11, o12, o13, o14, o15⟩ := opensTag_rules
  rw [replaceAll_opensTag _ _ o11 _ h1, replaceAll_opensTag _ _ o12 _ h1,
    replaceAll_opensTag _ _ o13 _ h1, replaceAll_opensTag _ _ o14 _ h1,
    replaceAll_opensTag _ _ o15 _ h1]
  have hb : replaceAll reBlankLines (fun _ => ['\n', '\n']) (c :: (u ++ [e])) = c :: (u ++ [e]) := by
    apply replaceLoop_first reBlankLines _ (.one '\n') rfl
    intro x hx
    cases h : (Cls.one '\n').test x with
    | false => rfl
    | true =>
      have : x = '\n' := by simpa [Cls.test] using h
      subst this
      exact absurd hx h2
  rw [hb, trim_eq]
  have hd : (c :: (u ++ [e])).dropWhile isSpace = c :: (u ++ [e]) := by
    simp [List.dropWhile, hc]
  rw [hd]
  exact trimEnd_snoc (c :: u) e he

theorem replaceAll_whole (r : Re) (f : MState → Str) (x : Str) (m : MState)
    (hx : x ≠ []) (he : execAt r 0 x = some m) (hrest : m.rest = []) (hpos : m.pos = x.length)
    (hnil : ∀ pos, execAt r pos [] = none) : replaceAll r f x = f m := by
  unfold replaceAll
  rw [replaceLoop_some r f 0 x m x he (by rw [hrest, List.append_nil]) (by rw [hpos]; simp) hx,
    hrest, replaceLoop_nil_none r f 0 _ (hnil _), List.append_nil]

theorem imgAlt_replace (P S A : Str) (hP : '>' ∉ P) (hS : '"' ∉ S) (hA : '"' ∉ A) :
    replaceAll reImgAlt
        (fun m => "![".toList ++ cap 2 m ++ "](".toList ++ cap 1 m ++ [')'])
        ("<img".toList ++ (P ++ 's' :: ("rc=\"".toList ++
          (S ++ '"' :: ' ' :: ("alt=\"".toList ++ (A ++ ['"', '>']))))))
      = "![".toList ++ A ++ "](".toList ++ S ++ [')'] := by
  rw [replaceAll_whole reImgAlt _ _ _ (by simp) (reImgAlt_exec P S A hP hS hA 0) rfl
    (by simp; omega) (fun _ => rfl)]
  simp [cap, List.lookup]

theorem convert_img_src_alt (P S A : Str) (hP1 : '<' ∉ P) (hP2 : '>' ∉ P) (hS : plainAttr S)
    (hA : plainAttr A) :
    convertHtmlToMarkdown
        ("<img".toList ++ P ++ "src=\"".toList ++ S ++ "\" alt=\"".toList ++ A ++ "\">".toList)
      = "![".toList ++ A ++ "](".toList ++ S ++ [')'] := by
  obtain ⟨hS1, hS2, hS3, hS4⟩ := hS
  obtain ⟨hA1, hA2, hA3, hA4⟩ := hA
  obtain ⟨_, _, _, _, _, _, _, _, _, o10, _⟩ := opensTag_rules
  have hX : "<img".toList ++ P ++ "src=\"".toList ++ S ++ "\" alt=\"".toList ++ A ++ "\">".toList
      = '<' :: 'i' :: (("mg".toList ++ P ++ "src=\"".toList ++ S ++ "\" alt=\"".toList ++ A
          ++ ['"']) ++ ['>']) := by
    simp
  have hX2 : '<' :: 'i' :: (("mg".toList ++ P ++ "src=\"".toList ++ S ++ "\" alt=\"".toList ++ A
          ++ ['"']) ++ ['>'])
      = "<img".toList ++ (P ++ 's' :: ("rc=\"".toList ++
          (S ++ '"' :: ' ' :: ("alt=\"".toList ++ (A ++ ['"', '>']))))) := by
    simp
  have hY : "![".toList ++ A ++ "](".toList ++ S ++ [')']
      = '!' :: (('[' :: (A ++ "](".toList ++ S)) ++ [')']) := by
    simp
  have hw1 : '<' ∉ "mg".toList ++ P ++ "src=\"".toList ++ S ++ "\" alt=\"".toList ++ A ++ ['"'] := by
    simp [hS2, hA2, hP1]
  have hw2 : '>' ∉ "mg".toList ++ P ++ "src=\"".toList ++ S ++ "\" alt=\"".toList ++ A ++ ['"'] := by
    simp [hS3, hA3, hP2]
  have hY1 : '<' ∉ '!' :: (('[' :: (A ++ "](".toList ++ S)) ++ [')']) := by
    simp [hS2, hA2]
  have hY2 : '\n' ∉ '!' :: (('[' :: (A ++ "](".toList ++ S)) ++ [')']) := by
    simp [hS4, hA4]
  rw [convert_steps, hX, rules_before_img _ hw1 hw2, hX2, imgAlt_replace P S A hP2 hS1 hA1, hY,
    replaceAll_opensTag _ _ o10 _ hY1,
    rules_after_img '!' ')' _ (by decide) (by decide) hY1 hY2]

theorem reImg_unfold (st : MState) (k : MState → Option MState) :
    reImg.matchK st k = (litCI "<img".toList).matchK st (fun st1 =>
      starGreedy (Cls.non '>').test (fun st2 => imgSrcTail.matchK st2 k) st1.caps st1.pos
        st1.rest) := rfl

theorem imgSrcTail_unfold (st : MState) (k : MState → Option MState) :
    imgSrcTail.matchK st k = (litCI "src=\"".toList).matchK st (fun st1 =>
      starGreedy (Cls.non '"').test (fun st2 =>
        (Re.chr (.one '"')).matchK
          ⟨st2.pos, st2.rest, (1, st1.rest.take (st2.pos - st1.pos)) :: st2.caps⟩ (fun st3 =>
            starGreedy (Cls.non '>').test (fun st4 => (Re.chr (.one '>')).matchK st4 k)
              st3.caps st3.pos st3.rest)) st1.caps st1.pos st1.rest) := rfl

theorem imgSrcTail_exec (S : Str) (hS : '"' ∉ S) (pos : Nat) (caps : List (Nat × Str)) :
    imgSrcTail.matchK ⟨pos, "src=\"".toList ++ (S ++ ['"', '>']), caps⟩ some
      = some ⟨pos + 5 + S.length + 1 + 1, [], (1, S) :: caps⟩ := by
  rw [imgSrcTail_unfold, litCI_matchK _ _ (by decide)]
  simp only
  rw [starGreedy_delim _ _ _ S ['"', '>'] (all_non _ _ hS)
    (fun pos1 c t hc => one_fails_non _ _ _ pos1 c t hc)
    (fun c t h => by
      injection h with h1 _
      subst h1
      decide)]
  simp only
  rw [chr_matchK_cons _ _ _ _ _ _ (by decide)]
  simp only
  unfold starGreedy
  rw [if_neg (by decide), chr_matchK_cons _ _ _ _ _ _ (by decide)]
  simp

/-- The rule `reImg` on `<img`, attributes `w` without `>`, then `src="S">`. -/
theorem reImg_exec (w S : Str) (hw : '>' ∉ w) (hS : '"' ∉ S) (pos : Nat) :
    execAt reImg pos ("<img".toList ++ (w ++ 's' :: ("rc=\"".toList ++ (S ++ ['"', '>']))))
      = some ⟨pos + 4 + w.length + 5 + S.length + 1 + 1, [], [(1, S)]⟩ := by
  unfold execAt
  rw [reImg_unfold, litCI_matchK _ _ (by decide)]
  simp only
  exact starGreedy_pick (Cls.non '>').test (fun st2 => imgSrcTail.matchK st2 some) []
    w 's' ("rc=\"".toList ++ (S ++ ['"', '>'])) _ (pos + 4)
    (all_non _ _ hw) (by decide)
    (starGreedy_none_mix _ imgSrcTail some _ (.ci 's') '"' rfl ['r', 'c', '=', '"']
      (S ++ ['"', '>']) (by decide)
      (by
        have : List.count '"' (S ++ ['"', '>']) = 1 := by
          rw [List.count_append, count_zero _ _ hS]
          decide
        rw [this]
        decide) _)
    (imgSrcTail_exec S hS (pos + 4 + w.length) [])

theorem img_replace (w S : Str) (hw : '>' ∉ w) (hS : '"' ∉ S) :
    replaceAll reImg (fun m => "![](".toList ++ cap 1 m ++ [')'])
        ("<img".toList ++ (w ++ 's' :: ("rc=\"".toList ++ (S ++ ['"', '>']))))
      = "![](".toList ++ S ++ [')'] := by
  rw [replaceAll_whole reImg _ _ _ (by simp) (by simpa using reImg_exec w S hw hS 0) rfl
    (by simp; omega) (fun _ => rfl)]
  simp [cap, List.lookup]

/-- The rule `reImgAlt` fails on `<img` followed by text with fewer than four double quotes
after characters that are not `s`. -/
theorem reImgAlt_fails (a u : Str) (ha : ∀ c ∈ a, (Cls.ci 's').test c = false)
    (hu : u.count '"' < 4) (pos : Nat) :
    execAt reImgAlt pos ("<img".toList ++ (a ++ u)) = none := by
  unfold execAt
  rw [reImgAlt_unfold, litCI_matchK _ _ (by decide)]
  exact starGreedy_none_mix _ imgAltSrc some _ (.ci 's') '"' rfl a u ha hu _

theorem convert_img_src (P S : Str) (hP1 : '<' ∉ P) (hP2 : '>' ∉ P) (hP3 : '"' ∉ P)
    (hS : plainAttr S) :
    convertHtmlToMarkdown ("<img".toList ++ P ++ "src=\"".toList ++ S ++ "\">".toList)
      = "![](".toList ++ S ++ [')'] := by
  obtain ⟨hS1, hS2, hS3, hS4⟩ := hS
  obtain ⟨_, _, _, _, _, _, _, _, o9, _⟩ := opensTag_rules
  have hX : "<img".toList ++ P ++ "src=\"".toList ++ S ++ "\">".toList
      = '<' :: 'i' :: (("mg".toList ++ P ++ "src=\"".toList ++ S ++ ['"']) ++ ['>']) := by
    simp
  have hX2 : '<' :: 'i' :: (("mg".toList ++ P ++ "src=\"".toList ++ S ++ ['"']) ++ ['>'])
      = '<' :: ("img".toList ++ ([] ++ (P ++ "src=\"".toList ++ S ++ "\">".toList))) := by
    simp
  have hX3 : '<' :: ("img".toList ++ ([] ++ (P ++ "src=\"".toList ++ S ++ "\">".toList)))
      = "<img".toList ++ (P ++ 's' :: ("rc=\"".toList ++ (S ++ ['"', '>']))) := by
    simp
  have hY : "![](".toList ++ S ++ [')'] = '!' :: (("[](".toList ++ S) ++ [')']) := by
    simp
  have hw1 : '<' ∉ "mg".toList ++ P ++ "src=\"".toList ++ S ++ ['"'] := by
    simp [hS2, hP1]
  have hw2 : '>' ∉ "mg".toList ++ P ++ "src=\"".toList ++ S ++ ['"'] := by
    simp [hS3, hP2]
  have hY1 : '<' ∉ '!' :: (("[](".toList ++ S) ++ [')']) := by
    simp [hS2]
  have hY2 : '\n' ∉ '!' :: (("[](".toList ++ S) ++ [')']) := by
    simp [hS4]
  have hfail : ∀ pos, execAt reImgAlt pos
      ('<' :: ("img".toList ++ ([] ++ (P ++ "src=\"".toList ++ S ++ "\">".toList)))) = none := by
    intro pos
    apply reImgAlt_fails [] _ (by simp)
    simp [List.count_append, List.count_cons, count_zero _ _ hS1, count_zero _ _ hP3]
  have ht : '<' ∉ "img".toList ++ ([] ++ (P ++ "src=\"".toList ++ S ++ "\">".toList)) := by
    simp [hS2, hP1]
  rw [convert_steps, hX, rules_before_img _ hw1 hw2, hX2,
    replaceAll_head _ _ o9 _ _ hfail ht, hX3, img_replace _ S hP2 hS1, hY,
    rules_after_img '!' ')' _ (by decide) (by decide) hY1 hY2]

theorem convert_img_alt_src (S A : Str) (hS : plainAttr S) (hA : plainAttr A) :
    convertHtmlToMarkdown ("<img alt=\"".toList ++ A ++ "\" src=\"".toList ++ S ++ "\">".toList)
      = "![](".toList ++ S ++ [')'] := by
  obtain ⟨hS1, hS2, hS3, hS4⟩ := hS
  obtain ⟨hA1, hA2, hA3, hA4⟩ := hA
  obtain ⟨_, _, _, _, _, _, _, _, o9, _⟩ := opensTag_rules
  have hX : "<img alt=\"".toList ++ A ++ "\" src=\"".toList ++ S ++ "\">".toList
      = '<' :: 'i' :: (("mg alt=\"".toList ++ A ++ "\" src=\"".toList ++ S ++ ['"']) ++ ['>']) := by
    simp
  have hX2 : '<' :: 'i' :: (("mg alt=\"".toList ++ A ++ "\" src=\"".toList ++ S ++ ['"']) ++ ['>'])
      = '<' :: ("img".toList ++ (" alt=\"".toList ++ (A ++ "\" src=\"".toList ++ S ++ "\">".toList))) := by
    simp
  have hX3 : '<' :: ("img".toList ++ (" alt=\"".toList ++ (A ++ "\" src=\"".toList ++ S ++ "\">".toList)))
      = "<img".toList ++ ((" alt=\"".toList ++ A ++ "\" ".toList) ++
          's' :: ("rc=\"".toList ++ (S ++ ['"', '>']))) := by
    simp
  have hY : "![](".toList ++ S ++ [')'] = '!' :: (("[](".toList ++ S) ++ [')']) := by
    simp
  have hw1 : '<' ∉ "mg alt=\"".toList ++ A ++ "\" src=\"".toList ++ S ++ ['"'] := by
    simp [hS2, hA2]
  have hw2 : '>' ∉ "mg alt=\"".toList ++ A ++ "\" src=\"".toList ++ S ++ ['"'] := by
    simp [hS3, hA3]
  have hY1 : '<' ∉ '!' :: (("[](".toList ++ S) ++ [')']) := by
    simp [hS2]
  have hY2 : '\n' ∉ '!' :: (("[](".toList ++ S) ++ [')']) := by
    simp [hS4]
  have hfail : ∀ pos, execAt reImgAlt pos ('<' :: ("img".toList ++
      (" alt=\"".toList ++ (A ++ "\" src=\"".toList ++ S ++ "\">".toList)))) = none := by
    intro pos
    apply reImgAlt_fails _ _ (by decide)
    simp [List.count_append, List.count_cons, count_zero _ _ hS1, count_zero _ _ hA1]
  have ht : '<' ∉ "img".toList ++
      (" alt=\"".toList ++ (A ++ "\" src=\"".toList ++ S ++ "\">".toList)) := by
    simp [hS2, hA2]
  have hw3 : '>' ∉ " alt=\"".toList ++ A ++ "\" ".toList := by
    simp [hA3]
  rw [convert_steps, hX, rules_before_img _ hw1 hw2, hX2,
    replaceAll_head _ _ o9 _ _ hfail ht, hX3, img_replace _ S hw3 hS1, hY,
    rules_after_img '!' ')' _ (by decide) (by decide) hY1 hY2]

theorem reHeading_h2 (pos : Nat) (rest : Str) :
    execAt reHeading pos ('<' :: 'h' :: '2' :: rest) =
      starGreedy (Cls.non '>').test (fun st => headOpenEnd.matchK st some)
        [(1, List.take (pos + 1 + 1 + 1 - (pos + 1 + 1)) ('2' :: rest))] (pos + 1 + 1 + 1) rest :=
  rfl

theorem headOpenEnd_gt (pos : Nat) (rest : Str) (caps : List (Nat × Str)) :
    headOpenEnd.matchK ⟨pos, '>' :: rest, caps⟩ some =
      starLazy Cls.dot.test (fun st => headClose.matchK
        ⟨st.pos, st.rest, (2, List.take (st.pos - (pos + 1)) rest) :: st.caps⟩ some)
        caps (pos + 1) rest := rfl

theorem headClose_h2 (pos : Nat) (rest : Str) (caps : List (Nat × Str)) :
    headClose.matchK ⟨pos, '<' :: '/' :: 'h' :: '2' :: '>' :: rest, caps⟩ some =
      some ⟨pos + 1 + 1 + 1 + 1 + 1, rest, caps⟩ := rfl

theorem headClose_first : headClose.first = some (.ci '<') := rfl

theorem headOpenEnd_first : headOpenEnd.first = some (.one '>') := rfl

theorem reHeading_exec (a t rest : Str) (ha : '>' ∉ a) (ht1 : '<' ∉ t)
    (ht2 : ∀ c ∈ t, isLineTerminator c = false) (pos : Nat) :
    execAt reHeading pos (h2Element (a, t) ++ rest) =
      some ⟨pos + (h2Element (a, t)).length, rest, [(2, t), (1, ['2'])]⟩ := by
  have hX : h2Element (a, t) ++ rest
      = '<' :: 'h' :: '2' :: (a ++ '>' :: (t ++ '<' :: '/' :: 'h' :: '2' :: '>' :: rest)) := by
    simp [h2Element]
  rw [hX, reHeading_h2, starGreedy_delim _ _ _ a _ (all_non _ _ ha)
    (fun pos1 c u hc => matchK_first_cons _ _ headOpenEnd_first _ _ c u rfl (by
      rw [non_test] at hc
      simp [Cls.test, hc]))
    (fun c u h => by
      injection h with h1 _
      subst h1
      decide)]
  rw [headOpenEnd_gt]
  have hlazy := starLazy_until Cls.dot.test (fun st => headClose.matchK
      ⟨st.pos, st.rest, (2, List.take (st.pos - (pos + 1 + 1 + 1 + a.length + 1))
        (t ++ '<' :: '/' :: 'h' :: '2' :: '>' :: rest)) :: st.caps⟩ some)
    [(1, List.take (pos + 1 + 1 + 1 - (pos + 1 + 1))
      ('2' :: (a ++ '>' :: (t ++ '<' :: '/' :: 'h' :: '2' :: '>' :: rest))))]
    t ('<' :: '/' :: 'h' :: '2' :: '>' :: rest)
    ⟨pos + (h2Element (a, t)).length, rest, [(2, t), (1, ['2'])]⟩
    (fun c hc => by simp [Cls.test, ht2 c hc])
    (fun pos1 c u hc => matchK_first_cons _ _ headClose_first _ _ c u rfl (by
      have : c ≠ '<' := by
        rintro rfl
        exact ht1 hc
      have h1 : '<'.toLower = '<' := by decide
      have h2 : '<'.toUpper = '<' := by decide
      simp [Cls.test, this, h1, h2]))
    (pos + 1 + 1 + 1 + a.length + 1)
    (by
      simp only
      rw [headClose_h2]
      simp [h2Element]
      omega)
  exact hlazy

theorem headingReplacer_h2 (a : Str) (pos : Nat) (rest t : Str) (ht : '<' ∉ t) :
    headingReplacer ⟨pos, rest, [(2, t), (1, ['2'])]⟩ = h2Line (a, t) := by
  obtain ⟨_, _, _, _, _, _, _, _, _, _, _, _, _, _, o15⟩ := opensTag_rules
  have h1 : cap 1 ⟨pos, rest, [(2, t), (1, ['2'])]⟩ = ['2'] := by simp [cap, List.lookup]
  have h2 : cap 2 ⟨pos, rest, [(2, t), (1, ['2'])]⟩ = t := by simp [cap, List.lookup]
  have h3 : hashes (jsParseInt ['2']) = ['#', '#'] := by decide
  unfold headingReplacer
  rw [h1, h2, h3, replaceAll_opensTag _ _ o15 t ht]
  simp [h2Line]

theorem heading_replace (es : List (Str × Str)) (hes : ∀ e ∈ es, plainHeading e) :
    ∀ pos, replaceLoop reHeading headingReplacer 0 pos (h2Fragment es) = h2Lines es := by
  induction es with
  | nil =>
    intro pos
    exact replaceLoop_nil_none _ _ 0 pos rfl
  | cons e es ih =>
    intro pos
    obtain ⟨a, t⟩ := e
    obtain ⟨_, ha, ht1, ht2, _⟩ := hes (a, t) (List.mem_cons_self _ _)
    have he := reHeading_exec a t (h2Fragment es) ha ht1 ht2 pos
    show replaceLoop reHeading headingReplacer 0 pos (h2Element (a, t) ++ h2Fragment es) = _
    rw [replaceLoop_some reHeading headingReplacer pos _ _ (h2Element (a, t)) he rfl rfl
      (by simp [h2Element]),
      headingReplacer_h2 a _ _ t ht1, ih (fun x hx => hes x (List.mem_cons_of_mem _ hx))]
    rfl

theorem not_mem_h2Lines (x : Char) (hx : x ∉ "\n## ".toList) (es : List (Str × Str))
    (hes : ∀ e ∈ es, x ∉ e.2) : x ∉ h2Lines es := by
  induction es with
  | nil => simp [h2Lines]
  | cons e es ih =>
    have := ih (fun y hy => hes y (List.mem_cons_of_mem _ hy))
    have h2 := hes e (List.mem_cons_self _ _)
    simp only [h2Lines, h2Line, List.mem_append, not_or]
    refine ⟨⟨⟨hx, h2⟩, ?_⟩, this⟩
    intro h
    apply hx
    rcases List.mem_singleton.1 h with rfl
    decide

theorem nlRun_append_plain (t x : Str) (ht : ∀ c ∈ t, isLineTerminator c = false) :
    nlRun (t ++ x) ≤ nlRun x := by
  induction t with
  | nil => exact le_refl _
  | cons c t ih =>
    have hc : (c == '\n') = false := by
      have := ht c (List.mem_cons_self _ _)
      cases h : (c == '\n') with
      | false => rfl
      | true =>
        have hcn : c = '\n' := by simpa using h
        subst hcn
        revert this
        decide
    have := ih (fun y hy => ht y (List.mem_cons_of_mem _ hy))
    show nlRun (c :: (t ++ x)) ≤ nlRun x
    simp only [nlRun, hc]
    split
    · simp only [Bool.false_eq_true, if_false]
      omega
    · omega

theorem calm_append_plain (t x : Str) (ht : ∀ c ∈ t, isLineTerminator c = false) (hx : Calm x) :
    Calm (t ++ x) := by
  induction t with
  | nil => exact hx
  | cons c t ih =>
    have ht' : ∀ y ∈ t, isLineTerminator y = false := fun y hy => ht y (List.mem_cons_of_mem _ hy)
    apply calm_cons c (t ++ x) (ih ht')
    have h1 := nlRun_append_plain (c :: t) x ht
    have h2 := calm_self x hx
    exact le_trans h1 h2

theorem calm_h2Lines (es : List (Str × Str)) (hes : ∀ e ∈ es, plainHeading e) :
    Calm (h2Lines es) ∧ nlRun (h2Lines es) ≤ 1 := by
  induction es with
  | nil =>
    refine ⟨?_, by simp [h2Lines, nlRun]⟩
    intro a u hs
    have : u = [] := by
      have := congrArg List.length hs
      simp [h2Lines] at this
      exact List.eq_nil_of_length_eq_zero (by omega)
    rw [this]
    simp [nlRun]
  | cons e es ih =>
    obtain ⟨ihc, ihn⟩ := ih (fun x hx => hes x (List.mem_cons_of_mem _ hx))
    obtain ⟨_, _, _, ht2, _⟩ := hes e (List.mem_cons_self _ _)
    have hform : h2Lines (e :: es)
        = '\n' :: '#' :: '#' :: ' ' :: (e.2 ++ '\n' :: h2Lines es) := by
      simp [h2Lines, h2Line]
    rw [hform]
    have h0 : nlRun ('\n' :: h2Lines es) ≤ 2 := by
      rw [nlRun_cons_nl]
      omega
    have c0 : Calm ('\n' :: h2Lines es) := calm_cons _ _ ihc h0
    have c1 : Calm (e.2 ++ '\n' :: h2Lines es) := calm_append_plain _ _ ht2 c0
    have n1 : nlRun (' ' :: (e.2 ++ '\n' :: h2Lines es)) ≤ 2 := by
      have := calm_self _ c1
      have h : nlRun (' ' :: (e.2 ++ '\n' :: h2Lines es)) = nlRun (e.2 ++ '\n' :: h2Lines es) := by
        simp [nlRun, show isSpace ' ' = true by decide]
      omega
    have c2 := calm_cons _ _ c1 n1
    have n2 : ∀ x, nlRun ('#' :: x) = 0 := by
      intro x
      simp [nlRun, show isSpace '#' = false by decide]
    have c3 := calm_cons '#' _ c2 (by rw [n2]; omega)
    have c4 := calm_cons '#' _ c3 (by rw [n2]; omega)
    have n5 : nlRun ('\n' :: '#' :: '#' :: ' ' :: (e.2 ++ '\n' :: h2Lines es)) = 1 := by
      rw [nlRun_cons_nl, n2]
    exact ⟨calm_cons _ _ c4 (by omega), by omega⟩

theorem trimEnd_append_keep (a b : Str) (hb : ∃ c ∈ b, isSpace c = false) :
    trimEnd (a ++ b) = a ++ trimEnd b := by
  induction a with
  | nil => rfl
  | cons x a ih =>
    obtain ⟨c, hc, hcs⟩ := hb
    have : ¬ ((x :: (a ++ b)).all isSpace = true) := by
      intro h
      rw [List.all_eq_true] at h
      have := h c (by simp [hc])
      rw [hcs] at this
      cases this
    show trimEnd (x :: (a ++ b)) = x :: (a ++ trimEnd b)
    simp only [trimEnd, this, if_false, ih]
    simp

theorem trimEnd_all_space (w : Str) (hw : w.all isSpace = true) : trimEnd w = [] := by
  cases w with
  | nil => rfl
  | cons c w => simp only [trimEnd, hw, if_true]

theorem trimEnd_append_space (x w : Str) (hw : w.all isSpace = true) :
    trimEnd (x ++ w) = trimEnd x := by
  induction x with
  | nil => simpa [trimEnd] using trimEnd_all_space w hw
  | cons c x ih =>
    show trimEnd (c :: (x ++ w)) = trimEnd (c :: x)
    have : (c :: (x ++ w)).all isSpace = (c :: x).all isSpace := by
      simp only [List.all_cons, List.all_append, hw, Bool.and_true]
    simp only [trimEnd, this, ih]

theorem mem_trimEnd (x : Str) (c : Char) (h : c ∈ trimEnd x) : c ∈ x := by
  obtain ⟨w, hw⟩ := trimEnd_append x
  rw [hw]
  exact List.mem_append_left _ h

theorem lines_plain (t : Str) (ht : '\n' ∉ t) : lines t = [t] := by
  induction t with
  | nil => rfl
  | cons c t ih =>
    have hc : (c == '\n') = false := by
      cases h : (c == '\n') with
      | false => rfl
      | true =>
        have hcn : c = '\n' := by simpa using h
        subst hcn
        exact absurd (List.mem_cons_self _ _) ht
    have := ih (fun h => ht (List.mem_cons_of_mem _ h))
    simp [lines, hc, this]

theorem lines_plain_nl (t x : Str) (ht : '\n' ∉ t) : lines (t ++ '\n' :: x) = t :: lines x := by
  induction t with
  | nil => simp [lines]
  | cons c t ih =>
    have hc : (c == '\n') = false := by
      cases h : (c == '\n') with
      | false => rfl
      | true =>
        have hcn : c = '\n' := by simpa using h
        subst hcn
        exact absurd (List.mem_cons_self _ _) ht
    have := ih (fun h => ht (List.mem_cons_of_mem _ h))
    show lines (c :: (t ++ '\n' :: x)) = _
    simp [lines, hc, this]

theorem not_nl_of_plain (t : Str) (ht : ∀ c ∈ t, isLineTerminator c = false) : '\n' ∉ t := by
  intro h
  have := ht _ h
  revert this
  decide

theorem startsWith_hashes (x : Str) : startsWith "## ".toList ('#' :: '#' :: ' ' :: x) = true := rfl

theorem headingLines_trim (e : Str × Str) (es : List (Str × Str))
    (hes : ∀ x ∈ e :: es, plainHeading x) :
    headingLines (trimEnd ('#' :: '#' :: ' ' :: (e.2 ++ '\n' :: h2Lines es))) = 1 + es.length := by
  induction es generalizing e with
  | nil =>
    obtain ⟨_, _, _, ht2, hsp⟩ := hes e (List.mem_cons_self _ _)
    have h1 : trimEnd ('#' :: '#' :: ' ' :: (e.2 ++ '\n' :: h2Lines []))
        = '#' :: '#' :: ' ' :: trimEnd e.2 := by
      have := trimEnd_append_keep ['#', '#', ' '] (e.2 ++ ['\n']) (by
        obtain ⟨c, hc, hcs⟩ := hsp
        exact ⟨c, by simp [hc], hcs⟩)
      rw [trimEnd_append_space e.2 ['\n'] (by decide)] at this
      simpa [h2Lines] using this
    have h2 : '\n' ∉ '#' :: '#' :: ' ' :: trimEnd e.2 := by
      intro h
      simp only [List.mem_cons] at h
      rcases h with h | h | h | h
      · revert h; decide
      · revert h; decide
      · revert h; decide
      · exact not_nl_of_plain e.2 ht2 (mem_trimEnd _ _ h)
    rw [h1, headingLines, lines_plain _ h2]
    simp only [List.countP_cons, List.countP_nil, startsWith_hashes, if_true, List.length_nil]
  | cons e2 es ih =>
    obtain ⟨_, _, _, ht2, _⟩ := hes e (List.mem_cons_self _ _)
    have hrec := ih e2 (fun x hx => hes x (List.mem_cons_of_mem _ hx))
    have hform : '#' :: '#' :: ' ' :: (e.2 ++ '\n' :: h2Lines (e2 :: es))
        = ('#' :: '#' :: ' ' :: (e.2 ++ ['\n', '\n'])) ++
            ('#' :: '#' :: ' ' :: (e2.2 ++ '\n' :: h2Lines es)) := by
      simp [h2Lines, h2Line]
    rw [hform, trimEnd_append_keep _ _ ⟨'#', by simp, by decide⟩]
    have hl : lines (('#' :: '#' :: ' ' :: (e.2 ++ ['\n', '\n'])) ++
          trimEnd ('#' :: '#' :: ' ' :: (e2.2 ++ '\n' :: h2Lines es)))
        = ('#' :: '#' :: ' ' :: e.2) :: [] ::
            lines (trimEnd ('#' :: '#' :: ' ' :: (e2.2 ++ '\n' :: h2Lines es))) := by
      have h2 : '\n' ∉ '#' :: '#' :: ' ' :: e.2 := by
        intro h
        simp only [List.mem_cons] at h
        rcases h with h | h | h | h
        · revert h; decide
        · revert h; decide
        · revert h; decide
        · exact not_nl_of_plain e.2 ht2 h
      have := lines_plain_nl ('#' :: '#' :: ' ' :: e.2)
        ('\n' :: trimEnd ('#' :: '#' :: ' ' :: (e2.2 ++ '\n' :: h2Lines es))) h2
      have h3 : ('#' :: '#' :: ' ' :: (e.2 ++ ['\n', '\n'])) ++
          trimEnd ('#' :: '#' :: ' ' :: (e2.2 ++ '\n' :: h2Lines es))
          = ('#' :: '#' :: ' ' :: e.2) ++ '\n' ::
            ('\n' :: trimEnd ('#' :: '#' :: ' ' :: (e2.2 ++ '\n' :: h2Lines es))) := by
        simp
      rw [h3, this]
      simp [lines]
    unfold headingLines at hrec ⊢
    rw [hl]
    simp only [List.countP_cons, startsWith_hashes, if_true]
    rw [hrec]
    simp [startsWith]
    omega

/-- C6 (amended): for every N and every fragment that is the concatenation of N elements
`<h2 a>t</h2>`, where the attribute text `a` has no angle bracket and the content `t` is on
one line, has no `<` and has a character that is not white space, the output of
`convertHtmlToMarkdown` has exactly N lines that begin with `## `. -/
theorem convert_h2 (es : List (Str × Str)) (hes : ∀ e ∈ es, plainHeading e) :
    headingLines (convertHtmlToMarkdown (h2Fragment es)) = es.length := by
  obtain ⟨_, o2, o3, o4, o5, o6, o7, o8, o9, o10, o11, o12, o13, o14, o15⟩ := opensTag_rules
  have hlt : '<' ∉ h2Lines es :=
    not_mem_h2Lines _ (by decide) es (fun e he => (hes e he).2.2.1)
  have h1 : replaceAll reHeading headingReplacer (h2Fragment es) = h2Lines es :=
    heading_replace es hes 0
  rw [convert_steps, h1, replaceAll_opensTag _ _ o2 _ hlt, replaceAll_opensTag _ _ o3 _ hlt,
    replaceAll_opensTag _ _ o4 _ hlt, replaceAll_opensTag _ _ o5 _ hlt,
    replaceAll_opensTag _ _ o6 _ hlt, replaceAll_opensTag _ _ o7 _ hlt,
    replaceAll_opensTag _ _ o8 _ hlt, replaceAll_opensTag _ _ o9 _ hlt,
    replaceAll_opensTag _ _ o10 _ hlt, replaceAll_opensTag _ _ o11 _ hlt,
    replaceAll_opensTag _ _ o12 _ hlt, replaceAll_opensTag _ _ o13 _ hlt,
    replaceAll_opensTag _ _ o14 _ hlt, replaceAll_opensTag _ _ o15 _ hlt,
    collapse_id _ (calm_h2Lines es hes).1, trim_eq]
  cases es with
  | nil => rfl
  | cons e es =>
    have hform : h2Lines (e :: es) = '\n' :: '#' :: '#' :: ' ' :: (e.2 ++ '\n' :: h2Lines es) := by
      simp [h2Lines, h2Line]
    have hd : (h2Lines (e :: es)).dropWhile isSpace
        = '#' :: '#' :: ' ' :: (e.2 ++ '\n' :: h2Lines es) := by
      rw [hform]
      simp [List.dropWhile, show isSpace '\n' = true by decide,
        show isSpace '#' = false by decide]
    rw [hd, headingLines_trim e es hes]
    simp [Nat.add_comm]

theorem field_mkObj_nil (k : String) : field k (mkObj []) = none := rfl

theorem field_mkObj_none (k k1 : String) (ms : List (String × Option JVal)) :
    field k (mkObj ((k1, none) :: ms)) = field k (mkObj ms) := rfl

theorem field_mkObj_some (k k1 : String) (v : JVal) (ms : List (String × Option JVal)) :
    field k (mkObj ((k1, some v) :: ms)) = if k = k1 then some v else field k (mkObj ms) := by
  by_cases h : k = k1
  · subst h
    simp [field, mkObj, List.lookup]
  · have h2 : (k.data == k1.data) = false := by
      simp only [beq_eq_false_iff_ne, ne_eq]
      intro hh
      exact h (String.ext hh)
    simp [field, mkObj, List.lookup, h, h2]

theorem payload_success (cors : List (Str × Str)) (d : JVal) (calls : List Call) :
    payload ⟨successResponse cors d, calls⟩ = some d := rfl

theorem payload_error (cors : List (Str × Str)) (st : Nat) (msg : Str) (calls : List Call) :
    payload ⟨errorResponse cors st msg, calls⟩ = none := rfl

theorem payload_catch (cors : List (Str × Str)) (a b : Str) (e : Thrown) (calls : List Call) :
    payload ⟨catchError cors a b e, calls⟩ = none := by
  unfold catchError
  split
  · rfl
  · split
    · split <;> rfl
    · rfl

theorem convertFetch_payload (env : ConvertEnv) (req : ConvertRequest) (d : JVal)
    (hd : payload (convertFetch env req) = some d) :
    ∃ body url resp r, req.body = some body ∧ body.url = some url ∧
      env.get url convertRequestHeaders = .ok resp ∧
      convertUpstream env url (body.format.getD (.str "text".toList))
        (body.includeMetadata.getD (.bool true)) resp = .ok r ∧
      payload ⟨r, []⟩ = some d := by
  unfold convertFetch at hd
  split at hd
  · simp [payload] at hd
  split at hd
  · simp [payload_error] at hd
  cases hb : req.body with
  | none => simp [hb, payload_catch] at hd
  | some body =>
    cases hu : body.url with
    | none => simp [hb, hu, payload_error] at hd
    | some url =>
      cases url with
      | nil => simp [hb, hu, payload_error] at hd
      | cons c t =>
        simp only [hb, hu] at hd
        split at hd
        · split at hd
          · simp [payload_catch] at hd
          · split at hd
            · simp [payload_catch] at hd
            · rename_i resp hg _ r hr
              exact ⟨body, c :: t, resp, r, rfl, hu, hg, hr, hd⟩
        · simp [payload_catch] at hd

theorem newResponse_ok (status : Nat) (headers : List (Str × Str)) (body : Body) (r : Response)
    (h : newResponse status headers body = .ok r) :
    (∀ x ∈ headers, validHeaderValue x.2 = true) ∧
    r = ⟨status, headers.map (fun x => (x.1, normalizeValue x.2)), body⟩ := by
  unfold newResponse at h
  split at h
  · rename_i hv
    injection h with h
    exact ⟨fun x hx => List.all_eq_true.1 hv x hx, h.symm⟩
  · exact absurd h (by simp)

theorem newResponse_valid (status : Nat) (headers : List (Str × Str)) (body : Body)
    (h : ∀ x ∈ headers, validHeaderValue x.2 = true) :
    newResponse status headers body
      = .ok ⟨status, headers.map (fun x => (x.1, normalizeValue x.2)), body⟩ := by
  unfold newResponse
  rw [if_pos (List.all_eq_true.2 h)]

theorem payload_stream (env : DownloadEnv) (url contentType : Str) (filename : Option Str)
    (resp : Upstream) (r : Response) (calls : List Call)
    (h : streamResponse env url contentType filename resp = .ok r) :
    payload ⟨r, calls⟩ = none := by
  unfold streamResponse at h
  rw [(newResponse_ok _ _ _ _ h).2]
  rfl

theorem downloadFetch_payload (env : DownloadEnv) (req : DownloadRequest) (d : JVal)
    (hd : payload (downloadFetch env req) = some d) :
    ∃ body url, req.body = some body ∧ body.url = some url ∧
      d = mkObj [
        ("url", some (.str url)),
        ("contentType", some (.str (orElseStr ((env.head url
          [("User-Agent".toList, downloadAgent)]).bind
            (fun h => h.lookup "content-type".toList)) []))),
        ("fileSize", some (numOrNaN (jsParseInt (orElseStr ((env.head url
          [("User-Agent".toList, downloadAgent)]).bind
            (fun h => h.lookup "content-length".toList)) "0".toList)))),
        ("fileSizeFormatted", some (.str (formatFileSize env.formatLarge
          (jsParseInt (orElseStr ((env.head url [("User-Agent".toList, downloadAgent)]).bind
            (fun h => h.lookup "content-length".toList)) "0".toList))))),
        ("isMediaFile", some (.bool (isMediaFile (orElseStr ((env.head url
          [("User-Agent".toList, downloadAgent)]).bind
            (fun h => h.lookup "content-type".toList)) []) url))),
        ("downloadSupported", some (.bool (isMediaFile (orElseStr ((env.head url
          [("User-Agent".toList, downloadAgent)]).bind
            (fun h => h.lookup "content-type".toList)) []) url))),
        ("headers", some (.obj (((env.head url [("User-Agent".toList, downloadAgent)]).getD
          []).map (fun h => (h.1, JVal.str h.2))))),
        ("timestamp", some (.str env.now))] := by
  unfold downloadFetch at hd
  split at hd
  · simp [payload] at hd
  split at hd
  · simp [payload_error] at hd
  cases hb : req.body with
  | none => simp [hb, payload_catch] at hd
  | some body =>
    cases hu : body.url with
    | none => simp [hb, hu, payload_error] at hd
    | some url =>
      cases url with
      | nil => simp [hb, hu, payload_error] at hd
      | cons c t =>
        simp only [hb, hu] at hd
        split at hd
        · split at hd
          · split at hd
            · simp [payload_catch] at hd
            · split at hd
              · simp [payload_catch] at hd
              · rename_i r hr
                rw [payload_stream _ _ _ _ _ _ _ hr] at hd
                exact absurd hd (by simp)
          · rw [payload_success] at hd
            injection hd with hd
            exact ⟨body, c :: t, rfl, hu, hd.symm⟩
        · simp [payload_catch] at hd

theorem jsLength_str (v : JVal) (s : Str) (size : Option JVal) (h : jsLength v = some size)
    (hv : v = .str s) : size = some (.num s.length) := by
  subst hv
  simpa [jsLength] using h.symm

theorem isDecimal_cases (c : Char) (h : isDecimal c = true) :
    c ∈ ['0', '1', '2', '3', '4', '5', '6', '7', '8', '9'] := by
  simp only [isDecimal, Bool.and_eq_true, decide_eq_true_eq] at h
  obtain ⟨h1, h2⟩ := h
  have h1' : 48 ≤ c.toNat := h1
  have h2' : c.toNat ≤ 57 := h2
  have hc : c = Char.ofNat c.toNat := (Char.ofNat_toNat c).symm
  generalize c.toNat = n at *
  subst hc
  interval_cases n <;> decide

theorem readDigits_decimal (ds : Str) (h : ∀ c ∈ ds, isDecimal c = true) (n : Nat) :
    readDigits 10 digitVal (some n) ds = some (ds.foldl (fun n c => n * 10 + (c.toNat - 48)) n) := by
  induction ds generalizing n with
  | nil => rfl
  | cons c t ih =>
    have hc : isDecimal c = true := h c (List.mem_cons_self _ _)
    have hd : digitVal c = some (c.toNat - 48) := by
      simp only [isDecimal] at hc
      simp [digitVal, hc]
    simp only [readDigits, hd, List.foldl_cons, Option.getD_some]
    exact ih (fun x hx => h x (List.mem_cons_of_mem _ hx)) _

theorem parseMagnitude_decimal (ds : Str) (hne : ds ≠ []) (h : ∀ c ∈ ds, isDecimal c = true) :
    parseMagnitude ds = some (decimalValue ds) ∧ ds.dropWhile isSpace = ds ∧
      (∀ u, ds ≠ '-' :: u) ∧ (∀ u, ds ≠ '+' :: u) := by
  cases ds with
  | nil => exact absurd rfl hne
  | cons c t =>
    have hc := isDecimal_cases c (h c (List.mem_cons_self _ _))
    have ht : ∀ x ∈ t, isDecimal x = true := fun x hx => h x (List.mem_cons_of_mem _ hx)
    have hd : digitVal c = some (c.toNat - 48) := by
      have := h c (List.mem_cons_self _ _)
      simp only [isDecimal] at this
      simp [digitVal, this]
    have key : parseMagnitude (c :: t) = some (decimalValue (c :: t)) := by
      have hx : ∀ u, (c = '0' → t ≠ 'x' :: u) ∧ (c = '0' → t ≠ 'X' :: u) := by
        intro u
        constructor <;> intro _ htu <;>
          exact absurd (ht _ (by rw [htu]; exact List.mem_cons_self _ _)) (by decide)
      have : parseMagnitude (c :: t) = readDigits 10 digitVal none (c :: t) := by
        unfold parseMagnitude
        split
        · rename_i u hu
          injection hu with h1 h2
          exact absurd h2 ((hx _).1 h1)
        · rename_i u hu
          injection hu with h1 h2
          exact absurd h2 ((hx _).2 h1)
        · rfl
      rw [this]
      simp only [readDigits, hd, Option.getD_none, Nat.zero_mul, Nat.zero_add]
      rw [readDigits_decimal t ht]
      simp [decimalValue]
    have hsp : (c :: t).dropWhile isSpace = c :: t := by
      have : isSpace c = false := by
        simp only [List.mem_cons, List.mem_singleton, List.not_mem_nil, or_false] at hc
        rcases hc with h | h | h | h | h | h | h | h | h | h <;> subst h <;> decide
      simp [List.dropWhile, this]
    refine ⟨key, hsp, ?_, ?_⟩
    · intro u hu
      injection hu with h1 h2
      subst h1
      exact absurd hc (by decide)
    · intro u hu
      injection hu with h1 h2
      subst h1
      exact absurd hc (by decide)

theorem jsParseInt_decimal (ds : Str) (hne : ds ≠ []) (h : ∀ c ∈ ds, isDecimal c = true) :
    jsParseInt ds = signedNumber false (some (decimalValue ds)) := by
  obtain ⟨key, hsp, h1, h2⟩ := parseMagnitude_decimal ds hne h
  unfold jsParseInt
  rw [hsp]
  split
  · rename_i u
    exact absurd rfl (h1 u)
  · rename_i u
    exact absurd rfl (h2 u)
  · rw [key]

theorem excessBits_le (fuel n k : Nat) (h : n < 2 ^ (53 + k)) : excessBits fuel n ≤ k := by
  induction fuel generalizing n k with
  | zero => exact Nat.zero_le _
  | succ fuel ih =>
    unfold excessBits
    split
    · exact Nat.zero_le _
    · rename_i hn
      cases k with
      | zero => exact absurd h hn
      | succ k =>
        have h2 : n / 2 < 2 ^ (53 + k) := by
          rw [Nat.div_lt_iff_lt_mul (by decide)]
          calc n < 2 ^ (53 + (k + 1)) := h
            _ = 2 ^ (53 + k) * 2 := by rw [← Nat.add_assoc, Nat.pow_succ]
        exact Nat.succ_le_succ (ih _ _ h2)

theorem roundToDouble_exact (n : Nat) (h : n < 2 ^ 53) : roundToDouble n = some n := by
  have hs : excessBits n n = 0 := Nat.le_zero.1 (excessBits_le n n 0 h)
  unfold roundToDouble
  have h2 : n < 9007199254740992 := h
  simp only [hs, Nat.pow_zero, Nat.div_one, Nat.mod_one, Nat.mul_zero, Nat.mul_one]
  simp [h2]

theorem roundToDouble_finite (n : Nat) (h : n < 2 ^ 64) : ∃ m, roundToDouble n = some m := by
  have hs : excessBits n n ≤ 11 := excessBits_le n n 11 h
  have key : ∀ q : Nat, excessBits n n + (if q < 2 ^ 53 then 53 else 54) ≤ 1024 := by
    intro q
    split <;> omega
  unfold roundToDouble
  exact ⟨_, if_pos (key _)⟩

theorem jsParseInt_wire (ds : Str) (hne : ds ≠ []) (h : ∀ c ∈ ds, isDecimal c = true)
    (hb : decimalValue ds < 2 ^ 64) :
    ∃ n : Nat, jsParseInt ds = .int n ∧ (decimalValue ds < 2 ^ 53 → n = decimalValue ds) := by
  rw [jsParseInt_decimal ds hne h]
  obtain ⟨m, hm⟩ := roundToDouble_finite _ hb
  refine ⟨m, ?_, ?_⟩
  · simp [signedNumber, hm]
  · intro h53
    rw [roundToDouble_exact _ h53] at hm
    injection hm with hm
    exact hm.symm

/-- Above 2^53 `parseInt` rounds to the nearest double. -/
theorem jsParseInt_rounds :
    jsParseInt "9007199254740993".toList = .int 9007199254740992 ∧
    jsParseInt "18446744073709551615".toList = .int 18446744073709551616 := by
  decide

theorem sizeOfHeader_parse (h : Option Str) (hw : wireLength h) :
    sizeOfHeader h (numOrNaN (jsParseInt (orElseStr h "0".toList))) := by
  cases h with
  | none => exact ⟨0, rfl, rfl, fun _ => rfl, fun ds hds => absurd hds (by simp)⟩
  | some s =>
    cases s with
    | nil =>
      exact ⟨0, rfl, rfl, fun _ => rfl, fun ds hds hne => by
        injection hds with hds
        exact absurd hds.symm hne⟩
    | cons c t =>
      obtain ⟨hdec, hb⟩ := hw (c :: t) rfl (by simp)
      obtain ⟨n, hn, h53⟩ := jsParseInt_wire (c :: t) (by simp) hdec hb
      have ho : orElseStr (some (c :: t)) "0".toList = c :: t := rfl
      rw [ho]
      refine ⟨n, by rw [hn]; rfl, hn, ?_, ?_⟩
      · rintro (hx | ⟨s, hs, hnan⟩)
        · exact absurd hx (by simp)
        · injection hs with hs
          subst hs
          rw [hn] at hnan
          exact absurd hnan (by simp)
      · intro ds hds _ hlt
        injection hds with hds
        subst hds
        exact h53 hlt

theorem wireLength_digits : wireLength (some "1536".toList) := by
  intro v hv _
  injection hv with hv
  subst hv
  exact ⟨by decide, by decide⟩

theorem presentHeader_eq (name : String) (headers : List (Str × Str)) (v : Str) :
    presentHeader name headers = some v ↔ v ≠ [] ∧ headers.lookup name.toList = some v := by
  unfold presentHeader
  split
  · rename_i c t h
    rw [h]
    constructor
    · intro hv
      injection hv with hv
      subst hv
      exact ⟨by simp, rfl⟩
    · rintro ⟨_, hv⟩
      exact hv
  · rename_i h
    constructor
    · intro hv
      exact absurd hv (by simp)
    · rintro ⟨hne, hv⟩
      cases v with
      | nil => exact absurd rfl hne
      | cons c t => exact absurd hv (h c t)

/-- C2 (the code at the failing input): a request whose url is not empty and does not parse
makes no upstream request, and is answered with status 500 and the generic message, not with
status 400. -/
theorem convertFetch_unparseable_url (env : ConvertEnv) (req : ConvertRequest)
    (body : ConvertBody) (url : Str)
    (hm : req.method = "POST".toList) (hb : req.body = some body)
    (hu : body.url = some url) (hne : url ≠ []) (hv : env.validURL url = false) :
    (convertFetch env req).calls = [] ∧
    (convertFetch env req).response.status = 500 ∧
    (convertFetch env req).response.body =
      .json (.obj [("error".toList, .str "Failed to fetch content from URL".toList)]) := by
  cases url with
  | nil => exact absurd rfl hne
  | cons c t =>
    simp [convertFetch, hm, hb, hu, hv, catchError, typeError, errorResponse, jsonResponse, mkObj]

theorem convertFetch_unparseable_url_witness :
    badUrlReq.method = "POST".toList ∧
    badUrlReq.body = some ⟨some "not a url".toList, none, none⟩ ∧
    "not a url".toList ≠ [] ∧ jsonEnv.validURL "not a url".toList = false ∧
    (convertFetch jsonEnv badUrlReq).calls = [] ∧
    (convertFetch jsonEnv badUrlReq).response.status = 500 ∧
    (convertFetch jsonEnv badUrlReq).response.body =
      .json (.obj [("error".toList, .str "Failed to fetch content from URL".toList)]) :=
  ⟨rfl, rfl, by decide, by decide,
    convertFetch_unparseable_url jsonEnv badUrlReq ⟨some "not a url".toList, none, none⟩
      "not a url".toList rfl rfl rfl (by decide) (by decide)⟩

/-- C3 (counterexample): in the JSON branch, for the upstream body `{"a": 1}`, `content` is the
indented text of 12 characters and `size` is 7. -/
theorem convert_json_size_counterexample :
    (payload (convertFetch jsonEnv (convertReq none))).bind (field "content")
      = some (.str "\x7b\n  \"a\": 1\n\x7d".toList) ∧
    (payload (convertFetch jsonEnv (convertReq none))).bind (field "size") = some (.num 7) ∧
    ("\x7b\n  \"a\": 1\n\x7d".toList).length = 12 :=
  ⟨rfl, rfl, rfl⟩

/-- C3 (amended): in a successful response with a string `content`, outside the JSON branch
`size` is the length of `content`; in the JSON branch `size` is the length of
`JSON.stringify` of the upstream body. -/
theorem convert_size (env : ConvertEnv) (req : ConvertRequest) (d : JVal) (s : Str)
    (hd : payload (convertFetch env req) = some d)
    (hc : field "content" d = some (.str s)) :
    (field "contentType" d ≠ some (.str "application/json".toList) →
      field "size" d = some (.num s.length)) ∧
    (field "contentType" d = some (.str "application/json".toList) →
      ∃ body url resp, req.body = some body ∧ body.url = some url ∧
        env.get url convertRequestHeaders = .ok resp ∧
        field "size" d = some (.num (stringify resp.data).length)) := by
  obtain ⟨body, url, resp, r, hb, hu, hg, hr, hp⟩ := convertFetch_payload env req d hd
  unfold convertUpstream at hr
  simp only at hr
  split at hr
  · injection hr with hr
    subst hr
    rw [payload_success] at hp
    injection hp with hp
    subst hp
    refine ⟨fun h => absurd ?_ h, fun _ => ⟨body, url, resp, hb, hu, hg, ?_⟩⟩
    · simp [field_mkObj_some]
    · simp [field_mkObj_some]
  · split at hr
    · split at hr
      · exact absurd hr (by simp)
      · split at hr
        · exact absurd hr (by simp)
        · rename_i content _ size hsz
          injection hr with hr
          subst hr
          rw [payload_success] at hp
          injection hp with hp
          subst hp
          simp [field_mkObj_some] at hc
          have := jsLength_str _ _ _ hsz hc
          subst this
          refine ⟨fun _ => ?_, fun h => ?_⟩
          · simp [field_mkObj_some]
          · simp [field_mkObj_some] at h
    · split at hr
      · split at hr
        · exact absurd hr (by simp)
        · rename_i size hsz
          injection hr with hr
          subst hr
          rw [payload_success] at hp
          injection hp with hp
          subst hp
          simp [field_mkObj_some] at hc
          have := jsLength_str _ _ _ hsz hc
          subst this
          refine ⟨fun _ => ?_, fun h => ?_⟩
          · simp [field_mkObj_some]
          · rename_i hj _ _ _
            simp [field_mkObj_some] at h
            have h2 : orElseStr (List.lookup "content-type".toList resp.headers) []
                = "application/json".toList := h
            rw [h2] at hj
            exact absurd (by decide) hj
      · injection hr with hr
        subst hr
        rw [payload_success] at hp
        injection hp with hp
        subst hp
        simp [field_mkObj_some, field_mkObj_nil] at hc

theorem convert_size_witness :
    payload (convertFetch textEnv (convertReq none)) = some textPayload ∧
    field "content" textPayload = some (.str "hello".toList) ∧
    (field "contentType" textPayload ≠ some (.str "application/json".toList) →
      field "size" textPayload = some (.num "hello".toList.length)) ∧
    (field "contentType" textPayload = some (.str "application/json".toList) →
      ∃ body url resp, (convertReq none).body = some body ∧ body.url = some url ∧
        textEnv.get url convertRequestHeaders = .ok resp ∧
        field "size" textPayload = some (.num (stringify resp.data).length)) :=
  ⟨rfl, rfl, convert_size textEnv (convertReq none) textPayload "hello".toList rfl rfl⟩

/-- C4 (counterexample): for the format `pdf` and an HTML upstream, the payload carries the
format tag `pdf`. -/
theorem convert_format_counterexample :
    (payload (convertFetch htmlEnv (convertReq (some (.str "pdf".toList))))).bind
      (field "format") = some (.str "pdf".toList) ∧ "pdf".toList ∉ formatTags :=
  ⟨rfl, by decide⟩

/-- C4 (amended): when the format field of the request is absent or one of `text`, `markdown`,
`html`, the payload of a successful response carries one of the five format tags. -/
theorem convert_format (env : ConvertEnv) (req : ConvertRequest) (d : JVal)
    (hreq : req.body.bind (fun b => b.format) ∈ [none, some (.str "text".toList),
      some (.str "markdown".toList), some (.str "html".toList)])
    (hd : payload (convertFetch env req) = some d) :
    ∃ f, field "format" d = some (.str f) ∧ f ∈ formatTags := by
  obtain ⟨body, url, resp, r, hb, hu, hg, hr, hp⟩ := convertFetch_payload env req d hd
  rw [hb] at hreq
  simp only [Option.some_bind, List.mem_cons, List.mem_singleton, List.not_mem_nil,
    or_false] at hreq
  unfold convertUpstream at hr
  simp only at hr
  split at hr
  · injection hr with hr
    subst hr
    rw [payload_success] at hp
    injection hp with hp
    subst hp
    exact ⟨"json".toList, by simp [field_mkObj_some], by decide⟩
  · split at hr
    · split at hr
      · exact absurd hr (by simp)
      · split at hr
        · exact absurd hr (by simp)
        · injection hr with hr
          subst hr
          rw [payload_success] at hp
          injection hp with hp
          subst hp
          rcases hreq with h | h | h | h
          · exact ⟨"text".toList, by simp [field_mkObj_some, h], by decide⟩
          · exact ⟨"text".toList, by simp [field_mkObj_some, h], by decide⟩
          · exact ⟨"markdown".toList, by simp [field_mkObj_some, h], by decide⟩
          · exact ⟨"html".toList, by simp [field_mkObj_some, h], by decide⟩
    · split at hr
      · split at hr
        · exact absurd hr (by simp)
        · injection hr with hr
          subst hr
          rw [payload_success] at hp
          injection hp with hp
          subst hp
          exact ⟨"text".toList, by simp [field_mkObj_some], by decide⟩
      · injection hr with hr
        subst hr
        rw [payload_success] at hp
        injection hp with hp
        subst hp
        exact ⟨"binary".toList, by simp [field_mkObj_some], by decide⟩

theorem convert_format_witness :
    (convertReq (some (.str "markdown".toList))).body.bind (fun b => b.format)
      ∈ [none, some (.str "text".toList), some (.str "markdown".toList),
        some (.str "html".toList)] ∧
    payload (convertFetch htmlEnv (convertReq (some (.str "markdown".toList))))
      = some markdownPayload ∧
    ∃ f, field "format" markdownPayload = some (.str f) ∧ f ∈ formatTags :=
  ⟨.tail _ (.tail _ (.head _)), rfl,
    convert_format htmlEnv (convertReq (some (.str "markdown".toList))) markdownPayload
      (.tail _ (.tail _ (.head _))) rfl⟩

/-- C7 (counterexample): an inbound request that carries a Range header with an empty value
leads to an upstream GET without a Range header; and a request that asks for the filename
`音乐.mp3` is answered with status 500, after the upstream GET, although the upstream response
has a Content-Range header. -/
theorem stream_range_counterexample :
    ((downloadReq (some []) true).range = some [] ∧
      (sentHeaders (downloadFetch (mediaEnv []) (downloadReq (some []) true))).map
        (List.lookup "Range".toList) = some none) ∧
    ((downloadFetch (mediaEnv [("content-range".toList, "bytes 0-99/1536".toList)])
        (namedDownloadReq "音乐.mp3".toList)).calls
      = [Call.head "http://a.b/file.Mp3".toList [("User-Agent".toList, downloadAgent)],
          Call.get "http://a.b/file.Mp3".toList [("User-Agent".toList, downloadAgent)]] ∧
      (downloadFetch (mediaEnv [("content-range".toList, "bytes 0-99/1536".toList)])
        (namedDownloadReq "音乐.mp3".toList)).response.status = 500) :=
  ⟨⟨rfl, rfl⟩, rfl, by decide⟩

/-- C7 (amended): in the streaming branch, a Range header with a non-empty value is sent
unchanged as the Range header of the upstream GET and none is sent when the request has none.
When every value of the response headers is a valid header value (a ByteString without NUL,
line feed or carriage return), the status is 206 exactly when the upstream response has a
Content-Range header with a non-empty value, and 200 otherwise; in the 206 case that value is
echoed, without leading and trailing white space. -/
theorem stream_range (env : DownloadEnv) (req : DownloadRequest) (body : DownloadBody)
    (url : Str) (resp : Upstream)
    (hm : req.method = "POST".toList) (hb : req.body = some body) (hu : body.url = some url)
    (hne : url ≠ []) (hv : env.validURL url = true)
    (hdl : truthy (body.download.getD (.bool false)) = true)
    (hmedia : isMediaFile (orElseStr ((env.head url [("User-Agent".toList, downloadAgent)]).bind
      (fun h => h.lookup "content-type".toList)) []) url = true)
    (hg : env.get url (streamRequestHeaders req.range) = .ok resp) :
    ∃ sent, (downloadFetch env req).calls
        = [Call.head url [("User-Agent".toList, downloadAgent)], Call.get url sent] ∧
      (∀ v, req.range = some v → v ≠ [] → sent.lookup "Range".toList = some v) ∧
      (req.range = none → sent.lookup "Range".toList = none) ∧
      ((∀ h ∈ streamHeaders env url (orElseStr ((env.head url
          [("User-Agent".toList, downloadAgent)]).bind
            (fun h => h.lookup "content-type".toList)) []) body.filename resp,
          validHeaderValue h.2 = true) →
        ((downloadFetch env req).response.status = 206 ↔
          ∃ v, v ≠ [] ∧ resp.headers.lookup "content-range".toList = some v) ∧
        ((downloadFetch env req).response.status ≠ 206 →
          (downloadFetch env req).response.status = 200) ∧
        (∀ v, v ≠ [] → resp.headers.lookup "content-range".toList = some v →
          (downloadFetch env req).response.headers.lookup "Content-Range".toList
            = some (normalizeValue v))) := by
  cases url with
  | nil => exact absurd rfl hne
  | cons c t =>
    have hout : downloadFetch env req =
        match streamResponse env (c :: t) (orElseStr ((env.head (c :: t)
          [("User-Agent".toList, downloadAgent)]).bind
            (fun h => h.lookup "content-type".toList)) []) body.filename resp with
        | .error e => ⟨catchError downloadCors "Invalid URL or resource not accessible".toList
            "Failed to process download request".toList e,
            [Call.head (c :: t) [("User-Agent".toList, downloadAgent)],
              Call.get (c :: t) (streamRequestHeaders req.range)]⟩
        | .ok r => ⟨r, [Call.head (c :: t) [("User-Agent".toList, downloadAgent)],
            Call.get (c :: t) (streamRequestHeaders req.range)]⟩ := by
      unfold downloadFetch
      rw [if_neg (by rw [hm]; decide), if_neg (by rw [hm]; simp)]
      simp only [hb, hu, hv, hdl, hmedia, hg, if_true, Bool.and_self]
      all_goals (generalize streamResponse _ _ _ _ _ = x; cases x <;> rfl)
    refine ⟨streamRequestHeaders req.range, ?_, ?_, ?_, ?_⟩
    · rw [hout]
      split <;> rfl
    · intro v hr hvne
      cases v with
      | nil => exact absurd rfl hvne
      | cons a b => rw [hr]; rfl
    · intro hr
      rw [hr]; rfl
    · intro hvalid
      have hs : streamResponse env (c :: t) (orElseStr ((env.head (c :: t)
          [("User-Agent".toList, downloadAgent)]).bind
            (fun h => h.lookup "content-type".toList)) []) body.filename resp = .ok _ :=
        newResponse_valid _ _ _ hvalid
      rw [hout, hs]
      refine ⟨?_, ?_, ?_⟩
      · constructor
        · intro h
          cases hp : presentHeader "content-range" resp.headers with
          | none => simp [hp] at h
          | some v => exact ⟨v, (presentHeader_eq _ _ _).1 hp⟩
        · rintro ⟨v, hv⟩
          simp [(presentHeader_eq _ _ _).2 hv]
      · cases presentHeader "content-range" resp.headers <;> simp
      · intro v hvne hl
        have hp := (presentHeader_eq "content-range" resp.headers v).2 ⟨hvne, hl⟩
        simp only [streamHeaders, hp]
        cases presentHeader "content-length" resp.headers <;>
          simp [downloadCors, List.lookup]

theorem stream_range_witness :
    (downloadReq (some "bytes=0-99".toList) true).method = "POST".toList ∧
    (downloadReq (some "bytes=0-99".toList) true).body
      = some ⟨some "http://a.b/file.Mp3".toList, some (.bool true), none⟩ ∧
    "http://a.b/file.Mp3".toList ≠ [] ∧
    (mediaEnv [("content-range".toList, "bytes 0-99/1536".toList)]).validURL
      "http://a.b/file.Mp3".toList = true ∧
    (mediaEnv [("content-range".toList, "bytes 0-99/1536".toList)]).get
      "http://a.b/file.Mp3".toList (streamRequestHeaders (some "bytes=0-99".toList))
      = .ok ⟨[("content-range".toList, "bytes 0-99/1536".toList)], .null⟩ ∧
    (∀ h ∈ streamHeaders (mediaEnv [("content-range".toList, "bytes 0-99/1536".toList)])
        "http://a.b/file.Mp3".toList "audio/mpeg".toList none
        ⟨[("content-range".toList, "bytes 0-99/1536".toList)], .null⟩,
      validHeaderValue h.2 = true) ∧
    ∃ sent, (downloadFetch (mediaEnv [("content-range".toList, "bytes 0-99/1536".toList)])
        (downloadReq (some "bytes=0-99".toList) true)).calls
        = [Call.head "http://a.b/file.Mp3".toList [("User-Agent".toList, downloadAgent)],
            Call.get "http://a.b/file.Mp3".toList sent] ∧
      sent.lookup "Range".toList = some "bytes=0-99".toList ∧
      (downloadFetch (mediaEnv [("content-range".toList, "bytes 0-99/1536".toList)])
        (downloadReq (some "bytes=0-99".toList) true)).response.status = 206 ∧
      (downloadFetch (mediaEnv [("content-range".toList, "bytes 0-99/1536".toList)])
        (downloadReq (some "bytes=0-99".toList) true)).response.headers.lookup
          "Content-Range".toList = some "bytes 0-99/1536".toList :=
  ⟨rfl, rfl, by decide, by decide, rfl, by decide,
    match stream_range (mediaEnv [("content-range".toList, "bytes 0-99/1536".toList)])
      (downloadReq (some "bytes=0-99".toList) true)
      ⟨some "http://a.b/file.Mp3".toList, some (.bool true), none⟩
      "http://a.b/file.Mp3".toList ⟨[("content-range".toList, "bytes 0-99/1536".toList)], .null⟩
      rfl rfl rfl (by decide) (by decide) (by decide) (by decide) rfl with
    | ⟨sent, h1, h2, _, h4⟩ =>
      ⟨sent, h1, h2 _ rfl (by decide),
        (h4 (by decide)).1.2 ⟨_, by decide, rfl⟩,
        (h4 (by decide)).2.2 _ (by decide) rfl⟩⟩

/-- C9: for every declared content type, the empty one included, and every URL that ends with
a dot followed by one of the sixteen extensions in any mix of upper and lower case,
`isMediaFile` is true, and the metadata response of the download handler for such a URL
reports `isMediaFile` and `downloadSupported` as true. -/
theorem media_suffix_classified (pre e ext : Str) (he : e ∈ mediaExtensions)
    (hv : caseVariant e ext = true) :
    (∀ contentType, isMediaFile contentType (pre ++ '.' :: ext) = true) ∧
    ∀ (env : DownloadEnv) (req : DownloadRequest) (body : DownloadBody),
      req.method = "POST".toList → req.body = some body →
      body.url = some (pre ++ '.' :: ext) → env.validURL (pre ++ '.' :: ext) = true →
      truthy (body.download.getD (.bool false)) = false →
      ∃ d, payload (downloadFetch env req) = some d ∧
        field "isMediaFile" d = some (.bool true) ∧
        field "downloadSupported" d = some (.bool true) := by
  have hmedia : ∀ contentType, isMediaFile contentType (pre ++ '.' :: ext) = true := by
    intro contentType
    simp [isMediaFile, reMediaExt_test pre e ext he hv]
  refine ⟨hmedia, ?_⟩
  intro env req body hm hb hu hval hdl
  obtain ⟨c, t, hct⟩ : ∃ c t, pre ++ '.' :: ext = c :: t := by
    cases pre with
    | nil => exact ⟨_, _, rfl⟩
    | cons a pre => exact ⟨_, _, rfl⟩
  rw [hct] at hu hval hmedia
  have hp : ∃ d, payload (downloadFetch env req) = some d := by
    unfold downloadFetch
    rw [if_neg (by rw [hm]; decide), if_neg (by rw [hm]; simp)]
    simp only [hb, hu, hval, hdl, if_true, Bool.false_and, Bool.false_eq_true, if_false]
    exact ⟨_, payload_success _ _ _⟩
  obtain ⟨d, hd⟩ := hp
  obtain ⟨body1, url1, hb1, hu1, hdd⟩ := downloadFetch_payload env req d hd
  rw [hb] at hb1
  injection hb1 with hb1
  subst hb1
  rw [hu] at hu1
  injection hu1 with hu1
  subst hu1
  subst hdd
  exact ⟨_, hd, by simp [field_mkObj_some, hmedia], by simp [field_mkObj_some, hmedia]⟩

theorem media_suffix_classified_witness :
    "mp3".toList ∈ mediaExtensions ∧ caseVariant "mp3".toList "Mp3".toList = true ∧
    (∀ contentType, isMediaFile contentType ("http://a.b/file".toList ++ '.' :: "Mp3".toList)
      = true) ∧
    ∀ (env : DownloadEnv) (req : DownloadRequest) (body : DownloadBody),
      req.method = "POST".toList → req.body = some body →
      body.url = some ("http://a.b/file".toList ++ '.' :: "Mp3".toList) →
      env.validURL ("http://a.b/file".toList ++ '.' :: "Mp3".toList) = true →
      truthy (body.download.getD (.bool false)) = false →
      ∃ d, payload (downloadFetch env req) = some d ∧
        field "isMediaFile" d = some (.bool true) ∧
        field "downloadSupported" d = some (.bool true) :=
  ⟨by decide, by decide,
    media_suffix_classified "http://a.b/file".toList "mp3".toList "Mp3".toList (by decide)
      (by decide)⟩

/-- C10: in the binary branch of convert and in the probe of the download handler, for a
content-length header as the transport delivers it (absent, empty, or decimal digits below
2^64), `fileSize` is a non-negative integer, never `NaN`: it is the result of `parseInt` on
the header, it is 0 when the header is absent (a failed probe included) or does not parse,
and it is the number written in the header when that is below 2^53. -/
theorem fileSize_from_content_length :
    (∀ (env : ConvertEnv) (req : ConvertRequest) (d v : JVal),
      (∀ u hs resp, env.get u hs = .ok resp →
        wireLength (resp.headers.lookup "content-length".toList)) →
      payload (convertFetch env req) = some d → field "fileSize" d = some v →
      ∃ body url resp, req.body = some body ∧ body.url = some url ∧
        env.get url convertRequestHeaders = .ok resp ∧
        sizeOfHeader (resp.headers.lookup "content-length".toList) v) ∧
    (∀ (env : DownloadEnv) (req : DownloadRequest) (d v : JVal),
      (∀ u hs h, env.head u hs = some h → wireLength (h.lookup "content-length".toList)) →
      payload (downloadFetch env req) = some d → field "fileSize" d = some v →
      ∃ body url, req.body = some body ∧ body.url = some url ∧
        sizeOfHeader ((env.head url [("User-Agent".toList, downloadAgent)]).bind
          (fun h => h.lookup "content-length".toList)) v) := by
  constructor
  · intro env req d v hw hd hv
    obtain ⟨body, url, resp, r, hb, hu, hg, hr, hp⟩ := convertFetch_payload env req d hd
    refine ⟨body, url, resp, hb, hu, hg, ?_⟩
    have hwr := hw _ _ _ hg
    unfold convertUpstream at hr
    simp only at hr
    split at hr
    · injection hr with hr
      subst hr
      rw [payload_success] at hp
      injection hp with hp
      subst hp
      simp [field_mkObj_some, field_mkObj_nil] at hv
    · split at hr
      · split at hr
        · exact absurd hr (by simp)
        · split at hr
          · exact absurd hr (by simp)
          · rename_i size _
            injection hr with hr
            subst hr
            rw [payload_success] at hp
            injection hp with hp
            subst hp
            cases size <;> simp [field_mkObj_some, field_mkObj_none, field_mkObj_nil] at hv
      · split at hr
        · split at hr
          · exact absurd hr (by simp)
          · rename_i size _
            injection hr with hr
            subst hr
            rw [payload_success] at hp
            injection hp with hp
            subst hp
            cases size <;> simp [field_mkObj_some, field_mkObj_none, field_mkObj_nil] at hv
        · injection hr with hr
          subst hr
          rw [payload_success] at hp
          injection hp with hp
          subst hp
          simp only [field_mkObj_some] at hv
          simp only [String.reduceEq, if_false, if_true] at hv
          injection hv with hv
          subst hv
          exact sizeOfHeader_parse _ hwr
  · intro env req d v hw hd hv
    obtain ⟨body, url, hb, hu, hdd⟩ := downloadFetch_payload env req d hd
    refine ⟨body, url, hb, hu, ?_⟩
    subst hdd
    simp only [field_mkObj_some] at hv
    simp only [String.reduceEq, if_false, if_true] at hv
    injection hv with hv
    subst hv
    apply sizeOfHeader_parse
    cases hh : env.head url [("User-Agent".toList, downloadAgent)] with
    | none => exact fun v hv => absurd hv (by simp)
    | some h => exact hw _ _ _ hh

theorem fileSize_from_content_length_witness :
    ((∀ u hs resp, binaryEnv.get u hs = .ok resp →
        wireLength (resp.headers.lookup "content-length".toList)) ∧
      payload (convertFetch binaryEnv (convertReq none)) = some binaryPayload ∧
      field "fileSize" binaryPayload = some (.num 1536) ∧
      ∃ body url resp, (convertReq none).body = some body ∧ body.url = some url ∧
        binaryEnv.get url convertRequestHeaders = .ok resp ∧
        sizeOfHeader (resp.headers.lookup "content-length".toList) (.num 1536)) ∧
    ((∀ u hs h, silentEnv.head u hs = some h → wireLength (h.lookup "content-length".toList)) ∧
      (payload (downloadFetch silentEnv (downloadReq none false))).bind (field "fileSize")
        = some (.num 0) ∧
      ∀ d, payload (downloadFetch silentEnv (downloadReq none false)) = some d →
        field "fileSize" d = some (.num 0) →
        ∃ body url, (downloadReq none false).body = some body ∧ body.url = some url ∧
          sizeOfHeader ((silentEnv.head url [("User-Agent".toList, downloadAgent)]).bind
            (fun h => h.lookup "content-length".toList)) (.num 0)) :=
  ⟨⟨fun _ _ _ h => by cases h; exact wireLength_digits,
      rfl, rfl,
      fileSize_from_content_length.1 binaryEnv (convertReq none) binaryPayload (.num 1536)
        (fun _ _ _ h => by cases h; exact wireLength_digits) rfl rfl⟩,
    ⟨fun _ _ _ h => absurd h (by simp [silentEnv]), rfl,
      fun d hd hv => fileSize_from_content_length.2 silentEnv (downloadReq none false) d (.num 0)
        (fun _ _ _ h => absurd h (by simp [silentEnv])) hd hv⟩⟩

theorem convert_idempotent_witness :
    '<' ∉ "a\n\n\n \nb \n".toList ∧
    convertHtmlToMarkdown (convertHtmlToMarkdown "a\n\n\n \nb \n".toList)
      = convertHtmlToMarkdown "a\n\n\n \nb \n".toList :=
  ⟨by decide, convert_idempotent "a\n\n\n \nb \n".toList (by decide)⟩

/-- C6 (counterexample): a fragment with one `h2` element whose content spans two lines is
converted to a text without a line that begins with `## `. -/
theorem convert_h2_multiline_counterexample :
    convertHtmlToMarkdown "<h2>Release\nnotes</h2>".toList = "Release\nnotes".toList ∧
    headingLines (convertHtmlToMarkdown "<h2>Release\nnotes</h2>".toList) = 0 :=
  ⟨by decide, by decide⟩

theorem convert_h2_witness :
    (∀ e ∈ exampleHeadings, plainHeading e) ∧
    headingLines (convertHtmlToMarkdown (h2Fragment exampleHeadings)) = exampleHeadings.length :=
  ⟨by unfold plainHeading; decide, convert_h2 exampleHeadings (by unfold plainHeading; decide)⟩

/-- C8 (code at the failing input): for every src text `S` and alt text `A` without double
quote, angle bracket or newline, the single tag `<img alt="A" src="S">`, with the alt
attribute before the src attribute, is converted to `![](S)`: the alt text is lost, where the
claim has `![A](S)`. -/
theorem convert_img_alt_first (S A : Str) (hS : plainAttr S) (hA : plainAttr A) :
    convertHtmlToMarkdown ("<img alt=\"".toList ++ A ++ "\" src=\"".toList ++ S ++ "\">".toList)
      = "![](".toList ++ S ++ [')'] :=
  convert_img_alt_src S A hS hA

theorem convert_img_alt_first_witness :
    plainAttr "a.png".toList ∧ plainAttr "Logo".toList ∧
    convertHtmlToMarkdown ("<img alt=\"".toList ++ "Logo".toList ++ "\" src=\"".toList ++
        "a.png".toList ++ "\">".toList)
      = "![](".toList ++ "a.png".toList ++ [')'] ∧
    "![](".toList ++ "a.png".toList ++ [')'] ≠ "![Logo](a.png)".toList :=
  ⟨by unfold plainAttr; decide, by unfold plainAttr; decide,
    convert_img_alt_first "a.png".toList "Logo".toList (by unfold plainAttr; decide)
      (by unfold plainAttr; decide), by decide⟩

end Downloader
